import Mathlib

/-!
Router of `pkg/gateway2`, with the route groups of `pkg/gateway`.

A shallow embedding of the method table and the segment-indexed routing trie
of `src/pkg/gateway2/tree.go`, of the request context, its dispatch and its
error list (`context.go`), of the response writer (`response_writer.go`), of
the gateway (`gateway.go`) and of the route groups and the redirect of
`src/pkg/gateway`, followed by theorems about registration (`AddRoute`,
`addroute`), path segmentation (`getPathSegments`), lookup (`GetReqValue`,
`GetValue`), handler composition (`combineHandlers`, `Use`), dispatch (`Next`,
`Abort`), the pooled context (`reset`, `Error`) and the not-found path
(`serveError`).

Conventions of the embedding.

* A Go `string` is the list of its bytes (`GoString`); a byte is written as a
  `Char`.  Only the bytes `'/'`, `':'` and `'*'` are ever inspected by the code.
* A Go `map[string]T` is an association list with at most one entry per key;
  `mapGet` is the read `m[k]` (with its `ok` flag as `Option`), `mapSet` the
  write `m[k] = v`.
* A `*node` is uniquely owned by the map that stores it, so the in-place
  mutation of the trie is a functional update of the parent.
* A panic (a failed `assert1`, an index out of range, a slice that is extended
  beyond its capacity) is the result `none`.
* The debug output (`fmt.Printf`) and the locks are not part of the model.
-/

namespace Gateway2

/-- A Go string: the list of its bytes. -/
abbrev GoString := List Char

/-- Constant `wildcard = "wildcard"`: the reserved key of the wildcard child. -/
def wildcard : GoString := ['w', 'i', 'l', 'd', 'c', 'a', 'r', 'd']

/-- Type `nodeKind` with its constants in `iota` order. -/
inductive nodeKind where
  | normal
  | root
  | param
  | catchAll
  | query
  deriving DecidableEq, Repr

/-- Type `pathSegment`. -/
structure pathSegment where
  value : GoString
  kind : nodeKind
  deriving DecidableEq, Repr

/-- A handler function is compared by identity only; it is represented by an
identifier. -/
abbrev HandlerFunc := Nat

/-- Type `HandlersChain`.  The `nil` chain is `[]`: every chain stored by a
registration has at least one handler, so no empty non-nil chain occurs in a
trie. -/
abbrev HandlersChain := List HandlerFunc

/-- Type `node`: the embedded `pathSegment`, the `children` map and the
`handlers`. -/
inductive node where
  | mk (pathSegment : pathSegment) (children : List (GoString × node))
      (handlers : HandlersChain)

/-- Field `node.pathSegment`. -/
def node.pathSegment : node → pathSegment
  | .mk ps _ _ => ps

/-- Field `node.children`. -/
def node.children : node → List (GoString × node)
  | .mk _ cs _ => cs

/-- Field `node.handlers`. -/
def node.handlers : node → HandlersChain
  | .mk _ _ hs => hs

/-- The map read `m[k]`. -/
def mapGet {α : Type} : List (GoString × α) → GoString → Option α
  | [], _ => none
  | (k', v) :: rest, k => if k' = k then some v else mapGet rest k

/-- The map write `m[k] = v`. -/
def mapSet {α : Type} : List (GoString × α) → GoString → α → List (GoString × α)
  | [], k, v => [(k, v)]
  | (k', v') :: rest, k, v =>
    if k' = k then (k, v) :: rest else (k', v') :: mapSet rest k v

/-- Type `methodTree`: the `tree` map and the `supportedMethods` set. -/
structure methodTree where
  tree : List (GoString × node)
  supportedMethods : List GoString

/-- The nine keys of `supportedMethods` in `NewTree`. -/
def httpMethods : List GoString :=
  ["GET".toList, "POST".toList, "PUT".toList, "PATCH".toList, "HEAD".toList,
   "OPTIONS".toList, "DELETE".toList, "CONNECT".toList, "TRACE".toList]

/-- The node `NewTree` stores for each method. -/
def newRootNode : node :=
  .mk { value := ['/'], kind := .root } [] []

/-- Function `NewTree`. -/
def NewTree : methodTree :=
  { tree := httpMethods.map (fun m => (m, newRootNode)),
    supportedMethods := httpMethods }

/-- Modelled from the spec: `assert1` is called by tree.go but defined in a file
that is not part of the sources; a violated contract "fails fast (unrecoverable,
not retried)", so `assert1 guard` fails exactly when `guard` is false. -/
def assert1 (guard : Bool) : Option Unit :=
  if guard then some () else none

/-- The loop variables of `getPathSegments`. -/
structure segState where
  ps : List pathSegment
  valid : Bool
  begin : Nat
  kind : nodeKind
  lastPathSegment : Bool
  deriving DecidableEq, Repr

/-- The Go slice expression `path[lo:hi]`. -/
def slice (path : GoString) (lo hi : Nat) : GoString :=
  (path.drop lo).take (hi - lo)

/-- The `switch c` at the end of the loop body of `getPathSegments`. -/
def segSwitch (c : Char) (s : segState) : segState :=
  if c = ':' then
    { s with valid := if s.kind ≠ .normal then false else s.valid, kind := .param }
  else if c = '*' then
    { s with valid := if s.kind ≠ .normal then false else s.valid, kind := .catchAll }
  else s

/-- The `if c == '/' || idx == len(path)-1` block of `getPathSegments`. -/
def segAppend (path : GoString) (idx : Nat) (c : Char) (s : segState) : segState :=
  if c = '/' ∨ idx = path.length - 1 then
    let lastPathSegment :=
      if idx = path.length - 1 ∧ c = '/' then true else s.lastPathSegment
    let end_ := if idx = path.length - 1 ∧ c ≠ '/' then idx + 1 else idx
    let ps := s.ps ++ [{ value := slice path (s.begin + 1) end_, kind := s.kind }]
    let ps := if lastPathSegment then ps ++ [{ value := [c], kind := s.kind }] else ps
    { ps := ps, valid := s.valid, begin := idx, kind := .normal,
      lastPathSegment := lastPathSegment }
  else s

/-- One iteration of `for idx, c := range []byte(path)`. -/
def segStep (path : GoString) (idx : Nat) (c : Char) (s : segState) : segState :=
  if idx > 0 then segSwitch c (segAppend path idx c s) else s

/-- The iterations of the loop of `getPathSegments` over the bytes `rest`, the
first of which has index `idx`. -/
def segLoop (path : GoString) : Nat → List Char → segState → segState
  | _, [], s => s
  | idx, c :: rest, s => segLoop path (idx + 1) rest (segStep path idx c s)

/-- Function `getPathSegments`.  The expression `[]byte(path)[0]` fails on the
empty path. -/
def getPathSegments (path : GoString) : Option (List pathSegment × Bool) :=
  match path with
  | [] => none
  | c0 :: _ =>
    let s := segLoop path 0 path
      { ps := [{ value := [c0], kind := .root }], valid := true, begin := 0,
        kind := .normal, lastPathSegment := false }
    some (s.ps, s.valid)

/-- Method `node.addroute(idx, pathSegments, handlers)`; the list argument is
`pathSegments[idx:]`, so `pathSegments[idx]` is its head (out of range when the
list is empty) and `idx == len(pathSegments)-1` holds when its tail is empty. -/
def addroute (r : node) : List pathSegment → HandlersChain → Option node
  | [], _ => none
  | ps :: rest, handlers =>
    let psValue :=
      if ps.kind = .param ∨ ps.kind = .catchAll then wildcard else ps.value
    let ok := (mapGet r.children psValue).isSome
    let n := (mapGet r.children psValue).getD (.mk ps [] [])
    (if ok ∧ psValue = wildcard then assert1 ok else some ()).bind fun _ =>
    match rest with
    | [] =>
      some (.mk r.pathSegment
        (mapSet r.children psValue (.mk n.pathSegment n.children handlers)) r.handlers)
    | _ :: _ =>
      (addroute n rest handlers).bind fun n' =>
      some (.mk r.pathSegment (mapSet r.children psValue n') r.handlers)

/-- Method `methodTree.AddRoute`.  The expression `absolutePath[0]` fails on the
empty path. -/
def AddRoute (r : methodTree) (httpMethod absolutePath : GoString)
    (handlers : HandlersChain) : Option methodTree :=
  match absolutePath with
  | [] => none
  | c0 :: _ =>
    (assert1 (c0 = '/')).bind fun _ =>
    (assert1 (httpMethod ≠ [])).bind fun _ =>
    (assert1 (handlers.length > 0)).bind fun _ =>
    (assert1 (mapGet r.tree httpMethod).isSome).bind fun _ =>
    match mapGet r.tree httpMethod with
    | none => none
    | some rn =>
      (getPathSegments absolutePath).bind fun (pathSegments, valid) =>
      (if !valid then assert1 false else some ()).bind fun _ =>
      if pathSegments.length = 1 then
        let rn' : node := .mk rn.pathSegment rn.children handlers
        some { r with tree := mapSet r.tree httpMethod rn' }
      else
        (addroute rn (pathSegments.drop 1) handlers).bind fun rn' =>
        some { r with tree := mapSet r.tree httpMethod rn' }

/-- Type `Param` (a key and a value). -/
structure Param where
  Key : GoString
  Value : GoString
  deriving DecidableEq, Repr

/-- Type `Params`, a slice of `Param`: its elements and the capacity of its
backing array. -/
structure Params where
  elems : List Param
  cap : Nat
  deriving DecidableEq, Repr

/-- Type `valueContext`; `params` is `none` for the nil pointer and otherwise
the contents of the buffer it points to. -/
structure valueContext where
  handlers : HandlersChain := []
  params : Option Params := none
  tsr : Bool := false
  deriving DecidableEq, Repr

/-- Method `node.GetValue(reqCtx)`; the list argument is
`reqCtx.pathSegments[reqCtx.pathSegmentIdx:]` and `params` is the buffer
`*reqCtx.params`.  The result is the returned `valueContext` together with the
buffer as the call leaves it.  Extending the buffer beyond its capacity fails,
and so does `value[1:]` on an empty `value`. -/
def GetValue (r : node) : List pathSegment → Params → Option (valueContext × Params)
  | [], _ => none
  | seg :: rest, params =>
    let found : Option (Option (node × Params)) :=
      match mapGet r.children seg.value with
      | some nd => some (some (nd, params))
      | none =>
        match mapGet r.children wildcard with
        | none => some none
        | some nd =>
          if params.elems.length + 1 ≤ params.cap then
            match nd.pathSegment.value with
            | [] => none
            | _ :: key =>
              let p : Param := { Key := key, Value := seg.value }
              some (some (nd, { params with elems := params.elems ++ [p] }))
          else none
    match found with
    | none => none
    | some none => some ({}, params)
    | some (some (nd, params')) =>
      match rest with
      | [] => some ({ handlers := nd.handlers, params := some params' }, params')
      | _ :: _ => GetValue nd rest params'

/-- Method `methodTree.GetReqValue(reqCtx)` for a request context with the given
`httpMethod`, `path` and `params` buffer. -/
def GetReqValue (r : methodTree) (httpMethod path : GoString) (params : Params) :
    Option (valueContext × Params) :=
  (getPathSegments path).bind fun (pathSegments, valid) =>
  if !valid then some ({}, params) else
  match mapGet r.tree httpMethod with
  | none => some ({}, params)
  | some n =>
    if pathSegments.length = 1 then
      some ({ handlers := n.handlers }, params)
    else GetValue n (pathSegments.drop 1) params

/-! ## Auxiliary definitions used to state and prove the theorems -/

/-- The effect of the `switch c` of `getPathSegments` on the pair
(`kind`, `valid`). -/
def markStep (c : Char) (kv : nodeKind × Bool) : nodeKind × Bool :=
  if c = ':' then (.param, if kv.1 ≠ .normal then false else kv.2)
  else if c = '*' then (.catchAll, if kv.1 ≠ .normal then false else kv.2)
  else kv

/-- The pair (`kind`, `valid`) after the bytes of a chunk have gone through the
`switch`. -/
def markScan : List Char → nodeKind × Bool → nodeKind × Bool
  | [], kv => kv
  | c :: cs, kv => markScan cs (markStep c kv)

/-- An index-free reading of the loop of `getPathSegments`: the segments still
to be appended and the final `valid`, when the bytes `rest` remain, `cur` is
the part of the current chunk already read, and `kind`, `valid` are the loop
variables. -/
def scan : List Char → GoString → nodeKind → Bool → List pathSegment × Bool
  | [], _, _, v => ([], v)
  | [c], cur, k, v =>
    if c = '/' then ([⟨cur, k⟩, ⟨['/'], k⟩], v) else ([⟨cur ++ [c], k⟩], v)
  | c :: c' :: rest, cur, k, v =>
    if c = '/' then
      (⟨cur, k⟩ :: (scan (c' :: rest) [] .normal v).1, (scan (c' :: rest) [] .normal v).2)
    else
      scan (c' :: rest) (cur ++ [c]) (markStep c (k, v)).1 (markStep c (k, v)).2

/-- The key under which `addroute` stores the child for a segment. -/
def keyOf (ps : pathSegment) : GoString :=
  if ps.kind = .param ∨ ps.kind = .catchAll then wildcard else ps.value

/-- The path body `c1/c2/.../cn` made of the chunks `c1 .. cn`. -/
def joinBody : List GoString → GoString
  | [] => []
  | [c] => c
  | c :: c' :: cs => c ++ '/' :: joinBody (c' :: cs)

/-- The kind announced by the first byte of a chunk. -/
def niceKind : GoString → nodeKind
  | [] => .normal
  | c :: _ => if c = ':' then .param else if c = '*' then .catchAll else .normal

/-- A chunk that is non-empty, free of `'/'`, has no marker after its first byte
and is not a marker alone. -/
def NiceChunk (c : GoString) : Prop :=
  c ≠ [] ∧ '/' ∉ c ∧ (∀ x ∈ c.tail, x ≠ ':' ∧ x ≠ '*') ∧ c ≠ [':'] ∧ c ≠ ['*']

/-- The path body read back from the texts of its segments. -/
def recon : List GoString → GoString
  | [] => []
  | [x] => if x = ['/'] then [] else x
  | x :: y :: rest => x ++ '/' :: recon (y :: rest)

/-- The trie after the chain `h` has been attached at the end of the path `segs`
below `r`: the total function that `addroute` computes. -/
def insertAt (r : node) : List pathSegment → HandlersChain → node
  | [], h => .mk r.pathSegment r.children h
  | ps :: rest, h =>
    .mk r.pathSegment
      (mapSet r.children (keyOf ps)
        (insertAt ((mapGet r.children (keyOf ps)).getD (.mk ps [] [])) rest h))
      r.handlers

/-- The handler chain of the node reached from `r` along the child keys `ks`
(`[]`, the nil chain, when there is no such node). -/
def handlersAt (r : node) : List GoString → HandlersChain
  | [] => r.handlers
  | k :: ks =>
    match mapGet r.children k with
    | some n => handlersAt n ks
    | none => []

/-- A registration: the arguments of one `AddRoute` call. -/
structure Route where
  method : GoString
  path : GoString
  handlers : HandlersChain
  deriving DecidableEq, Repr

/-- A sequence of `AddRoute` calls, all of which must succeed. -/
def addRoutes (t : methodTree) : List Route → Option methodTree
  | [] => some t
  | r :: rs => (AddRoute t r.method r.path r.handlers).bind fun t' => addRoutes t' rs

/-- The child keys along which `AddRoute` stores a path. -/
def routeKeys (path : GoString) : List GoString :=
  match getPathSegments path with
  | some (segs, _) => (segs.drop 1).map keyOf
  | none => []

/-- The handler chain stored in the method table for `method` at the keys `ks`. -/
def treeHandlersAt (t : methodTree) (method : GoString) (ks : List GoString) :
    HandlersChain :=
  match mapGet t.tree method with
  | some n => handlersAt n ks
  | none => []

/-- The chain of the last registration of (`method`, `path`) in `rs`. -/
def lastRegistered (rs : List Route) (method path : GoString) : Option HandlersChain :=
  (rs.reverse.find? (fun r => r.method = method ∧ r.path = path)).map Route.handlers

/-- The parameters the caller sees: `handleHTTPRequest` copies `*valueCtx.params`
into the (reset, hence empty) `gctx.Params` only when the pointer is not nil. -/
def boundParams (vc : valueContext) : List Param :=
  match vc.params with
  | some p => p.elems
  | none => []

/-- A text that is non-empty and free of `'/'`, `':'` and `'*'`. -/
def PlainText (s : GoString) : Prop :=
  s ≠ [] ∧ ∀ c ∈ s, c ≠ '/' ∧ c ≠ ':' ∧ c ≠ '*'

/-- A segment of a route pattern: a literal text, or a parameter `:name`
together with the value that a request puts in its place. -/
inductive PatSeg where
  | lit (text : GoString)
  | par (name value : GoString)

/-- The chunk of the registered pattern. -/
def PatSeg.pattern : PatSeg → GoString
  | .lit s => s
  | .par n _ => ':' :: n

/-- The chunk of the concrete request path. -/
def PatSeg.request : PatSeg → GoString
  | .lit s => s
  | .par _ v => v

/-- The parameter a matched request is expected to bind for the segment. -/
def PatSeg.binding : PatSeg → Option Param
  | .lit _ => none
  | .par n v => some { Key := n, Value := v }

/-- Literals and parameter names are plain texts; parameter values are plain
texts other than the reserved key. -/
def PatSeg.Ok : PatSeg → Prop
  | .lit s => PlainText s
  | .par n v => PlainText n ∧ PlainText v ∧ v ≠ wildcard

/-- The segment `getPathSegments` makes of a nice chunk. -/
def segOf (c : GoString) : pathSegment :=
  { value := c, kind := niceKind c }

/-- The end of one `GetValue` step once the child `nd` has been selected: the
result at the last segment, the recursive call otherwise. -/
def descend (nd : node) (rest : List pathSegment) (params : Params) :
    Option (valueContext × Params) :=
  match rest with
  | [] => some ({ handlers := nd.handlers, params := some params }, params)
  | _ :: _ => GetValue nd rest params

/-- The number of marker bytes (`':'` or `'*'`) of a text. -/
def markerCount (l : List Char) : Nat :=
  (l.filter fun c => decide (c = ':' ∨ c = '*')).length

/-- The texts of the segments that `scan` produces. -/
def chunkTexts : List Char → GoString → List GoString
  | [], _ => []
  | [c], cur => if c = '/' then [cur, ['/']] else [cur ++ [c]]
  | c :: c' :: rest, cur =>
    if c = '/' then cur :: chunkTexts (c' :: rest) []
    else chunkTexts (c' :: rest) (cur ++ [c])

/-- The segment of a literal chunk. -/
def litSeg (x : GoString) : pathSegment :=
  { value := x, kind := .normal }

/-- Method `node.addroute` with its writes in the order of the source: the trie
below `r` as the call leaves it, and whether the call returned (`true`) or
panicked (`false`).  A new child is stored in `r.children` before the assertion
and before the recursive call, so a failure further down would leave it in
place. -/
def addrouteState (r : node) : List pathSegment → HandlersChain → node × Bool
  | [], _ => (r, false)
  | ps :: rest, handlers =>
    let psValue :=
      if ps.kind = .param ∨ ps.kind = .catchAll then wildcard else ps.value
    let ok := (mapGet r.children psValue).isSome
    let n := (mapGet r.children psValue).getD (.mk ps [] [])
    let children := if ok then r.children else mapSet r.children psValue n
    if ok ∧ psValue = wildcard ∧ (assert1 ok).isNone then
      (.mk r.pathSegment children r.handlers, false)
    else
      match rest with
      | [] =>
        (.mk r.pathSegment
          (mapSet children psValue (.mk n.pathSegment n.children handlers)) r.handlers,
         true)
      | _ :: _ =>
        (.mk r.pathSegment
          (mapSet children psValue (addrouteState n rest handlers).1) r.handlers,
         (addrouteState n rest handlers).2)

/-- Method `methodTree.AddRoute` with its writes in the order of the source:
the method table as the call leaves it, and whether the call returned (`true`)
or panicked (`false`). -/
def AddRouteState (r : methodTree) (httpMethod absolutePath : GoString)
    (handlers : HandlersChain) : methodTree × Bool :=
  match absolutePath with
  | [] => (r, false)
  | c0 :: _ =>
    if (assert1 (c0 = '/')).isNone then (r, false)
    else if (assert1 (httpMethod ≠ [])).isNone then (r, false)
    else if (assert1 (handlers.length > 0)).isNone then (r, false)
    else if (assert1 (mapGet r.tree httpMethod).isSome).isNone then (r, false)
    else
      match mapGet r.tree httpMethod, getPathSegments absolutePath with
      | some rn, some (pathSegments, valid) =>
        if !valid then (r, false)
        else if pathSegments.length = 1 then
          (⟨mapSet r.tree httpMethod (.mk rn.pathSegment rn.children handlers),
            r.supportedMethods⟩, true)
        else
          (⟨mapSet r.tree httpMethod (addrouteState rn (pathSegments.drop 1) handlers).1,
            r.supportedMethods⟩, (addrouteState rn (pathSegments.drop 1) handlers).2)
      | _, _ => (r, false)

/-- The kind `k` is the one the markers of `text` announce: `param` exactly when
the text contains `':'`, `catchAll` exactly when it contains `'*'`, `normal`
exactly when it contains neither. -/
def KindOfMarkers (text : GoString) (k : nodeKind) : Prop :=
  (k = .param ↔ ':' ∈ text) ∧ (k = .catchAll ↔ '*' ∈ text) ∧
    (k = .normal ↔ ':' ∉ text ∧ '*' ∉ text)

/-- Constant `abortIndex` of context.go: `math.MaxInt8 >> 1`. -/
def abortIndex : Int := 127 / 2

/-- Type `RouterGroup` of pkg/gateway/routergroup.go (the back pointer `gateway`
is left out). -/
structure RouterGroup where
  handlers : HandlersChain
  basePath : GoString
  root : Bool
  deriving DecidableEq, Repr

/-- The zero value of `HandlerFunc` with which `make` fills a new chain. -/
def nilHandler : HandlerFunc := 0

/-- Go's `copy(dst, src)`: the slice `dst` after its first
`min(len(dst), len(src))` elements were overwritten with those of `src`. -/
def goCopy (dst src : HandlersChain) : HandlersChain :=
  src.take dst.length ++ dst.drop src.length

/-- Method `RouterGroup.combineHandlers`; `abortIndex` is declared in a file of
package gateway that is not among the sources and is read from
pkg/gateway2/context.go. -/
def RouterGroup.combineHandlers (r : RouterGroup) (handlers : HandlersChain) :
    Option HandlersChain :=
  let finalSize := r.handlers.length + handlers.length
  (assert1 (decide ((finalSize : Int) < abortIndex))).bind fun _ =>
  let mergedHandlers := List.replicate finalSize nilHandler
  let mergedHandlers := goCopy mergedHandlers r.handlers
  let mergedHandlers := mergedHandlers.take r.handlers.length
    ++ goCopy (mergedHandlers.drop r.handlers.length) handlers
  some mergedHandlers

/-- Method `RouterGroup.Group`; `joinPaths`, which `calculateAbsolutePath`
calls, is a parameter. -/
def RouterGroup.Group (joinPaths : GoString → GoString → GoString) (r : RouterGroup)
    (relativePath : GoString) (handlers : HandlersChain) : Option RouterGroup :=
  (r.combineHandlers handlers).bind fun hs =>
  some { handlers := hs, basePath := joinPaths r.basePath relativePath, root := false }

/-- The arguments of a call `r.gateway.addRoute(method, path, handlers)`. -/
structure addRouteCall where
  method : GoString
  path : GoString
  handlers : HandlersChain
  deriving DecidableEq, Repr

/-- Method `RouterGroup.handle`: the group as the call leaves it and the call of
`addRoute` it makes. -/
def RouterGroup.handle (joinPaths : GoString → GoString → GoString) (r : RouterGroup)
    (httpMethod relativePath : GoString) (handlers : HandlersChain) :
    Option (RouterGroup × addRouteCall) :=
  let absolutePath := joinPaths r.basePath relativePath
  (r.combineHandlers handlers).bind fun handlers =>
  some (r, { method := httpMethod, path := absolutePath, handlers := handlers })

/-- A call that a handler makes on its context and that touches the cursor:
`Next()` or `Abort()`. -/
inductive Act where
  | next
  | abort
  deriving DecidableEq, Repr

/-- A handler, as far as dispatch is concerned: the `Next()` and `Abort()` calls
of its body, in order. -/
abbrev HandlerBody := List Act

/-- Ghost events: the handler at position `i` is invoked, or returns. -/
inductive Event where
  | enter (i : Nat)
  | leave (i : Nat)
  deriving DecidableEq, Repr

/-- The fields of `Context` that `Next` and `Abort` read and write: the cursor
`index` (an `int8`) and the chain `handlers`; `trace` records the invocations. -/
structure Dispatch where
  index : Int
  handlers : List HandlerBody
  trace : List Event
  deriving DecidableEq, Repr

/-- The conversion to `int8`, which is also the wrap-around of `int8`
arithmetic. -/
def wrap8 (x : Int) : Int :=
  (x + 128) % 256 - 128

/-- The result of a run: the final state, a panic, or not enough fuel. -/
inductive Outcome (α : Type) where
  | done (a : α)
  | panic
  | outOfFuel
  deriving DecidableEq, Repr

/-- What is being executed: the `for` loop of `Next`, or the rest of the body of
a handler. -/
inductive Task where
  | loop
  | body (acts : List Act)
  deriving DecidableEq, Repr

/-- Execution of the loop `for r.index < int8(len(r.handlers))` of `Next` and of
handler bodies.  A handler is called as `r.handlers[r.index](r)`, which panics
when the index is out of range; its `Next()` increments the cursor and runs
the loop; its `Abort()` sets the cursor to `abortIndex`. -/
def exec : Nat → Task → Dispatch → Outcome Dispatch
  | 0, _, _ => .outOfFuel
  | fuel + 1, .loop, c =>
    if c.index < wrap8 c.handlers.length then
      if 0 ≤ c.index then
        match c.handlers[c.index.toNat]? with
        | none => .panic
        | some h =>
          match exec fuel (.body h)
              { c with trace := c.trace ++ [.enter c.index.toNat] } with
          | .done c1 =>
            exec fuel .loop
              { c1 with index := wrap8 (c1.index + 1),
                        trace := c1.trace ++ [.leave c.index.toNat] }
          | o => o
      else .panic
    else .done c
  | _ + 1, .body [], c => .done c
  | fuel + 1, .body (.next :: rest), c =>
    match exec fuel .loop { c with index := wrap8 (c.index + 1) } with
    | .done c1 => exec fuel (.body rest) c1
    | o => o
  | fuel + 1, .body (.abort :: rest), c =>
    exec fuel (.body rest) { c with index := abortIndex }

/-- Method `Context.Next`. -/
def Next (fuel : Nat) (c : Dispatch) : Outcome Dispatch :=
  exec fuel .loop { c with index := wrap8 (c.index + 1) }

/-- Method `Context.Abort`. -/
def Abort (c : Dispatch) : Dispatch :=
  { c with index := abortIndex }

/-- `k` calls of `Next()` in a row. -/
def nextTimes : Nat → Nat → Dispatch → Outcome Dispatch
  | 0, _, c => .done c
  | k + 1, fuel, c =>
    match Next fuel c with
    | .done c1 => nextTimes k fuel c1
    | o => o

/-- The dispatch state of a freshly reset context (cursor -1) to which the
chain `hs` has been assigned. -/
def freshDispatch (hs : List HandlerBody) : Dispatch :=
  { index := -1, handlers := hs, trace := [] }

/-- The index of the handler an event invokes. -/
def Event.entered : Event → Option Nat
  | .enter i => some i
  | .leave _ => none

/-- The expected trace of the loop of `Next` from position `i` over the
handlers `hs` that call `Next()` at most once and never `Abort()`: a handler
that calls `Next()` encloses all later ones. -/
def nestedTrace : Nat → List HandlerBody → List Event
  | _, [] => []
  | i, h :: rest =>
    if Act.next ∈ h then .enter i :: nestedTrace (i + 1) rest ++ [.leave i]
    else .enter i :: .leave i :: nestedTrace (i + 1) rest

/-- The expected trace when the first handler that starts with `Abort()` ends
the dispatch. -/
def abortedTrace : Nat → List HandlerBody → List Event
  | _, [] => []
  | i, h :: rest =>
    match h with
    | [] => .enter i :: .leave i :: abortedTrace (i + 1) rest
    | .next :: _ => .enter i :: abortedTrace (i + 1) rest ++ [.leave i]
    | .abort :: _ => [.enter i, .leave i]

/-- Big-step reading of `exec`: the task started in the state `c` ends, without
panic, in the state `c'`. -/
inductive Runs : Task → Dispatch → Dispatch → Prop where
  | loop_exit (c : Dispatch) (h : ¬ c.index < wrap8 c.handlers.length) : Runs .loop c c
  | loop_iter (c c1 c2 : Dispatch) (h : HandlerBody)
      (hlt : c.index < wrap8 c.handlers.length) (hpos : 0 ≤ c.index)
      (hget : c.handlers[c.index.toNat]? = some h)
      (hbody : Runs (.body h) { c with trace := c.trace ++ [.enter c.index.toNat] } c1)
      (hrest : Runs .loop
        { c1 with index := wrap8 (c1.index + 1),
                  trace := c1.trace ++ [.leave c.index.toNat] } c2) :
      Runs .loop c c2
  | body_nil (c : Dispatch) : Runs (.body []) c c
  | body_next (c c1 c2 : Dispatch) (rest : List Act)
      (hloop : Runs .loop { c with index := wrap8 (c.index + 1) } c1)
      (hrest : Runs (.body rest) c1 c2) : Runs (.body (.next :: rest)) c c2
  | body_abort (c c2 : Dispatch) (rest : List Act)
      (hrest : Runs (.body rest) { c with index := abortIndex } c2) :
      Runs (.body (.abort :: rest)) c c2

/-- Values of Go's interface type `error`, as `Context.Error` can tell them
apart: the nil interface, an error without `Unwrap`, and an error whose
`Unwrap` returns `inner`.  No value of the interface is a `*Error`: that type
has no `Error` method (see `errorMethods`). -/
inductive GoError where
  | nil
  | plain (text : GoString)
  | wrap (text : GoString) (inner : GoError)
  deriving DecidableEq, Repr

/-- Type `Error`, to which context.go refers; package gateway2 declares it in a
file that is not among the sources, and its fields `Err`, `Type` (here `Typ`)
and `Meta` are read from pkg/gateway/errors.go.  `Meta` is `none` for nil. -/
structure Error where
  Err : GoError
  Typ : Nat
  Meta : Option Nat := none
  deriving DecidableEq, Repr

/-- Constant `ErrorTypePrivate`, read from pkg/gateway/errors.go as `Error` is. -/
def ErrorTypePrivate : Nat := 1 <<< 0

/-- The methods that pkg/gateway/errors.go, the only file of the repository that
declares the type `Error`, gives to `*Error`. -/
def errorMethods : List GoString := ["IsType".toList, "Unwrap".toList]

/-- The loop of Go's `errors.As` for the target type `*Error`: the first
`*Error` on the `Unwrap` chain of `err`.  No value of `GoError` is one. -/
def firstError : GoError → Option Error
  | .nil => none
  | .plain _ => none
  | .wrap _ inner => firstError inner

/-- Go's `errors.As(err, &parsedError)` for a non-nil `err` and the target type
`*Error`.  Before it looks at `err` the call checks its target and panics
("errors: *target must be interface or implement error") unless `*Error`
implements `error`, that is, unless it has a method `Error`; the result is
`none` for the panic and otherwise what the loop finds. -/
def errorsAs (err : GoError) : Option (Option Error) :=
  if "Error".toList ∈ errorMethods then some (firstError err) else none

/-- Type `Context`.  `params` is the buffer the pointer of that name points to
(`allocateContext` always sets it); slices and maps that can be nil are `none`
when they are.  The fields `writermem`, `Request`, `Writer` and `gateway` are
left out. -/
structure Context where
  Params : Gateway2.Params := ⟨[], 0⟩
  handlers : Option HandlersChain := none
  index : Int := 0
  fullPath : GoString := []
  params : Gateway2.Params := ⟨[], 0⟩
  Keys : Option (List (GoString × Nat)) := none
  Errors : List Error := []
  Accepted : Option (List GoString) := none
  queryCache : Option (List (GoString × List GoString)) := none
  formCache : Option (List (GoString × List GoString)) := none
  sameSite : Int := 0
  deriving DecidableEq, Repr

/-- Method `Gateway.allocateContext`. -/
def allocateContext (maxParams : Nat) : Context :=
  let v : Params := ⟨[], maxParams⟩
  { params := v }

/-- Method `Context.reset`, assignment by assignment (the one to `Writer` apart). -/
def Context.reset (c : Context) : Context :=
  let c := { c with Params := { c.Params with elems := c.Params.elems.take 0 } }
  let c := { c with handlers := none }
  let c := { c with index := -1 }
  let c := { c with fullPath := [] }
  let c := { c with Keys := none }
  let c := { c with Errors := c.Errors.take 0 }
  let c := { c with Accepted := none }
  let c := { c with queryCache := none }
  let c := { c with formCache := none }
  let c := { c with sameSite := 0 }
  { c with params := { c.params with elems := c.params.elems.take 0 } }

/-- Method `Gateway.handleHTTPRequest` up to the dispatch of the handlers: the
lookup with the buffer of the context, and the assignments to `Params` and
`handlers` that precede the call of `Next()`.  `tree` is `r.tree`, `allNoRoute`
is `r.allNoRoute`, and `httpMethod` and `rPath` are read from the request; the
nil chain of a `valueContext` is the empty list, as for `node.handlers`. -/
def handleHTTPRequest (tree : methodTree) (allNoRoute : Option HandlersChain)
    (gctx : Context) (httpMethod rPath : GoString) : Option Context :=
  (GetReqValue tree httpMethod rPath gctx.params).map fun (valueCtx, buf) =>
    let gctx := { gctx with params := buf }
    let gctx :=
      match valueCtx.params with
      | some ps => { gctx with Params := ps }
      | none => gctx
    if valueCtx.handlers ≠ [] then { gctx with handlers := some valueCtx.handlers }
    else { gctx with handlers := allNoRoute }

/-- Method `Gateway.ServeHTTP` for the context `gctx` taken from the pool, up to
the dispatch of the handlers. -/
def ServeHTTP (tree : methodTree) (allNoRoute : Option HandlersChain)
    (gctx : Context) (httpMethod rPath : GoString) : Option Context :=
  let gctx := gctx.reset
  handleHTTPRequest tree allNoRoute gctx httpMethod rPath

/-- Method `Context.Error`: the context as the call leaves it and the returned
`*Error`; `none` when the call panics. -/
def Context.Error (r : Context) (err : GoError) : Option (Context × Gateway2.Error) :=
  if err = .nil then none else
  (errorsAs err).bind fun ok =>
  let parsedError : Gateway2.Error :=
    match ok with
    | some e => e
    | none => { Err := err, Typ := ErrorTypePrivate }
  let r := { r with Errors := r.Errors ++ [parsedError] }
  some (r, parsedError)

/-- Constant `http.MethodGet`. -/
def MethodGet : GoString := "GET".toList

/-- Constant `http.StatusMovedPermanently`. -/
def StatusMovedPermanently : Int := 301

/-- Constant `http.StatusTemporaryRedirect`. -/
def StatusTemporaryRedirect : Int := 307

/-- Function `redirectRequest` of pkg/gateway/gateway.go for a request with the
method `Method` whose URL prints as `rURL`: the target and the status code it
passes to `http.Redirect`. -/
def redirectRequest (Method rURL : GoString) : GoString × Int :=
  let code := StatusMovedPermanently
  let code := if Method ≠ MethodGet then StatusTemporaryRedirect else code
  (rURL, code)

/-- An `http.ResponseWriter`, seen as the record of what it was given: the
header map, the status code of the response header once it is sent, and the
bytes of the body. -/
structure httpWriter where
  header : List (GoString × List GoString) := []
  sent : Option Int := none
  body : List Char := []
  deriving DecidableEq, Repr

/-- Method `WriteHeader` of an `http.ResponseWriter`: the header is sent once. -/
def httpWriter.WriteHeader (w : httpWriter) (statusCode : Int) : httpWriter :=
  match w.sent with
  | some _ => w
  | none => { w with sent := some statusCode }

/-- Method `Write` of an `http.ResponseWriter`: it sends the header with status
200 if none was sent and appends the bytes to the body. -/
def httpWriter.Write (w : httpWriter) (b : List Char) : httpWriter :=
  let w := w.WriteHeader 200
  { w with body := w.body ++ b }

/-- Constant `noWritten`. -/
def noWritten : Int := -1

/-- Constant `defaultStatus` (`http.StatusOK`). -/
def defaultStatus : Int := 200

/-- Type `responseWriter`: the embedded `http.ResponseWriter`, `size` and
`status`. -/
structure responseWriter where
  ResponseWriter : httpWriter
  size : Int
  status : Int
  deriving DecidableEq, Repr

/-- Method `responseWriter.reset`. -/
def responseWriter.reset (_w : responseWriter) (writer : httpWriter) : responseWriter :=
  { ResponseWriter := writer, size := noWritten, status := defaultStatus }

/-- Method `responseWriter.Status`. -/
def responseWriter.Status (w : responseWriter) : Int :=
  w.status

/-- Method `responseWriter.Size`. -/
def responseWriter.Size (w : responseWriter) : Int :=
  w.size

/-- Method `responseWriter.Written`. -/
def responseWriter.Written (w : responseWriter) : Bool :=
  w.size != noWritten

/-- Method `responseWriter.WriteHeaderNow`. -/
def responseWriter.WriteHeaderNow (w : responseWriter) : responseWriter :=
  if !w.Written then
    let w := { w with size := 0 }
    { w with ResponseWriter := w.ResponseWriter.WriteHeader w.status }
  else w

/-- Method `Write` of `*responseWriter`.  response_writer.go declares none, so
the call is the promoted method of the embedded `http.ResponseWriter`. -/
def responseWriter.Write (w : responseWriter) (b : List Char) : responseWriter :=
  { w with ResponseWriter := w.ResponseWriter.Write b }

/-- Method `WriteHeader` of `*responseWriter`, promoted from the embedded
`http.ResponseWriter` as `Write` is. -/
def responseWriter.WriteHeader (w : responseWriter) (statusCode : Int) : responseWriter :=
  { w with ResponseWriter := w.ResponseWriter.WriteHeader statusCode }

/-- A call that a handler makes on `gctx.Writer`, the interface value that holds
`&gctx.writermem`. -/
inductive WriterCall where
  | Write (b : List Char)
  | WriteHeader (statusCode : Int)
  | WriteHeaderNow
  deriving DecidableEq, Repr

/-- The effect of one call on `gctx.Writer`. -/
def responseWriter.call (w : responseWriter) : WriterCall → responseWriter
  | .Write b => w.Write b
  | .WriteHeader statusCode => w.WriteHeader statusCode
  | .WriteHeaderNow => w.WriteHeaderNow

/-- Variable `default404Body`. -/
def default404Body : List Char := "404 page not found".toList

/-- Variable `mimePlain` (`binding.MIMEPlain`). -/
def mimePlain : List GoString := ["text/plain".toList]

/-- Function `serveError` on the writer `gctx.writermem`.  The run of the chain
by `gctx.Next()` is given by `calls`, the calls its handlers make on
`gctx.Writer`, in order. -/
def serveError (writermem : responseWriter) (code : Int) (defaultMessage : List Char)
    (calls : List WriterCall) : responseWriter :=
  let writermem := { writermem with status := code }
  let writermem := calls.foldl responseWriter.call writermem
  if writermem.Written then writermem
  else if writermem.Status = code then
    let inner := writermem.ResponseWriter
    let inner := { inner with header := mapSet inner.header "Content-Type".toList mimePlain }
    let writermem := { writermem with ResponseWriter := inner }
    writermem.Write defaultMessage
  else writermem.WriteHeaderNow

/-- The bytes that a sequence of calls on `gctx.Writer` hands to `Write`. -/
def writtenBytes : List WriterCall → List Char
  | [] => []
  | .Write b :: rest => b ++ writtenBytes rest
  | _ :: rest => writtenBytes rest

/-- Type `Gateway` of pkg/gateway2/gateway.go: the embedded `RouterGroup`, the
four chains, the tree and `maxParams`.  `allNoRoute` and `allNoMethod` are
`none` while they are nil. -/
structure Gateway where
  RouterGroup : Gateway2.RouterGroup
  allNoRoute : Option HandlersChain
  allNoMethod : Option HandlersChain
  noRoute : HandlersChain
  noMethod : HandlersChain
  tree : methodTree
  maxParams : Nat

/-- Function `New` of pkg/gateway2/gateway.go. -/
def New : Gateway :=
  { RouterGroup := { handlers := [], basePath := ['/'], root := true },
    allNoRoute := none, allNoMethod := none, noRoute := [], noMethod := [],
    tree := NewTree, maxParams := 8 }

/-- Method `RouterGroup.Use`. -/
def RouterGroup.Use (r : RouterGroup) (middleware : HandlersChain) : RouterGroup :=
  { r with handlers := r.handlers ++ middleware }

/-- Method `Gateway.Use` with `rebuild404Handlers` and `rebuild405Handlers`: the
gateway as the call leaves it, and whether the call returned (`true`) or
panicked (`false`). -/
def Gateway.Use (r : Gateway) (middleware : HandlersChain) : Gateway × Bool :=
  let r := { r with RouterGroup := r.RouterGroup.Use middleware }
  match r.RouterGroup.combineHandlers r.noRoute with
  | none => (r, false)
  | some hs =>
    let r := { r with allNoRoute := some hs }
    match r.RouterGroup.combineHandlers r.noMethod with
    | none => (r, false)
    | some hs => ({ r with allNoMethod := some hs }, true)

/-- A sequence of `Use` calls; it stops at the first call that panics. -/
def useAll (r : Gateway) : List HandlersChain → Gateway × Bool
  | [] => (r, true)
  | mw :: rest =>
    if (r.Use mw).2 then useAll (r.Use mw).1 rest else ((r.Use mw).1, false)

/-- The node reached from `r` along the child keys `ks`, if there is one. -/
def nodeAt (r : node) : List GoString → Option node
  | [] => some r
  | k :: ks =>
    match mapGet r.children k with
    | some n => nodeAt n ks
    | none => none

/-- The node of the method table reached under `method` along the keys `ks`. -/
def treeNodeAt (t : methodTree) (method : GoString) (ks : List GoString) : Option node :=
  (mapGet t.tree method).bind fun n => nodeAt n ks

/-- Every node stored under the reserved key has a non-empty text, so that the
expression `node.pathSegment.value[1:]` of `GetValue` is in range. -/
def WildKeyed (r : node) : Prop :=
  ∀ (ks : List GoString) (nd : node),
    nodeAt r (ks ++ [wildcard]) = some nd → nd.pathSegment.value ≠ []

/-- The child key under which a pattern segment is registered. -/
def PatSeg.key (s : PatSeg) : GoString :=
  keyOf (segOf s.pattern)

/-- The pattern side of a segment is well formed: a literal is a plain text, a
parameter has a plain name; nothing is asked of the text the request puts in
the place of a parameter. -/
def PatSeg.PatOk : PatSeg → Prop
  | .lit s => PlainText s
  | .par n _ => PlainText n

/-! ## Maps -/

theorem mapGet_mapSet_self {α : Type} (m : List (GoString × α)) (k : GoString) (v : α) :
    mapGet (mapSet m k v) k = some v := by
  induction m with
  | nil => simp [mapSet, mapGet]
  | cons e rest ih =>
    obtain ⟨k', v'⟩ := e
    by_cases h : k' = k
    · simp [mapSet, mapGet, h]
    · simp [mapSet, mapGet, h, ih]

theorem mapGet_mapSet_ne {α : Type} (m : List (GoString × α)) (k k' : GoString) (v : α)
    (h : k' ≠ k) : mapGet (mapSet m k v) k' = mapGet m k' := by
  induction m with
  | nil => simp [mapSet, mapGet, Ne.symm h]
  | cons e rest ih =>
    obtain ⟨k0, v0⟩ := e
    by_cases h0 : k0 = k
    · subst h0
      simp [mapSet, mapGet, Ne.symm h]
    · by_cases h1 : k0 = k'
      · subst h1
        simp [mapSet, mapGet, h0]
      · simp [mapSet, mapGet, h0, h1, ih]

/-! ## Path segmentation -/

theorem slice_middle (a b c : GoString) :
    slice (a ++ b ++ c) a.length (a.length + b.length) = b := by
  simp [slice, List.append_assoc]

theorem segSwitch_normal (c : Char) (s : segState) (h : s.kind = .normal) :
    (segSwitch c s).ps = s.ps ∧ (segSwitch c s).valid = s.valid := by
  unfold segSwitch; split_ifs <;> first | exact ⟨rfl, rfl⟩ | contradiction

theorem segLoop_scan (path : GoString) (rest : List Char) :
    ∀ (pre cur : GoString) (s : segState), path = pre ++ cur ++ rest →
      s.begin + 1 = pre.length → s.lastPathSegment = false →
      (segLoop path (pre.length + cur.length) rest s).ps
          = s.ps ++ (scan rest cur s.kind s.valid).1 ∧
      (segLoop path (pre.length + cur.length) rest s).valid
          = (scan rest cur s.kind s.valid).2 := by
  induction rest with
  | nil => intro pre cur s _ _ _; simp [segLoop, scan]
  | cons c rest ih =>
    intro pre cur s hpath hb hl
    have hpos : pre.length + cur.length > 0 := by omega
    cases rest with
    | nil =>
      have hlen : pre.length + cur.length = path.length - 1 := by
        rw [hpath]; simp
      have hsl : slice path (s.begin + 1) (pre.length + cur.length) = cur := by
        rw [hb, hpath]; exact slice_middle pre cur [c]
      have hsl' : slice path (s.begin + 1) (pre.length + cur.length + 1) = cur ++ [c] := by
        rw [hb, hpath]
        have := slice_middle pre (cur ++ [c]) []
        simpa [List.append_assoc, Nat.add_assoc] using this
      by_cases hc : c = '/'
      · subst hc
        simp [segLoop, segStep, hpos, segAppend, ← hlen, hsl, segSwitch, scan]
      · have hkv := segSwitch_normal c
          { ps := s.ps ++ [{ value := cur ++ [c], kind := s.kind }], valid := s.valid,
            begin := pre.length + cur.length, kind := .normal,
            lastPathSegment := false } rfl
        simp [segLoop, segStep, hpos, segAppend, ← hlen, hsl', hc, hl, scan, hkv]
    | cons c' rest' =>
      have hlen : pre.length + cur.length ≠ path.length - 1 := by
        rw [hpath]; simp; omega
      by_cases hc : c = '/'
      · subst hc
        have hsl : slice path (s.begin + 1) (pre.length + cur.length) = cur := by
          rw [hb, hpath]; exact slice_middle pre cur _
        have key := ih (pre ++ cur ++ ['/']) []
          { ps := s.ps ++ [{ value := cur, kind := s.kind }], valid := s.valid,
            begin := pre.length + cur.length, kind := .normal, lastPathSegment := false }
          (by rw [hpath]; simp) (by simp [Nat.add_assoc]) rfl
        simp only [List.length_append, List.length_singleton, List.length_nil,
          Nat.add_zero] at key
        simp [segLoop, segStep, hpos, segAppend, hlen, hsl, hl, segSwitch, scan] at key ⊢
        simpa [segLoop, List.append_assoc] using key
      · have key := ih pre (cur ++ [c])
          (segSwitch c s) (by rw [hpath]; simp)
          (by unfold segSwitch; split_ifs <;> simpa using hb)
          (by unfold segSwitch; split_ifs <;> simpa using hl)
        have hk : (segSwitch c s).kind = (markStep c (s.kind, s.valid)).1 ∧
            (segSwitch c s).valid = (markStep c (s.kind, s.valid)).2 ∧
            (segSwitch c s).ps = s.ps := by
          unfold segSwitch markStep; split_ifs <;> simp
        simp only [List.length_append, List.length_singleton, ← Nat.add_assoc] at key
        rw [hk.1, hk.2.1, hk.2.2] at key
        have hstep : segStep path (pre.length + cur.length) c s = segSwitch c s := by
          simp [segStep, hpos, segAppend, hc, hlen]
        simp only [segLoop, hstep] at key ⊢
        simpa [scan, hc] using key

theorem getPathSegments_cons (c0 : Char) (body : List Char) :
    getPathSegments (c0 :: body)
      = some (⟨[c0], .root⟩ :: (scan body [] .normal true).1,
          (scan body [] .normal true).2) := by
  have h := segLoop_scan (c0 :: body) body [c0] []
    { ps := [{ value := [c0], kind := .root }], valid := true, begin := 0,
      kind := .normal, lastPathSegment := false } (by simp) (by simp) rfl
  simp only [List.length_singleton, List.length_nil] at h
  simp only [getPathSegments, segLoop, segStep, Nat.lt_irrefl, if_false, gt_iff_lt]
  rw [h.1, h.2]
  simp

theorem scan_cons_slash (c' : Char) (rest : List Char) (cur : GoString) (k : nodeKind)
    (v : Bool) :
    scan ('/' :: c' :: rest) cur k v
      = (⟨cur, k⟩ :: (scan (c' :: rest) [] .normal v).1,
          (scan (c' :: rest) [] .normal v).2) := by
  simp [scan]

theorem scan_cons_ne (c : Char) (rest : List Char) (hrest : rest ≠ []) (hc : c ≠ '/')
    (cur : GoString) (k : nodeKind) (v : Bool) :
    scan (c :: rest) cur k v
      = scan rest (cur ++ [c]) (markStep c (k, v)).1 (markStep c (k, v)).2 := by
  cases rest with
  | nil => exact absurd rfl hrest
  | cons c' rest' => simp [scan, hc]

theorem scan_chunk_slash (chunk : GoString) (c' : Char) (rest : List Char) :
    '/' ∉ chunk → ∀ (cur : GoString) (k : nodeKind) (v : Bool),
    scan (chunk ++ '/' :: c' :: rest) cur k v
      = (⟨cur ++ chunk, (markScan chunk (k, v)).1⟩
            :: (scan (c' :: rest) [] .normal (markScan chunk (k, v)).2).1,
          (scan (c' :: rest) [] .normal (markScan chunk (k, v)).2).2) := by
  induction chunk with
  | nil => intro _ cur k v; simp [scan_cons_slash, markScan]
  | cons a as ih =>
    intro hs cur k v
    have ha : a ≠ '/' := fun h => hs (by simp [h])
    have has : '/' ∉ as := fun h => hs (by simp [h])
    rw [List.cons_append, scan_cons_ne a _ (by simp) ha, ih has]
    simp [markScan, List.append_assoc]

theorem scan_chunk_slash_end (chunk : GoString) :
    '/' ∉ chunk → ∀ (cur : GoString) (k : nodeKind) (v : Bool),
    scan (chunk ++ ['/']) cur k v
      = ([⟨cur ++ chunk, (markScan chunk (k, v)).1⟩,
          ⟨['/'], (markScan chunk (k, v)).1⟩], (markScan chunk (k, v)).2) := by
  induction chunk with
  | nil => intro _ cur k v; simp [scan, markScan]
  | cons a as ih =>
    intro hs cur k v
    have ha : a ≠ '/' := fun h => hs (by simp [h])
    have has : '/' ∉ as := fun h => hs (by simp [h])
    rw [List.cons_append, scan_cons_ne a _ (by simp) ha, ih has]
    simp [markScan, List.append_assoc]

theorem scan_chunk_end (chunk : GoString) :
    chunk ≠ [] → '/' ∉ chunk → ∀ (cur : GoString) (k : nodeKind) (v : Bool),
    scan chunk cur k v
      = ([⟨cur ++ chunk, (markScan chunk.dropLast (k, v)).1⟩],
          (markScan chunk.dropLast (k, v)).2) := by
  induction chunk with
  | nil => intro h; exact absurd rfl h
  | cons a as ih =>
    intro _ hs cur k v
    have ha : a ≠ '/' := fun h => hs (by simp [h])
    have has : '/' ∉ as := fun h => hs (by simp [h])
    cases as with
    | nil => simp [scan, ha, markScan]
    | cons b bs =>
      rw [scan_cons_ne a _ (by simp) ha, ih (by simp) has]
      simp [markScan, List.append_assoc]

theorem markStep_plain (c : Char) (h : c ≠ ':' ∧ c ≠ '*') (kv : nodeKind × Bool) :
    markStep c kv = kv := by
  simp [markStep, h.1, h.2]

theorem markScan_plain (l : List Char) :
    (∀ x ∈ l, x ≠ ':' ∧ x ≠ '*') → ∀ kv : nodeKind × Bool, markScan l kv = kv := by
  induction l with
  | nil => intro _ kv; rfl
  | cons a as ih =>
    intro h kv
    rw [markScan, markStep_plain a (h a (by simp)), ih (fun x hx => h x (by simp [hx]))]

theorem markScan_nice (c : GoString) (h : NiceChunk c) (v : Bool) :
    markScan c (.normal, v) = (niceKind c, v) ∧
    markScan c.dropLast (.normal, v) = (niceKind c, v) := by
  obtain ⟨hne, _, htail, h1, h2⟩ := h
  cases c with
  | nil => exact absurd rfl hne
  | cons a as =>
    have hstep : markStep a (.normal, v) = (niceKind (a :: as), v) := by
      by_cases e1 : a = ':'
      · simp [markStep, niceKind, e1]
      · by_cases e2 : a = '*'
        · simp [markStep, niceKind, e2]
        · simp [markStep, niceKind, e1, e2]
    have htl : ∀ x ∈ as, x ≠ ':' ∧ x ≠ '*' := by simpa using htail
    constructor
    · rw [markScan, hstep, markScan_plain as htl]
    · cases as with
      | nil =>
        have ha1 : a ≠ ':' := fun e => h1 (by rw [e])
        have ha2 : a ≠ '*' := fun e => h2 (by rw [e])
        simp [markScan, niceKind, ha1, ha2]
      | cons b bs =>
        rw [List.dropLast_cons₂, markScan, hstep, markScan_plain]
        intro x hx
        exact htl x (List.mem_of_mem_dropLast hx)

theorem joinBody_cons_ne_nil (c : GoString) (cs : List GoString) (h : c ≠ []) :
    joinBody (c :: cs) ≠ [] := by
  cases cs with
  | nil => simpa [joinBody] using h
  | cons c' cs' => simp [joinBody, h]

theorem scan_joinBody_nice (chunks : List GoString) :
    chunks ≠ [] → (∀ c ∈ chunks, NiceChunk c) → ∀ v : Bool,
    scan (joinBody chunks) [] .normal v
      = (chunks.map (fun c => (⟨c, niceKind c⟩ : pathSegment)), v) := by
  induction chunks with
  | nil => intro h; exact absurd rfl h
  | cons c cs ih =>
    intro _ hn v
    have hc := hn c (by simp)
    cases cs with
    | nil =>
      rw [joinBody, scan_chunk_end c hc.1 hc.2.1, (markScan_nice c hc v).2]
      simp
    | cons c' cs' =>
      have hc' := hn c' (by simp)
      have hne := joinBody_cons_ne_nil c' cs' hc'.1
      obtain ⟨x, xs, hx⟩ := List.exists_cons_of_ne_nil hne
      rw [joinBody, hx, scan_chunk_slash c x xs hc.2.1, (markScan_nice c hc v).1, ← hx,
        ih (by simp) (fun d hd => hn d (by simp [hd]))]
      simp

/-- Segmentation of a path made of nice chunks: one segment per chunk, with the
kind its first byte announces, and `valid = true`. -/
theorem getPathSegments_nice (chunks : List GoString) (hne : chunks ≠ [])
    (hn : ∀ c ∈ chunks, NiceChunk c) :
    getPathSegments ('/' :: joinBody chunks)
      = some (⟨['/'], .root⟩ :: chunks.map (fun c => (⟨c, niceKind c⟩ : pathSegment)),
          true) := by
  rw [getPathSegments_cons, scan_joinBody_nice chunks hne hn]

/-! ## Insertion and exact lookup in the trie -/

@[simp] theorem pathSegment_mk (ps : pathSegment) (cs : List (GoString × node))
    (hs : HandlersChain) : (node.mk ps cs hs).pathSegment = ps := rfl

@[simp] theorem children_mk (ps : pathSegment) (cs : List (GoString × node))
    (hs : HandlersChain) : (node.mk ps cs hs).children = cs := rfl

@[simp] theorem handlers_mk (ps : pathSegment) (cs : List (GoString × node))
    (hs : HandlersChain) : (node.mk ps cs hs).handlers = hs := rfl

theorem assert_guard (ok : Bool) (P : Prop) [Decidable P] :
    (if ok = true ∧ P then assert1 ok else some ()) = some () := by
  by_cases h : ok = true ∧ P
  · simp [h, assert1, h.1]
  · simp [h]

theorem addroute_eq_insertAt (segs : List pathSegment) :
    segs ≠ [] → ∀ (r : node) (h : HandlersChain),
      addroute r segs h = some (insertAt r segs h) := by
  induction segs with
  | nil => intro h; exact absurd rfl h
  | cons ps rest ih =>
    intro _ r h
    rw [addroute.eq_def]
    simp only [assert_guard, Option.some_bind]
    cases rest with
    | nil => rfl
    | cons ps' rest' =>
      simp only []
      rw [ih (by simp)]
      rfl

theorem handlersAt_fresh (ps : pathSegment) (ks : List GoString) :
    handlersAt (.mk ps [] []) ks = [] := by
  cases ks <;> simp [handlersAt, mapGet]

theorem handlersAt_insertAt_self (segs : List pathSegment) :
    ∀ (r : node) (h : HandlersChain),
      handlersAt (insertAt r segs h) (segs.map keyOf) = h := by
  induction segs with
  | nil => intro r h; simp [insertAt, handlersAt]
  | cons ps rest ih =>
    intro r h
    simp [insertAt, handlersAt, mapGet_mapSet_self, ih]

theorem handlersAt_insertAt_ne (segs : List pathSegment) :
    ∀ (r : node) (h : HandlersChain) (ks : List GoString), ks ≠ segs.map keyOf →
      handlersAt (insertAt r segs h) ks = handlersAt r ks := by
  induction segs with
  | nil =>
    intro r h ks hks
    cases ks with
    | nil => exact absurd rfl hks
    | cons k ks' => simp [insertAt, handlersAt]
  | cons ps rest ih =>
    intro r h ks hks
    cases ks with
    | nil => simp [insertAt, handlersAt]
    | cons k ks' =>
      by_cases hk : k = keyOf ps
      · subst hk
        have hks' : ks' ≠ rest.map keyOf := fun e => hks (by simp [e])
        cases hg : mapGet r.children (keyOf ps) with
        | none =>
          simp only [insertAt, handlersAt, children_mk, mapGet_mapSet_self, hg]
          rw [ih _ h ks' hks']
          simp [handlersAt_fresh]
        | some n =>
          simp only [insertAt, handlersAt, children_mk, mapGet_mapSet_self, hg]
          rw [ih _ h ks' hks']
          simp
      · simp [insertAt, handlersAt, mapGet_mapSet_ne _ _ _ _ hk]

/-- A request whose segment texts lead, child by child, to a node that holds a
chain is answered with that chain, and no parameter is bound. -/
theorem GetValue_exact (req : List pathSegment) :
    req ≠ [] → ∀ (r : node) (params : Params),
      handlersAt r (req.map pathSegment.value) ≠ [] →
      GetValue r req params
        = some ({ handlers := handlersAt r (req.map pathSegment.value),
                  params := some params }, params) := by
  induction req with
  | nil => intro h; exact absurd rfl h
  | cons seg rest ih =>
    intro _ r params hh
    simp only [List.map_cons, handlersAt] at hh ⊢
    cases hg : mapGet r.children seg.value with
    | none => simp [hg] at hh
    | some nd =>
      simp only [hg] at hh ⊢
      cases rest with
      | nil => simp [GetValue, hg, handlersAt]
      | cons seg' rest' =>
        have := ih (by simp) nd params hh
        simp only [GetValue, hg]
        exact this

/-! ## Registration in the method table -/

/-- `AddRoute` on a path that starts with `'/'`: it fails on an empty method, an
empty chain, an invalid segmentation or a method without an entry, and
otherwise replaces the method's root by the trie with the chain inserted at
the segments that follow the root segment. -/
theorem AddRoute_slash (t : methodTree) (m body : GoString) (h : HandlersChain) :
    AddRoute t m ('/' :: body) h
      = if m ≠ [] ∧ h ≠ [] ∧ (scan body [] .normal true).2 = true then
          (mapGet t.tree m).map fun rn =>
            { t with tree := mapSet t.tree m (insertAt rn (scan body [] .normal true).1 h) }
        else none := by
  unfold AddRoute
  rw [getPathSegments_cons]
  by_cases hm : m = []
  · simp [assert1, hm]
  by_cases hh : h = []
  · simp [assert1, hm, hh]
  have hlen : h.length > 0 := List.length_pos.mpr hh
  cases hg : mapGet t.tree m with
  | none => simp [assert1, hm, hh, hlen]
  | some rn =>
    by_cases hv : (scan body [] .normal true).2 = true
    · cases hs : (scan body [] .normal true).1 with
      | nil => simp [assert1, hm, hh, hlen, hv, hs, insertAt]
      | cons ps rest =>
        simp [assert1, hm, hh, hlen, hv, hs, addroute_eq_insertAt]
    · simp [assert1, hm, hh, hlen, hv]

theorem AddRoute_not_slash (t : methodTree) (m : GoString) (c : Char) (body : GoString)
    (h : HandlersChain) (hc : c ≠ '/') : AddRoute t m (c :: body) h = none := by
  simp [AddRoute, assert1, hc]

theorem routeKeys_slash (body : GoString) :
    routeKeys ('/' :: body) = (scan body [] .normal true).1.map keyOf := by
  simp [routeKeys, getPathSegments_cons]

theorem treeHandlersAt_AddRoute (t t' : methodTree) (m p : GoString) (h : HandlersChain)
    (hadd : AddRoute t m p h = some t') (m' : GoString) (ks : List GoString) :
    treeHandlersAt t' m' ks
      = if m' = m ∧ ks = routeKeys p then h else treeHandlersAt t m' ks := by
  cases p with
  | nil => simp [AddRoute] at hadd
  | cons c body =>
    by_cases hc : c = '/'
    · subst hc
      rw [AddRoute_slash] at hadd
      split_ifs at hadd with hcond
      cases hg : mapGet t.tree m with
      | none => simp [hg] at hadd
      | some rn =>
        simp only [hg, Option.map_some', Option.some.injEq] at hadd
        subst hadd
        rw [routeKeys_slash]
        by_cases hm : m' = m
        · subst hm
          by_cases hk : ks = (scan body [] .normal true).1.map keyOf
          · subst hk
            simp [treeHandlersAt, mapGet_mapSet_self, handlersAt_insertAt_self]
          · simp [treeHandlersAt, mapGet_mapSet_self, hk, hg,
              handlersAt_insertAt_ne _ _ _ _ hk]
        · simp [treeHandlersAt, hm, mapGet_mapSet_ne _ _ _ _ hm]
    · rw [AddRoute_not_slash _ _ _ _ _ hc] at hadd
      exact absurd hadd (by simp)

theorem treeHandlersAt_addRoutes (rs : List Route) :
    ∀ (t t' : methodTree), addRoutes t rs = some t' →
      ∀ (m : GoString) (ks : List GoString),
      treeHandlersAt t' m ks
        = match rs.reverse.find? (fun r => r.method = m ∧ routeKeys r.path = ks) with
          | some r => r.handlers
          | none => treeHandlersAt t m ks := by
  induction rs with
  | nil =>
    intro t t' h m ks
    simp only [addRoutes, Option.some.injEq] at h
    subst h
    simp
  | cons r rs ih =>
    intro t t' h m ks
    simp only [addRoutes] at h
    cases h1 : AddRoute t r.method r.path r.handlers with
    | none => simp [h1] at h
    | some t1 =>
      simp only [h1, Option.some_bind] at h
      rw [ih t1 t' h m ks, List.reverse_cons, List.find?_append]
      cases hf : rs.reverse.find? (fun r => r.method = m ∧ routeKeys r.path = ks) with
      | some r' => simp
      | none =>
        rw [treeHandlersAt_AddRoute t t1 _ _ _ h1]
        by_cases hc : r.method = m ∧ routeKeys r.path = ks
        · simp [hc]
        · have hc' : ¬ (m = r.method ∧ ks = routeKeys r.path) :=
            fun e => hc ⟨e.1.symm, e.2.symm⟩
          simp [hc, hc']

/-- Every route of a sequence that registered has a path starting with `'/'`
and a non-empty chain. -/
theorem addRoutes_wellformed (rs : List Route) :
    ∀ (t t' : methodTree), addRoutes t rs = some t' →
      ∀ r ∈ rs, (∃ body, r.path = '/' :: body) ∧ r.handlers ≠ [] := by
  induction rs with
  | nil => intro _ _ _ r hr; simp at hr
  | cons r0 rs ih =>
    intro t t' h r hr
    simp only [addRoutes] at h
    cases h1 : AddRoute t r0.method r0.path r0.handlers with
    | none => simp [h1] at h
    | some t1 =>
      simp only [h1, Option.some_bind] at h
      rcases List.mem_cons.mp hr with e | hr'
      · subst e
        cases hp : r.path with
        | nil => simp [hp, AddRoute] at h1
        | cons c body =>
          rw [hp] at h1
          by_cases hc : c = '/'
          · subst hc
            rw [AddRoute_slash] at h1
            split_ifs at h1 with hcond
            exact ⟨⟨body, rfl⟩, hcond.2.1⟩
          · rw [AddRoute_not_slash _ _ _ _ _ hc] at h1
            exact absurd h1 (by simp)
      · exact ih t1 t' h r hr'

/-! ## Literal paths -/

theorem scan_ne_nil (b : List Char) (hb : b ≠ []) :
    ∀ (cur : GoString) (k : nodeKind) (v : Bool), (scan b cur k v).1 ≠ [] := by
  induction b with
  | nil => exact absurd rfl hb
  | cons c rest ih =>
    intro cur k v
    cases rest with
    | nil => by_cases hc : c = '/' <;> simp [scan, hc]
    | cons c' rest' =>
      by_cases hc : c = '/'
      · simp [scan, hc]
      · rw [scan_cons_ne c _ (by simp) hc]
        exact ih (by simp) _ _ _

theorem recon_scan (b : List Char) :
    b ≠ [] → ∀ (cur : GoString) (k : nodeKind) (v : Bool),
      recon ((scan b cur k v).1.map pathSegment.value) = cur ++ b := by
  induction b with
  | nil => intro h; exact absurd rfl h
  | cons c rest ih =>
    intro _ cur k v
    cases rest with
    | nil =>
      by_cases hc : c = '/'
      · simp [scan, hc, recon]
      · have hx : cur ++ [c] ≠ ['/'] := by
          intro e
          have := congrArg List.getLast? e
          simp at this
          exact hc this
        simp [scan, hc, recon, hx]
    | cons c' rest' =>
      by_cases hc : c = '/'
      · subst hc
        rw [scan_cons_slash]
        obtain ⟨y, ys, hy⟩ := List.exists_cons_of_ne_nil
          (scan_ne_nil (c' :: rest') (by simp) [] .normal v)
        have := ih (by simp) [] .normal v
        rw [hy] at this
        simp only [List.map_cons, hy, recon]
        simp only [List.map_cons] at this
        rw [this]
        simp
      · rw [scan_cons_ne c _ (by simp) hc, ih (by simp)]
        simp

theorem scan_literal (b : List Char) :
    (∀ c ∈ b, c ≠ ':' ∧ c ≠ '*') → ∀ (cur : GoString) (v : Bool),
      (∀ s ∈ (scan b cur .normal v).1, s.kind = .normal) ∧
      (scan b cur .normal v).2 = v := by
  induction b with
  | nil => intro _ cur v; simp [scan]
  | cons c rest ih =>
    intro hl cur v
    have hrest : ∀ c ∈ rest, c ≠ ':' ∧ c ≠ '*' := fun x hx => hl x (by simp [hx])
    cases rest with
    | nil => by_cases hc : c = '/' <;> simp [scan, hc]
    | cons c' rest' =>
      by_cases hc : c = '/'
      · subst hc
        rw [scan_cons_slash]
        have := ih hrest [] v
        refine ⟨?_, this.2⟩
        intro s hs
        rcases List.mem_cons.mp hs with e | hs'
        · rw [e]
        · exact this.1 s hs'
      · rw [scan_cons_ne c _ (by simp) hc, markStep_plain c (hl c (by simp))]
        exact ih hrest _ v

theorem keyOf_of_ne_wildcard (s : pathSegment) (h : keyOf s ≠ wildcard) :
    keyOf s = s.value := by
  unfold keyOf at h ⊢
  split_ifs at h ⊢ with hk
  · exact absurd rfl h
  · rfl

theorem keyOf_normal (s : pathSegment) (h : s.kind = .normal) : keyOf s = s.value := by
  simp [keyOf, h]

/-- A literal path none of whose segments is the reserved key shares its child
keys with no other path. -/
theorem routeKeys_inj (body body' : GoString) (hlit : ∀ c ∈ body, c ≠ ':' ∧ c ≠ '*')
    (hw : ∀ s ∈ (scan body [] .normal true).1, s.value ≠ wildcard)
    (heq : (scan body' [] .normal true).1.map keyOf
        = (scan body [] .normal true).1.map keyOf) : body' = body := by
  have hk : (scan body [] .normal true).1.map keyOf
      = (scan body [] .normal true).1.map pathSegment.value :=
    List.map_congr_left fun s hs => keyOf_normal s ((scan_literal body hlit [] true).1 s hs)
  have hk' : (scan body' [] .normal true).1.map keyOf
      = (scan body' [] .normal true).1.map pathSegment.value := by
    apply List.map_congr_left
    intro s hs
    apply keyOf_of_ne_wildcard
    have hmem : keyOf s ∈ (scan body [] .normal true).1.map keyOf := by
      rw [← heq]; exact List.mem_map_of_mem _ hs
    rw [hk] at hmem
    obtain ⟨s0, hs0, e⟩ := List.mem_map.mp hmem
    rw [← e]
    exact hw s0 hs0
  have hv : (scan body' [] .normal true).1.map pathSegment.value
      = (scan body [] .normal true).1.map pathSegment.value := by
    rw [← hk', ← hk, heq]
  by_cases hb : body = []
  · subst hb
    by_contra hb'
    have := scan_ne_nil body' hb' [] .normal true
    simp [scan] at hv
    exact this hv
  · have hb' : body' ≠ [] := by
      intro e
      subst e
      have := scan_ne_nil body hb [] .normal true
      simp [scan] at hv
      exact this hv
    have h1 := recon_scan body hb [] .normal true
    have h2 := recon_scan body' hb' [] .normal true
    rw [hv, h1] at h2
    simpa using h2.symm

/-! ## Lookup in the method table -/

theorem GetReqValue_cons (t : methodTree) (m : GoString) (c0 : Char) (body : GoString)
    (params : Params) :
    GetReqValue t m (c0 :: body) params
      = if (scan body [] .normal true).2 = false then some ({}, params) else
        match mapGet t.tree m with
        | none => some ({}, params)
        | some n =>
          if (scan body [] .normal true).1 = [] then
            some ({ handlers := n.handlers }, params)
          else GetValue n (scan body [] .normal true).1 params := by
  unfold GetReqValue
  rw [getPathSegments_cons]
  by_cases hv : (scan body [] .normal true).2 = false
  · simp [hv]
  · cases hg : mapGet t.tree m with
    | none => simp [hv]
    | some n =>
      cases hs : (scan body [] .normal true).1 with
      | nil => simp [hv, hs]
      | cons a l => simp [hv, hs]

theorem find?_congr_mem {α : Type} (l : List α) (p q : α → Bool)
    (h : ∀ x ∈ l, p x = q x) : l.find? p = l.find? q := by
  induction l with
  | nil => rfl
  | cons a l ih =>
    have ha := h a (by simp)
    have := ih (fun x hx => h x (by simp [hx]))
    simp [List.find?, ha, this]

/-- The chain found in the method table at the keys of a literal path without a
`wildcard` segment is the one of the last registration of that path. -/
theorem treeHandlersAt_literal (rs : List Route) (t0 t : methodTree)
    (hreg : addRoutes t0 rs = some t) (m body : GoString) (h : HandlersChain)
    (hlast : lastRegistered rs m ('/' :: body) = some h)
    (hlit : ∀ c ∈ body, c ≠ ':' ∧ c ≠ '*')
    (hw : ∀ s ∈ (scan body [] .normal true).1, s.value ≠ wildcard) :
    treeHandlersAt t m ((scan body [] .normal true).1.map keyOf) = h := by
  have hwf := addRoutes_wellformed rs t0 t hreg
  have hfind : rs.reverse.find?
        (fun r => r.method = m ∧ routeKeys r.path = (scan body [] .normal true).1.map keyOf)
      = rs.reverse.find? (fun r => r.method = m ∧ r.path = '/' :: body) := by
    apply find?_congr_mem
    intro r hr
    obtain ⟨⟨b', hb'⟩, _⟩ := hwf r (List.mem_reverse.mp hr)
    rw [hb', routeKeys_slash]
    by_cases hm : r.method = m
    · by_cases hb : b' = body
      · subst hb; simp [hm]
      · have : (scan b' [] .normal true).1.map keyOf
            ≠ (scan body [] .normal true).1.map keyOf :=
          fun e => hb (routeKeys_inj body b' hlit hw e)
        simp [hm, hb, this]
    · simp [hm]
  rw [treeHandlersAt_addRoutes rs t0 t hreg, hfind]
  unfold lastRegistered at hlast
  cases hf : rs.reverse.find? (fun r => r.method = m ∧ r.path = '/' :: body) with
  | none =>
    rw [hf] at hlast
    exact absurd hlast (by simp)
  | some r =>
    rw [hf] at hlast
    simpa using hlast

/-! ## A single parameterised route -/

theorem mapGet_map_const {α : Type} (l : List GoString) (v : α) (k : GoString) :
    mapGet (l.map (fun m => (m, v))) k = if k ∈ l then some v else none := by
  induction l with
  | nil => simp [mapGet]
  | cons a l ih =>
    by_cases h : a = k
    · simp [mapGet, h]
    · have h' : ¬ k = a := fun e => h e.symm
      simp [mapGet, h, h', ih]

theorem mapGet_NewTree (m : GoString) :
    mapGet NewTree.tree m = if m ∈ httpMethods then some newRootNode else none := by
  simp only [NewTree]
  exact mapGet_map_const httpMethods newRootNode m

theorem httpMethods_ne_nil (m : GoString) (hm : m ∈ httpMethods) : m ≠ [] := by
  intro e
  subst e
  revert hm
  decide

theorem insertAt_pathSegment (segs : List pathSegment) (r : node) (h : HandlersChain) :
    (insertAt r segs h).pathSegment = r.pathSegment := by
  cases segs <;> simp [insertAt]

theorem PlainText.nice {s : GoString} (h : PlainText s) : NiceChunk s := by
  obtain ⟨hne, hc⟩ := h
  refine ⟨hne, fun hm => (hc _ hm).1 rfl, fun x hx => (hc x (List.mem_of_mem_tail hx)).2,
    fun e => ?_, fun e => ?_⟩
  · exact (hc ':' (by rw [e]; simp)).2.1 rfl
  · exact (hc '*' (by rw [e]; simp)).2.2 rfl

theorem PlainText.niceKind {s : GoString} (h : PlainText s) : niceKind s = .normal := by
  obtain ⟨hne, hc⟩ := h
  cases s with
  | nil => rfl
  | cons a as =>
    have := hc a (by simp)
    simp [Gateway2.niceKind, this.2.1, this.2.2]

theorem PatSeg.Ok.pattern_nice {s : PatSeg} (h : s.Ok) : NiceChunk s.pattern := by
  cases s with
  | lit t => exact PlainText.nice h
  | par n v =>
    obtain ⟨⟨hne, hc⟩, _, _⟩ := h
    refine ⟨by simp [PatSeg.pattern], ?_, ?_, ?_, ?_⟩
    · intro hm
      rcases List.mem_cons.mp hm with e | hm'
      · exact absurd e (by decide)
      · exact (hc _ hm').1 rfl
    · intro x hx
      exact (hc x (by simpa [PatSeg.pattern] using hx)).2
    · intro e
      simp [PatSeg.pattern] at e
      exact hne e
    · intro e
      simp [PatSeg.pattern] at e

theorem PatSeg.Ok.request_nice {s : PatSeg} (h : s.Ok) : NiceChunk s.request := by
  cases s with
  | lit t => exact PlainText.nice h
  | par n v => exact PlainText.nice h.2.1

theorem PatSeg.Ok.request_kind {s : PatSeg} (h : s.Ok) : niceKind s.request = .normal := by
  cases s with
  | lit t => exact PlainText.niceKind h
  | par n v => exact PlainText.niceKind h.2.1

theorem GetValue_cons_found (r nd : node) (seg : pathSegment) (rest : List pathSegment)
    (params : Params) (hg : mapGet r.children seg.value = some nd) :
    GetValue r (seg :: rest) params = descend nd rest params := by
  rw [GetValue.eq_def]
  simp only [hg]
  cases rest <;> rfl

theorem GetValue_cons_wild (r nd : node) (seg : pathSegment) (rest : List pathSegment)
    (params : Params) (c : Char) (key : GoString)
    (hg : mapGet r.children seg.value = none) (hw : mapGet r.children wildcard = some nd)
    (hcap : params.elems.length + 1 ≤ params.cap) (hv : nd.pathSegment.value = c :: key) :
    GetValue r (seg :: rest) params
      = descend nd rest
          { params with elems := params.elems ++ [{ Key := key, Value := seg.value }] } := by
  rw [GetValue.eq_def]
  simp only [hg, hw, hcap, if_true, hv]
  cases rest <;> rfl

theorem GetValue_cons_none (r : node) (seg : pathSegment) (rest : List pathSegment)
    (params : Params) (hg : mapGet r.children seg.value = none)
    (hw : mapGet r.children wildcard = none) :
    GetValue r (seg :: rest) params = some ({}, params) := by
  rw [GetValue.eq_def]
  simp only [hg, hw]

theorem descend_cons (nd : node) (seg : pathSegment) (rest : List pathSegment)
    (params : Params) : descend nd (seg :: rest) params = GetValue nd (seg :: rest) params :=
  rfl

theorem keyOf_segOf_plain {s : GoString} (h : PlainText s) : keyOf (segOf s) = s := by
  simp [keyOf, segOf, PlainText.niceKind h]

theorem keyOf_segOf_param (n : GoString) : keyOf (segOf (':' :: n)) = wildcard := by
  simp [keyOf, segOf, niceKind]

/-- The lookup of the concrete path in the trie that holds the pattern alone
below a node without children. -/
theorem descend_insertAt_fresh (h : HandlersChain) (segs : List PatSeg) :
    ∀ (ps : pathSegment) (params : Params), (∀ s ∈ segs, s.Ok) →
      params.elems.length + (segs.filterMap PatSeg.binding).length ≤ params.cap →
      descend (insertAt (.mk ps [] []) (segs.map fun s => segOf s.pattern) h)
          (segs.map fun s => segOf s.request) params
        = some ({ handlers := h,
                  params := some { params with
                    elems := params.elems ++ segs.filterMap PatSeg.binding } },
                { params with elems := params.elems ++ segs.filterMap PatSeg.binding }) := by
  induction segs with
  | nil => intro ps params _ _; simp [descend, insertAt]
  | cons s rest ih =>
    intro ps params hok hcap
    have hs := hok s (by simp)
    have hrest : ∀ x ∈ rest, x.Ok := fun x hx => hok x (by simp [hx])
    have htree : insertAt (.mk ps [] []) ((s :: rest).map fun s => segOf s.pattern) h
        = .mk ps [(keyOf (segOf s.pattern),
            insertAt (.mk (segOf s.pattern) [] []) (rest.map fun s => segOf s.pattern) h)]
            [] := by
      simp [insertAt, mapGet, mapSet]
    rw [htree, List.map_cons, descend_cons]
    cases s with
    | lit t =>
      have hk : keyOf (segOf (PatSeg.lit t).pattern) = t := keyOf_segOf_plain hs
      have hcap' : params.elems.length + (rest.filterMap PatSeg.binding).length
          ≤ params.cap := by simpa [PatSeg.binding] using hcap
      rw [GetValue_cons_found _
        (insertAt (.mk (segOf (PatSeg.lit t).pattern) [] [])
          (rest.map fun s => segOf s.pattern) h) _ _ _
        (by simp only [children_mk, hk, mapGet]; simp [segOf, PatSeg.request]),
        ih _ params hrest hcap']
      simp [PatSeg.binding]
    | par n v =>
      have hk : keyOf (segOf (PatSeg.par n v).pattern) = wildcard := keyOf_segOf_param n
      have hv : v ≠ wildcard := hs.2.2
      have hcap1 : params.elems.length + 1 ≤ params.cap := by
        simp [PatSeg.binding] at hcap; omega
      have hcap' : (params.elems ++ [({ Key := n, Value := v } : Param)]).length
          + (rest.filterMap PatSeg.binding).length ≤ params.cap := by
        simp [PatSeg.binding] at hcap ⊢; omega
      rw [GetValue_cons_wild _
        (insertAt (.mk (segOf (PatSeg.par n v).pattern) [] [])
          (rest.map fun s => segOf s.pattern) h) _ _ _ ':' n
        (by simp only [children_mk, hk, mapGet]
            simp [segOf, PatSeg.request, Ne.symm hv])
        (by simp only [children_mk, hk, mapGet]; simp) hcap1
        (by simp [insertAt_pathSegment, segOf, PatSeg.pattern])]
      have hv' : (segOf (PatSeg.par n v).request).value = v := rfl
      rw [hv', ih _ { params with elems := params.elems ++ [{ Key := n, Value := v }] }
          hrest hcap']
      simp [PatSeg.binding]

/-! ## Claims -/

/-- C1 (code at the failing input): after `/wildcard` is registered with chain
`[1]` and then `/:x` with chain `[2]` under GET, both calls return and the
lookup of the literal path `/wildcard` returns `[2]`, not the chain `[1]` last
registered for that path: the parameter child is stored under the key
`wildcard`, where the node of the literal segment already is, and the guard
`assert1(ok, ...)` of `addroute` against a second occupant of that slot is only
reached when `ok` is true and can never fail.  With `/wildcard` registered
alone, the request `/zzz` is answered with its chain and binds `ildcard = zzz`. -/
theorem literal_lookup_wildcard_collision :
    lastRegistered
        [⟨"GET".toList, "/wildcard".toList, [1]⟩, ⟨"GET".toList, "/:x".toList, [2]⟩]
        "GET".toList "/wildcard".toList = some [1] ∧
    ((addRoutes NewTree
        [⟨"GET".toList, "/wildcard".toList, [1]⟩, ⟨"GET".toList, "/:x".toList, [2]⟩]).bind
      fun t => GetReqValue t "GET".toList "/wildcard".toList ⟨[], 8⟩)
      = some ({ handlers := [2], params := some ⟨[], 8⟩ }, ⟨[], 8⟩) ∧
    ((AddRoute NewTree "GET".toList "/wildcard".toList [1]).bind
      fun t => GetReqValue t "GET".toList "/zzz".toList ⟨[], 8⟩)
      = some ({ handlers := [1],
                params := some ⟨[⟨"ildcard".toList, "zzz".toList⟩], 8⟩ },
          ⟨[⟨"ildcard".toList, "zzz".toList⟩], 8⟩) ∧
    (∀ (ok : Bool) (P : Prop) [Decidable P],
      (if ok = true ∧ P then assert1 ok else some ()) = some ()) := by
  refine ⟨by decide, by rfl, by rfl, ?_⟩
  intro ok P _
  exact assert_guard ok P

/-- Where the lookup of a literal path is right: for every sequence of
successful `AddRoute` calls on a fresh tree and every registered (method, path)
whose path contains no `':'` or `'*'` and has no segment equal to the reserved
key `wildcard`, `GetReqValue` started with an empty buffer returns the chain
most recently registered for that same (method, path) and binds no parameter
(the buffer stays empty). -/
theorem literal_lookup_returns_last_registered (rs : List Route) (t : methodTree)
    (hreg : addRoutes NewTree rs = some t) (m p : GoString) (h : HandlersChain)
    (hlast : lastRegistered rs m p = some h)
    (hlit : ∀ c ∈ p, c ≠ ':' ∧ c ≠ '*')
    (hw : ∀ segs valid, getPathSegments p = some (segs, valid) →
      ∀ s ∈ segs, s.value ≠ wildcard)
    (cap : Nat) :
    ∃ vc, GetReqValue t m p ⟨[], cap⟩ = some (vc, ⟨[], cap⟩) ∧
      vc.handlers = h ∧ boundParams vc = [] := by
  have hwf := addRoutes_wellformed rs NewTree t hreg
  obtain ⟨r, hr, hrh⟩ : ∃ r, rs.reverse.find? (fun r => r.method = m ∧ r.path = p) = some r
      ∧ r.handlers = h := by
    unfold lastRegistered at hlast
    cases hf : rs.reverse.find? (fun r => r.method = m ∧ r.path = p) with
    | none => rw [hf] at hlast; exact absurd hlast (by simp)
    | some r => rw [hf] at hlast; exact ⟨r, rfl, by simpa using hlast⟩
  have hpr : r.method = m ∧ r.path = p := by simpa using List.find?_some hr
  obtain ⟨⟨body, hbody⟩, hne⟩ := hwf r (List.mem_reverse.mp (List.mem_of_find?_eq_some hr))
  rw [hpr.2] at hbody
  rw [hrh] at hne
  subst hbody
  have hlit' : ∀ c ∈ body, c ≠ ':' ∧ c ≠ '*' := fun c hc => hlit c (by simp [hc])
  have hw' : ∀ s ∈ (scan body [] .normal true).1, s.value ≠ wildcard :=
    fun s hs => hw _ _ (getPathSegments_cons '/' body) s (by simp [hs])
  have hH := treeHandlersAt_literal rs NewTree t hreg m body h hlast hlit' hw'
  have hkinds := scan_literal body hlit' [] true
  have hkv : (scan body [] .normal true).1.map keyOf
      = (scan body [] .normal true).1.map pathSegment.value :=
    List.map_congr_left fun s hs => keyOf_normal s (hkinds.1 s hs)
  rw [GetReqValue_cons]
  unfold treeHandlersAt at hH
  cases hg : mapGet t.tree m with
  | none => rw [hg] at hH; exact absurd hH.symm hne
  | some n =>
    simp only [hg] at hH
    simp only [hkinds.2, Bool.true_eq_false, if_false]
    by_cases hs : (scan body [] .normal true).1 = []
    · rw [hs] at hH
      simp only [List.map_nil, handlersAt] at hH
      exact ⟨{ handlers := n.handlers }, by simp [hs], hH, rfl⟩
    · rw [hkv] at hH
      have hx := GetValue_exact _ hs n ⟨[], cap⟩ (by rw [hH]; exact hne)
      rw [hH] at hx
      exact ⟨{ handlers := h, params := some ⟨[], cap⟩ }, by simp [hs, hx], rfl, rfl⟩

/-- An instance: two registrations of `/ping/pong` and one of `/`. -/
theorem literal_lookup_returns_last_registered_witness :
    ∃ t, addRoutes NewTree
        [⟨"GET".toList, "/ping/pong".toList, [1]⟩, ⟨"GET".toList, "/".toList, [2]⟩,
         ⟨"GET".toList, "/ping/pong".toList, [3]⟩] = some t ∧
      ∃ vc, GetReqValue t "GET".toList "/ping/pong".toList ⟨[], 8⟩ = some (vc, ⟨[], 8⟩) ∧
        vc.handlers = [3] ∧ boundParams vc = [] :=
  ⟨_, rfl, literal_lookup_returns_last_registered
    [⟨"GET".toList, "/ping/pong".toList, [1]⟩, ⟨"GET".toList, "/".toList, [2]⟩,
     ⟨"GET".toList, "/ping/pong".toList, [3]⟩] _ rfl
    "GET".toList "/ping/pong".toList [3] (by decide) (by decide)
    (by
      intro segs valid hsegs
      have e : getPathSegments "/ping/pong".toList
          = some ([⟨['/'], .root⟩, ⟨"ping".toList, .normal⟩, ⟨"pong".toList, .normal⟩],
              true) := by rfl
      rw [e] at hsegs
      simp only [Option.some.injEq, Prod.mk.injEq] at hsegs
      rw [← hsegs.1]
      decide) 8⟩

/-- C2: a pattern of literal and `:name` segments with at most 8 parameters,
registered alone on a fresh tree under a supported method with a non-empty
chain `h`, answers every concrete path that keeps the literals and puts plain
values other than `wildcard` in place of the parameters with `h` and with the
parameters (name, value) in left-to-right order, in a buffer of capacity 8. -/
theorem single_pattern_lookup (segs : List PatSeg) (hne : segs ≠ [])
    (hok : ∀ s ∈ segs, s.Ok) (hcount : (segs.filterMap PatSeg.binding).length ≤ 8)
    (m : GoString) (hm : m ∈ httpMethods) (h : HandlersChain) (hh : h ≠ []) :
    ∃ t, AddRoute NewTree m ('/' :: joinBody (segs.map PatSeg.pattern)) h = some t ∧
      GetReqValue t m ('/' :: joinBody (segs.map PatSeg.request)) ⟨[], 8⟩
        = some ({ handlers := h, params := some ⟨segs.filterMap PatSeg.binding, 8⟩ },
            ⟨segs.filterMap PatSeg.binding, 8⟩) := by
  have hpat := scan_joinBody_nice (segs.map PatSeg.pattern) (by simpa using hne)
    (by
      intro c hc
      obtain ⟨s, hs, e⟩ := List.mem_map.mp hc
      exact e ▸ (hok s hs).pattern_nice) true
  have hreq := scan_joinBody_nice (segs.map PatSeg.request) (by simpa using hne)
    (by
      intro c hc
      obtain ⟨s, hs, e⟩ := List.mem_map.mp hc
      exact e ▸ (hok s hs).request_nice) true
  rw [List.map_map] at hpat hreq
  refine ⟨⟨mapSet NewTree.tree m (insertAt newRootNode (segs.map fun s => segOf s.pattern) h),
    NewTree.supportedMethods⟩, ?_, ?_⟩
  · rw [AddRoute_slash, hpat, mapGet_NewTree]
    simp [httpMethods_ne_nil m hm, hh, hm]
    rfl
  · rw [GetReqValue_cons, hreq]
    simp only [Bool.true_eq_false, if_false, mapGet_mapSet_self]
    obtain ⟨s0, rest0, e0⟩ := List.exists_cons_of_ne_nil hne
    have hd := descend_insertAt_fresh h segs ⟨['/'], .root⟩ ⟨[], 8⟩ hok (by simpa using hcount)
    have hnil : ¬ (segs.map ((fun c => ({ value := c, kind := niceKind c } : pathSegment))
        ∘ PatSeg.request)) = [] := by simpa using hne
    rw [if_neg hnil]
    rw [e0] at hd ⊢
    simpa [descend, newRootNode, segOf, Function.comp] using hd

/-- Witness for C2: the route `/user/:name/:provider` of main.go and the request
`/user/alice/github`. -/
theorem single_pattern_lookup_witness :
    ∃ t, AddRoute NewTree "GET".toList "/user/:name/:provider".toList [7] = some t ∧
      GetReqValue t "GET".toList "/user/alice/github".toList ⟨[], 8⟩
        = some ({ handlers := [7],
                  params := some ⟨[⟨"name".toList, "alice".toList⟩,
                    ⟨"provider".toList, "github".toList⟩], 8⟩ },
            ⟨[⟨"name".toList, "alice".toList⟩, ⟨"provider".toList, "github".toList⟩], 8⟩) :=
  single_pattern_lookup
    [.lit "user".toList, .par "name".toList "alice".toList,
     .par "provider".toList "github".toList]
    (by simp)
    (by
      intro s hs
      simp only [List.mem_cons, List.mem_singleton, List.not_mem_nil, or_false] at hs
      rcases hs with e | e | e <;> subst e <;>
        simp only [PatSeg.Ok, PlainText] <;> decide)
    (by decide) "GET".toList (by decide) [7] (by simp)

/-- The `valid` flag after a chunk: it stays as it was unless the chunk has a
second marker (a first one, when the kind is already not `normal`). -/
theorem markScan_valid (l : List Char) :
    ∀ (k : nodeKind) (v : Bool),
      (markScan l (k, v)).2
        = (v && decide (markerCount l ≤ if k = .normal then 1 else 0)) := by
  induction l with
  | nil => intro k v; by_cases hk : k = .normal <;> simp [markScan, markerCount, hk]
  | cons c cs ih =>
    intro k v
    by_cases hc : c = ':' ∨ c = '*'
    · have hstep : ∃ k', k' ≠ .normal ∧
          markStep c (k, v) = (k', if k ≠ .normal then false else v) := by
        rcases hc with e | e
        · exact ⟨.param, by simp, by simp [markStep, e]⟩
        · exact ⟨.catchAll, by simp, by simp [markStep, e]⟩
      obtain ⟨k', hk', hs⟩ := hstep
      have hcount : markerCount (c :: cs) = markerCount cs + 1 := by
        simp [markerCount, List.filter_cons, hc]
      rw [markScan, hs, ih, hcount]
      by_cases hk : k = .normal
      · simp [hk, hk']
      · simp [hk, hk']
    · have hc' : c ≠ ':' ∧ c ≠ '*' := ⟨fun e => hc (Or.inl e), fun e => hc (Or.inr e)⟩
      have hcount : markerCount (c :: cs) = markerCount cs := by
        simp [markerCount, List.filter_cons, hc]
      rw [markScan, markStep_plain c hc', ih, hcount]

/-! ## Claims (continued) -/

/-- C3, as stated, fails: with `/user/:name` registered alone under GET, the
request `/user/wildcard` is answered with the chain but binds no parameter
(the segment text is the reserved key of the wildcard child), and the request
`/user/a:b:c` is not matched at all (its segmentation is not valid). -/
theorem param_segment_reserved_key :
    ((AddRoute NewTree "GET".toList "/user/:name".toList [1]).bind fun t =>
        GetReqValue t "GET".toList ("/user/".toList ++ "wildcard".toList) ⟨[], 8⟩)
      = some ({ handlers := [1], params := some ⟨[], 8⟩ }, ⟨[], 8⟩) ∧
    ((AddRoute NewTree "GET".toList "/user/:name".toList [1]).bind fun t =>
        GetReqValue t "GET".toList ("/user/".toList ++ "a:b:c".toList) ⟨[], 8⟩)
      = some ({}, ⟨[], 8⟩) := by
  constructor <;> rfl

/-- C3 (amended): with `/user/:name` registered alone under GET with a non-empty
chain `h`, for every segment text `v` that is non-empty, contains no `'/'`, is
not the reserved key `wildcard` and has at most one marker (`':'` or `'*'`)
before its last byte, the request `/user/` + `v` is answered with `h` and
binds exactly `[{name: v}]`. -/
theorem param_segment_binds_value (h : HandlersChain) (hh : h ≠ []) (cap : Nat)
    (hcap : 1 ≤ cap) (v : GoString) (hv : v ≠ []) (hs : '/' ∉ v) (hw : v ≠ wildcard)
    (hm : markerCount v.dropLast ≤ 1) :
    ∃ t, AddRoute NewTree "GET".toList "/user/:name".toList h = some t ∧
      GetReqValue t "GET".toList ("/user/".toList ++ v) ⟨[], cap⟩
        = some ({ handlers := h, params := some ⟨[⟨"name".toList, v⟩], cap⟩ },
            ⟨[⟨"name".toList, v⟩], cap⟩) := by
  have hpat : scan "user/:name".toList [] .normal true
      = ([⟨"user".toList, .normal⟩, ⟨":name".toList, .param⟩], true) := by rfl
  refine ⟨⟨mapSet NewTree.tree "GET".toList
      (insertAt newRootNode [⟨"user".toList, .normal⟩, ⟨":name".toList, .param⟩] h),
    NewTree.supportedMethods⟩, ?_, ?_⟩
  · show AddRoute NewTree "GET".toList ('/' :: "user/:name".toList) h = _
    rw [AddRoute_slash, hpat, mapGet_NewTree]
    simp [hh]
    decide
  · obtain ⟨c', rest', e⟩ := List.exists_cons_of_ne_nil hv
    have hreq : scan ("user".toList ++ '/' :: v) [] .normal true
        = ([⟨"user".toList, .normal⟩, ⟨v, (markScan v.dropLast (.normal, true)).1⟩],
            true) := by
      have h1 := scan_chunk_slash "user".toList c' rest' (by decide) [] .normal true
      have hu : markScan "user".toList (.normal, true) = (.normal, true) := by rfl
      rw [hu, ← e, scan_chunk_end v hv hs, markScan_valid] at h1
      rw [h1]
      simp [hm]
    show GetReqValue _ "GET".toList ('/' :: ("user".toList ++ '/' :: v)) _ = _
    rw [GetReqValue_cons, hreq]
    simp only [Bool.true_eq_false, if_false, mapGet_mapSet_self]
    have htree : insertAt newRootNode
          [⟨"user".toList, .normal⟩, ⟨":name".toList, .param⟩] h
        = .mk ⟨['/'], .root⟩ [("user".toList,
            .mk ⟨"user".toList, .normal⟩
              [(wildcard, .mk ⟨":name".toList, .param⟩ [] h)] [])] [] := by rfl
    rw [htree, if_neg (by simp)]
    rw [GetValue_cons_found _ (.mk ⟨"user".toList, .normal⟩
          [(wildcard, .mk ⟨":name".toList, .param⟩ [] h)] []) _ _ _
        (by simp [mapGet]), descend_cons,
      GetValue_cons_wild _ (.mk ⟨":name".toList, .param⟩ [] h) _ _ _ ':' "name".toList
        (by simp [mapGet, Ne.symm hw]) (by simp [mapGet]) (by simpa using hcap) (by rfl)]
    simp [descend]

/-- Witness for C3: the request `/user/alice`. -/
theorem param_segment_binds_value_witness :
    ∃ t, AddRoute NewTree "GET".toList "/user/:name".toList [1] = some t ∧
      GetReqValue t "GET".toList ("/user/".toList ++ "alice".toList) ⟨[], 8⟩
        = some ({ handlers := [1], params := some ⟨[⟨"name".toList, "alice".toList⟩], 8⟩ },
            ⟨[⟨"name".toList, "alice".toList⟩], 8⟩) :=
  param_segment_binds_value [1] (by simp) 8 (by decide) "alice".toList (by simp)
    (by decide) (by decide) (by decide)

/-- C4: a literal match precedes the wildcard at every depth: when the node has
a child stored under the text of the request segment, `GetValue` continues with
that child and the parameter buffer as it is (no parameter is bound for the
segment); and with `/user/me` and `/user/:name` both registered under GET, in
either order, the request `/user/me` is answered with the chain of `/user/me`
and binds no parameter. -/
theorem literal_precedes_wildcard :
    (∀ (r nd : node) (seg : pathSegment) (rest : List pathSegment) (params : Params),
      mapGet r.children seg.value = some nd →
      GetValue r (seg :: rest) params = descend nd rest params) ∧
    (∀ (a b : HandlerFunc) (as bs : HandlersChain) (cap : Nat),
      ((addRoutes NewTree [⟨"GET".toList, "/user/me".toList, a :: as⟩,
          ⟨"GET".toList, "/user/:name".toList, b :: bs⟩]).bind fun t =>
        GetReqValue t "GET".toList "/user/me".toList ⟨[], cap⟩)
        = some ({ handlers := a :: as, params := some ⟨[], cap⟩ }, ⟨[], cap⟩) ∧
      ((addRoutes NewTree [⟨"GET".toList, "/user/:name".toList, b :: bs⟩,
          ⟨"GET".toList, "/user/me".toList, a :: as⟩]).bind fun t =>
        GetReqValue t "GET".toList "/user/me".toList ⟨[], cap⟩)
        = some ({ handlers := a :: as, params := some ⟨[], cap⟩ }, ⟨[], cap⟩)) := by
  refine ⟨fun r nd seg rest params hg => GetValue_cons_found r nd seg rest params hg, ?_⟩
  intro a b as bs cap
  have hme : scan "user/me".toList [] .normal true
      = ([⟨"user".toList, .normal⟩, ⟨"me".toList, .normal⟩], true) := by rfl
  have hname : scan "user/:name".toList [] .normal true
      = ([⟨"user".toList, .normal⟩, ⟨":name".toList, .param⟩], true) := by rfl
  have hG : "GET".toList ∈ httpMethods := by decide
  have hGne : "GET".toList ≠ [] := by decide
  have e1 : "/user/me".toList = '/' :: "user/me".toList := rfl
  have e2 : "/user/:name".toList = '/' :: "user/:name".toList := rfl
  constructor
  · simp only [addRoutes, e1, e2, AddRoute_slash, hme, hname, mapGet_NewTree, hG, hGne,
      mapGet_mapSet_self, GetReqValue_cons, if_true, ne_eq, not_false_eq_true,
      and_self, Option.map_some', Option.some_bind, reduceCtorEq]
    rfl
  · simp only [addRoutes, e1, e2, AddRoute_slash, hme, hname, mapGet_NewTree, hG, hGne,
      mapGet_mapSet_self, GetReqValue_cons, if_true, ne_eq, not_false_eq_true,
      and_self, Option.map_some', Option.some_bind, reduceCtorEq]
    rfl

/-- Witness for C4: the node of `/user` after `/user/me` and `/user/:name` were
registered, at the request segment `me`. -/
theorem literal_precedes_wildcard_witness :
    GetValue
        (.mk ⟨"user".toList, .normal⟩
          [("me".toList, .mk ⟨"me".toList, .normal⟩ [] [1]),
           (wildcard, .mk ⟨":name".toList, .param⟩ [] [2])] [])
        [⟨"me".toList, .normal⟩] ⟨[], 8⟩
      = some ({ handlers := [1], params := some ⟨[], 8⟩ }, ⟨[], 8⟩) :=
  literal_precedes_wildcard.1
    (.mk ⟨"user".toList, .normal⟩
      [("me".toList, .mk ⟨"me".toList, .normal⟩ [] [1]),
       (wildcard, .mk ⟨":name".toList, .param⟩ [] [2])] [])
    (.mk ⟨"me".toList, .normal⟩ [] [1]) ⟨"me".toList, .normal⟩ [] ⟨[], 8⟩ rfl

/-- A successful `AddRoute` writes one entry of the method table, the one of its
method. -/
theorem AddRoute_tree (t t' : methodTree) (m p : GoString) (h : HandlersChain)
    (hadd : AddRoute t m p h = some t') :
    ∃ rn, t' = { t with tree := mapSet t.tree m rn } := by
  cases p with
  | nil => simp [AddRoute] at hadd
  | cons c body =>
    by_cases hc : c = '/'
    · subst hc
      rw [AddRoute_slash] at hadd
      split_ifs at hadd with hcond
      cases hg : mapGet t.tree m with
      | none => simp [hg] at hadd
      | some rn =>
        simp only [hg, Option.map_some', Option.some.injEq] at hadd
        exact ⟨_, hadd.symm⟩
    · rw [AddRoute_not_slash _ _ _ _ _ hc] at hadd
      exact absurd hadd (by simp)

/-- C5: method isolation: a successful `AddRoute` under `m` leaves the result of
`GetReqValue` under every other method `m'` unchanged, for every request path
and buffer; and on a fresh tree with `/user/:name` registered only under POST,
the GET request `/user/alice` returns no handler chain. -/
theorem method_isolation :
    (∀ (t t' : methodTree) (m m' p : GoString) (h : HandlersChain),
      m ∈ httpMethods → m' ∈ httpMethods → m ≠ m' → AddRoute t m p h = some t' →
      ∀ (q : GoString) (params : Params),
        GetReqValue t' m' q params = GetReqValue t m' q params) ∧
    (∀ (b : HandlerFunc) (bs : HandlersChain) (cap : Nat),
      ((AddRoute NewTree "POST".toList "/user/:name".toList (b :: bs)).bind fun t =>
        GetReqValue t "GET".toList "/user/alice".toList ⟨[], cap⟩)
        = some ({ handlers := [], params := none }, ⟨[], cap⟩)) := by
  constructor
  · intro t t' m m' p h _ _ hne hadd q params
    obtain ⟨rn, e⟩ := AddRoute_tree t t' m p h hadd
    subst e
    unfold GetReqValue
    simp only [mapGet_mapSet_ne _ _ _ _ (Ne.symm hne)]
  · intro b bs cap
    have hname : scan "user/:name".toList [] .normal true
        = ([⟨"user".toList, .normal⟩, ⟨":name".toList, .param⟩], true) := by rfl
    have halice : scan "user/alice".toList [] .normal true
        = ([⟨"user".toList, .normal⟩, ⟨"alice".toList, .normal⟩], true) := by rfl
    have hP : "POST".toList ∈ httpMethods := by decide
    have hPne : "POST".toList ≠ [] := by decide
    have hGP : "GET".toList ≠ "POST".toList := by decide
    have hG : "GET".toList ∈ httpMethods := by decide
    have e1 : "/user/alice".toList = '/' :: "user/alice".toList := rfl
    have e2 : "/user/:name".toList = '/' :: "user/:name".toList := rfl
    simp only [e1, e2, AddRoute_slash, hname, halice, mapGet_NewTree, hP, hPne, hG,
      mapGet_mapSet_ne _ _ _ _ hGP, GetReqValue_cons, if_true, ne_eq, not_false_eq_true,
      and_self, Option.map_some', Option.some_bind, reduceCtorEq]
    rfl

/-- Witness for C5: `/user/:name` registered under POST on a fresh tree, looked
up under GET. -/
theorem method_isolation_witness :
    ∃ t', AddRoute NewTree "POST".toList "/user/:name".toList [1] = some t' ∧
      GetReqValue t' "GET".toList "/user/alice".toList ⟨[], 8⟩
        = GetReqValue NewTree "GET".toList "/user/alice".toList ⟨[], 8⟩ :=
  ⟨_, rfl, method_isolation.1 NewTree _ "POST".toList "GET".toList "/user/:name".toList [1]
    (by decide) (by decide) (by decide) rfl "/user/alice".toList ⟨[], 8⟩⟩

/-- C6, as stated, fails: with `/files/*path` registered alone, the request
`/files/a/b` (two remaining segments) returns no handler chain; the first
segment is bound and the lookup then stops at the childless wildcard node. -/
theorem catch_all_two_segments_unmatched :
    ((AddRoute NewTree "GET".toList "/files/*path".toList [1]).bind fun t =>
        GetReqValue t "GET".toList "/files/a/b".toList ⟨[], 8⟩)
      = some ({ handlers := [], params := none },
          ⟨[⟨"path".toList, "a".toList⟩], 8⟩) := by
  rfl

/-- C6 (amended): a catch-all segment matches exactly one request segment, as a
`:name` parameter does: with `/files/*path` registered alone under a supported
method, the request `/files/c1` (`c1` plain, not `wildcard`) is answered with
the chain and binds exactly one parameter `path = c1`; every request
`/files/c1/.../ck` with `k ≥ 2` plain segments returns no handler chain. -/
theorem catch_all_matches_one_segment (m : GoString) (hm : m ∈ httpMethods)
    (h : HandlersChain) (hh : h ≠ []) (cap : Nat) (hcap : 1 ≤ cap) :
    ∃ t, AddRoute NewTree m "/files/*path".toList h = some t ∧
      (∀ c1 : GoString, PlainText c1 → c1 ≠ wildcard →
        GetReqValue t m ('/' :: joinBody ["files".toList, c1]) ⟨[], cap⟩
          = some ({ handlers := h, params := some ⟨[⟨"path".toList, c1⟩], cap⟩ },
              ⟨[⟨"path".toList, c1⟩], cap⟩)) ∧
      (∀ (c1 c2 : GoString) (cs : List GoString),
        (∀ c ∈ c1 :: c2 :: cs, PlainText c) →
        ∃ buf, GetReqValue t m ('/' :: joinBody ("files".toList :: c1 :: c2 :: cs))
            ⟨[], cap⟩ = some ({ handlers := [], params := none }, buf)) := by
  have hpat : scan "files/*path".toList [] .normal true
      = ([⟨"files".toList, .normal⟩, ⟨"*path".toList, .catchAll⟩], true) := by rfl
  have hfiles : PlainText "files".toList := by
    refine ⟨by simp, ?_⟩
    decide
  have htree : insertAt newRootNode
        [⟨"files".toList, .normal⟩, ⟨"*path".toList, .catchAll⟩] h
      = .mk ⟨['/'], .root⟩ [("files".toList,
          .mk ⟨"files".toList, .normal⟩
            [(wildcard, .mk ⟨"*path".toList, .catchAll⟩ [] h)] [])] [] := by rfl
  refine ⟨⟨mapSet NewTree.tree m
      (insertAt newRootNode [⟨"files".toList, .normal⟩, ⟨"*path".toList, .catchAll⟩] h),
    NewTree.supportedMethods⟩, ?_, ?_, ?_⟩
  · show AddRoute NewTree m ('/' :: "files/*path".toList) h = _
    rw [AddRoute_slash, hpat, mapGet_NewTree]
    simp [hh, hm, httpMethods_ne_nil m hm]
  · intro c1 hc1 hw
    have hreq := scan_joinBody_nice ["files".toList, c1] (by simp)
      (by
        intro c hc
        simp only [List.mem_cons, List.mem_singleton, List.not_mem_nil, or_false] at hc
        rcases hc with e | e
        · exact e ▸ hfiles.nice
        · exact e ▸ hc1.nice) true
    rw [GetReqValue_cons, hreq]
    simp only [Bool.true_eq_false, if_false, mapGet_mapSet_self, htree, List.map_cons,
      List.map_nil]
    rw [if_neg (by simp),
      GetValue_cons_found _ (.mk ⟨"files".toList, .normal⟩
          [(wildcard, .mk ⟨"*path".toList, .catchAll⟩ [] h)] []) _ _ _
        (by simp [mapGet]), descend_cons,
      GetValue_cons_wild _ (.mk ⟨"*path".toList, .catchAll⟩ [] h) _ _ _ '*' "path".toList
        (by simp [mapGet, Ne.symm hw]) (by simp [mapGet]) (by simpa using hcap) (by rfl)]
    simp [descend]
  · intro c1 c2 cs hplain
    have hreq := scan_joinBody_nice ("files".toList :: c1 :: c2 :: cs) (by simp)
      (by
        intro c hc
        rcases List.mem_cons.mp hc with e | hc'
        · exact e ▸ hfiles.nice
        · exact (hplain c hc').nice) true
    rw [GetReqValue_cons, hreq]
    simp only [Bool.true_eq_false, if_false, mapGet_mapSet_self, htree, List.map_cons]
    rw [if_neg (by simp),
      GetValue_cons_found _ (.mk ⟨"files".toList, .normal⟩
          [(wildcard, .mk ⟨"*path".toList, .catchAll⟩ [] h)] []) _ _ _
        (by simp [mapGet]), descend_cons]
    by_cases hw : c1 = wildcard
    · rw [GetValue_cons_found _ (.mk ⟨"*path".toList, .catchAll⟩ [] h) _ _ _
          (by simp [mapGet, hw]), descend_cons,
        GetValue_cons_none _ _ _ _ (by simp [mapGet]) (by simp [mapGet])]
      exact ⟨_, rfl⟩
    · rw [GetValue_cons_wild _ (.mk ⟨"*path".toList, .catchAll⟩ [] h) _ _ _ '*'
          "path".toList (by simp [mapGet, Ne.symm hw]) (by simp [mapGet])
          (by simpa using hcap) (by rfl), descend_cons,
        GetValue_cons_none _ _ _ _ (by simp [mapGet]) (by simp [mapGet])]
      exact ⟨_, rfl⟩

/-- Witness for C6: `/files/*path` under GET with a buffer of capacity 8. -/
theorem catch_all_matches_one_segment_witness :
    ∃ t, AddRoute NewTree "GET".toList "/files/*path".toList [1] = some t ∧
      (∀ c1 : GoString, PlainText c1 → c1 ≠ wildcard →
        GetReqValue t "GET".toList ('/' :: joinBody ["files".toList, c1]) ⟨[], 8⟩
          = some ({ handlers := [1], params := some ⟨[⟨"path".toList, c1⟩], 8⟩ },
              ⟨[⟨"path".toList, c1⟩], 8⟩)) ∧
      (∀ (c1 c2 : GoString) (cs : List GoString),
        (∀ c ∈ c1 :: c2 :: cs, PlainText c) →
        ∃ buf, GetReqValue t "GET".toList
            ('/' :: joinBody ("files".toList :: c1 :: c2 :: cs))
            ⟨[], 8⟩ = some ({ handlers := [], params := none }, buf)) :=
  catch_all_matches_one_segment "GET".toList (by decide) [1] (by simp) 8 (by decide)

/-! ## The key set of the method table -/

theorem mapGet_mapSet_isSome {α : Type} (l : List (GoString × α)) (k k' : GoString) (v : α) :
    (mapGet (mapSet l k v) k').isSome = true ↔ k' = k ∨ (mapGet l k').isSome = true := by
  by_cases h : k' = k
  · subst h; simp [mapGet_mapSet_self]
  · simp [mapGet_mapSet_ne _ _ _ _ h, h]

theorem AddRoute_key (t t' : methodTree) (m p : GoString) (h : HandlersChain)
    (hadd : AddRoute t m p h = some t') : (mapGet t.tree m).isSome = true := by
  cases p with
  | nil => simp [AddRoute] at hadd
  | cons c body =>
    by_cases hc : c = '/'
    · subst hc
      rw [AddRoute_slash] at hadd
      split_ifs at hadd with hcond
      cases hg : mapGet t.tree m with
      | none => simp [hg] at hadd
      | some rn => rfl
    · rw [AddRoute_not_slash _ _ _ _ _ hc] at hadd
      exact absurd hadd (by simp)

/-- The keys of the method table stay the nine methods of `NewTree`. -/
theorem addRoutes_methods (rs : List Route) :
    ∀ (t t' : methodTree), addRoutes t rs = some t' →
      (∀ m, (mapGet t.tree m).isSome = true ↔ m ∈ httpMethods) →
      ∀ m, (mapGet t'.tree m).isSome = true ↔ m ∈ httpMethods := by
  induction rs with
  | nil =>
    intro t t' h hinv
    simp only [addRoutes, Option.some.injEq] at h
    subst h
    exact hinv
  | cons r rs ih =>
    intro t t' h hinv
    simp only [addRoutes] at h
    cases h1 : AddRoute t r.method r.path r.handlers with
    | none => simp [h1] at h
    | some t1 =>
      simp only [h1, Option.some_bind] at h
      refine ih t1 t' h ?_
      intro m
      obtain ⟨rn, e⟩ := AddRoute_tree t t1 _ _ _ h1
      have hk := AddRoute_key t t1 _ _ _ h1
      subst e
      rw [mapGet_mapSet_isSome]
      constructor
      · rintro (e | hm)
        · subst e; exact (hinv _).mp hk
        · exact (hinv m).mp hm
      · intro hm; exact Or.inr ((hinv m).mpr hm)

theorem NewTree_methods (m : GoString) :
    (mapGet NewTree.tree m).isSome = true ↔ m ∈ httpMethods := by
  rw [mapGet_NewTree]
  by_cases h : m ∈ httpMethods <;> simp [h]

/-- On a tree built by successful registrations, `AddRoute` on a path that starts
with `'/'` succeeds exactly when the method is supported, the chain is not
empty and the segmentation is valid. -/
theorem AddRoute_slash_isSome (rs : List Route) (t : methodTree)
    (hreg : addRoutes NewTree rs = some t) (m body : GoString) (h : HandlersChain) :
    (AddRoute t m ('/' :: body) h).isSome = true
      ↔ m ∈ httpMethods ∧ h ≠ [] ∧ (scan body [] .normal true).2 = true := by
  have hinv := addRoutes_methods rs NewTree t hreg NewTree_methods m
  rw [AddRoute_slash]
  constructor
  · intro hs
    split_ifs at hs with hcond
    · refine ⟨hinv.mp ?_, hcond.2.1, hcond.2.2⟩
      cases hg : mapGet t.tree m with
      | none => simp [hg] at hs
      | some rn => rfl
    · simp at hs
  · rintro ⟨hm, hh, hv⟩
    have hne := httpMethods_ne_nil m hm
    have hk := hinv.mpr hm
    cases hg : mapGet t.tree m with
    | none => simp [hg] at hk
    | some rn => simp [hne, hh, hv]

/-! ## Claims (registration) -/

/-- C7, as stated, fails: `/files/*path/more`, in which a further segment
follows the catch-all, is accepted by `AddRoute`, and the request
`/files/x/more` is then answered with its chain. -/
theorem segment_after_catch_all_accepted :
    (AddRoute NewTree "GET".toList "/files/*path/more".toList [1]).isSome = true ∧
    ((AddRoute NewTree "GET".toList "/files/*path/more".toList [1]).bind fun t =>
        GetReqValue t "GET".toList "/files/x/more".toList ⟨[], 8⟩)
      = some ({ handlers := [1], params := some ⟨[⟨"path".toList, "x".toList⟩], 8⟩ },
          ⟨[⟨"path".toList, "x".toList⟩], 8⟩) := by
  constructor <;> rfl

theorem nodeAt_append (a : List GoString) :
    ∀ (r : node) (b : List GoString),
      nodeAt r (a ++ b) = (nodeAt r a).bind fun w => nodeAt w b := by
  induction a with
  | nil => intro r b; simp [nodeAt]
  | cons k ks ih =>
    intro r b
    simp only [List.cons_append, nodeAt]
    cases mapGet r.children k with
    | none => rfl
    | some n => exact ih n b

/-- After an insertion the node at the keys of the inserted segments exists and
holds the inserted chain. -/
theorem nodeAt_insertAt_self (segs : List pathSegment) :
    ∀ (r : node) (h : HandlersChain),
      ∃ leaf, nodeAt (insertAt r segs h) (segs.map keyOf) = some leaf ∧
        leaf.handlers = h := by
  induction segs with
  | nil => intro r h; exact ⟨_, rfl, rfl⟩
  | cons ps rest ih =>
    intro r h
    rw [insertAt]
    simp only [List.map_cons, nodeAt, children_mk, mapGet_mapSet_self]
    exact ih _ h

/-- C7 (amended): `AddRoute` does not reject a pattern because segments follow a
`'*'` catch-all segment: on every tree built by successful registrations, under
every supported method and with every non-empty chain, a pattern made of plain
segments, then `*name`, then at least one further plain segment is accepted,
and in the resulting table the later segments are inserted below the wildcard
node: below the node stored under the reserved key after the keys of the
leading segments, the keys of the later segments lead to a node that holds the
chain. -/
theorem catch_all_need_not_be_last (rs : List Route) (t : methodTree)
    (hreg : addRoutes NewTree rs = some t) (m : GoString) (hm : m ∈ httpMethods)
    (h : HandlersChain) (hh : h ≠ []) (pre : List GoString) (name : GoString)
    (more0 : GoString) (more : List GoString) (hpre : ∀ c ∈ pre, PlainText c)
    (hname : PlainText name) (hmore : ∀ c ∈ more0 :: more, PlainText c) :
    ∃ t', AddRoute t m ('/' :: joinBody (pre ++ ('*' :: name) :: more0 :: more)) h
        = some t' ∧
      ∃ w leaf, treeNodeAt t' m (pre ++ [wildcard]) = some w ∧
        nodeAt w (more0 :: more) = some leaf ∧ leaf.handlers = h := by
  have hstar : NiceChunk ('*' :: name) := by
    obtain ⟨hne, hc⟩ := hname
    refine ⟨by simp, ?_, ?_, ?_, ?_⟩
    · intro hmem
      rcases List.mem_cons.mp hmem with e | hmem'
      · exact absurd e (by decide)
      · exact (hc _ hmem').1 rfl
    · intro x hx
      exact (hc x (by simpa using hx)).2
    · intro e
      simp at e
    · intro e
      simp at e
      exact hne e
  have hn : ∀ c ∈ pre ++ ('*' :: name) :: more0 :: more, NiceChunk c := by
    intro c hc
    rcases List.mem_append.mp hc with h1 | h2
    · exact (hpre c h1).nice
    · rcases List.mem_cons.mp h2 with e | h3
      · exact e ▸ hstar
      · exact (hmore c h3).nice
  have hscan := scan_joinBody_nice (pre ++ ('*' :: name) :: more0 :: more) (by simp) hn true
  have hplain : ∀ l : List GoString, (∀ c ∈ l, PlainText c) →
      (l.map (fun c => (⟨c, niceKind c⟩ : pathSegment))).map keyOf = l := by
    intro l hl
    rw [List.map_map]
    conv_rhs => rw [← List.map_id l]
    apply List.map_congr_left
    intro c hc
    exact keyOf_segOf_plain (hl c hc)
  have hkeys : ((pre ++ ('*' :: name) :: more0 :: more).map
        (fun c => (⟨c, niceKind c⟩ : pathSegment))).map keyOf
      = (pre ++ [wildcard]) ++ (more0 :: more) := by
    rw [List.map_append, List.map_append, List.map_cons, List.map_cons, hplain pre hpre,
      hplain (more0 :: more) hmore]
    have hw : keyOf (⟨'*' :: name, niceKind ('*' :: name)⟩ : pathSegment) = wildcard := by
      simp [keyOf, niceKind]
    rw [hw]
    simp
  have hk := (addRoutes_methods rs NewTree t hreg NewTree_methods m).mpr hm
  obtain ⟨rn, hg⟩ := Option.isSome_iff_exists.mp hk
  refine ⟨⟨mapSet t.tree m (insertAt rn
      ((pre ++ ('*' :: name) :: more0 :: more).map
        (fun c => (⟨c, niceKind c⟩ : pathSegment))) h), t.supportedMethods⟩, ?_, ?_⟩
  · rw [AddRoute_slash, hscan, if_pos ⟨httpMethods_ne_nil m hm, hh, rfl⟩, hg]
    rfl
  · obtain ⟨leaf, hl, hlh⟩ := nodeAt_insertAt_self
      ((pre ++ ('*' :: name) :: more0 :: more).map
        (fun c => (⟨c, niceKind c⟩ : pathSegment))) rn h
    rw [hkeys, nodeAt_append] at hl
    cases hw : nodeAt (insertAt rn
        ((pre ++ ('*' :: name) :: more0 :: more).map
          (fun c => (⟨c, niceKind c⟩ : pathSegment))) h) (pre ++ [wildcard]) with
    | none => rw [hw] at hl; simp at hl
    | some w =>
      rw [hw] at hl
      refine ⟨w, leaf, ?_, by simpa using hl, hlh⟩
      simp only [treeNodeAt, mapGet_mapSet_self, Option.some_bind]
      exact hw

/-- Witness for C7: `/files/*path/more` on a fresh tree. -/
theorem catch_all_need_not_be_last_witness :
    ∃ t', AddRoute NewTree "GET".toList
        ('/' :: joinBody (["files".toList] ++ ('*' :: "path".toList) :: "more".toList :: []))
        [1] = some t' ∧
      ∃ w leaf, treeNodeAt t' "GET".toList (["files".toList] ++ [wildcard]) = some w ∧
        nodeAt w ("more".toList :: []) = some leaf ∧ leaf.handlers = [1] :=
  catch_all_need_not_be_last [] NewTree rfl "GET".toList (by decide) [1] (by simp)
    ["files".toList] "path".toList "more".toList []
    (by
      intro c hc
      simp only [List.mem_singleton] at hc
      subst hc
      exact ⟨by simp, by decide⟩)
    ⟨by simp, by decide⟩
    (by
      intro c hc
      simp only [List.mem_singleton] at hc
      subst hc
      exact ⟨by simp, by decide⟩)

/-- C8 (code at the failing input): after `/a/:x` is registered, `AddRoute`
accepts `/a/:y` and also `/a/*y`; the existing wildcard child is reused under
its first name, so the request `/a/v` is answered with the second chain and
binds `x`.  The guard `assert1(ok, ...)` of `addroute` is only reached when
`ok` is true and can never fail. -/
theorem second_wildcard_accepted :
    ((addRoutes NewTree [⟨"GET".toList, "/a/:x".toList, [1]⟩,
        ⟨"GET".toList, "/a/:y".toList, [2]⟩]).bind fun t =>
      GetReqValue t "GET".toList "/a/v".toList ⟨[], 8⟩)
      = some ({ handlers := [2], params := some ⟨[⟨"x".toList, "v".toList⟩], 8⟩ },
          ⟨[⟨"x".toList, "v".toList⟩], 8⟩) ∧
    ((addRoutes NewTree [⟨"GET".toList, "/a/:x".toList, [1]⟩,
        ⟨"GET".toList, "/a/*y".toList, [2]⟩]).bind fun t =>
      GetReqValue t "GET".toList "/a/v".toList ⟨[], 8⟩)
      = some ({ handlers := [2], params := some ⟨[⟨"x".toList, "v".toList⟩], 8⟩ },
          ⟨[⟨"x".toList, "v".toList⟩], 8⟩) ∧
    (∀ (ok : Bool) (P : Prop) [Decidable P],
      (if ok = true ∧ P then assert1 ok else some ()) = some ()) := by
  refine ⟨by rfl, by rfl, ?_⟩
  intro ok P _
  exact assert_guard ok P

/-- C10: on a tree built by successful registrations on a fresh tree,
`AddRoute(method, path, handlers)` succeeds if and only if the path is
non-empty and begins with `'/'`, the method is one of the nine supported
methods, the chain is non-empty and `getPathSegments` reports the path valid. -/
theorem AddRoute_succeeds_iff (rs : List Route) (t : methodTree)
    (hreg : addRoutes NewTree rs = some t) (m p : GoString) (h : HandlersChain) :
    (AddRoute t m p h).isSome = true
      ↔ (p ≠ [] ∧ p.head? = some '/') ∧ m ∈ httpMethods ∧ h ≠ [] ∧
          (getPathSegments p).map Prod.snd = some true := by
  cases p with
  | nil => simp [AddRoute]
  | cons c body =>
    by_cases hc : c = '/'
    · subst hc
      rw [AddRoute_slash_isSome rs t hreg, getPathSegments_cons]
      simp
    · rw [AddRoute_not_slash _ _ _ _ _ hc]
      simp [hc]

/-- Witness for C10: `/a/////` (a route of main.go) under GET, on the tree that
holds `/ping`. -/
theorem AddRoute_succeeds_iff_witness :
    (AddRoute
        ⟨mapSet NewTree.tree "GET".toList
          (insertAt newRootNode [⟨"ping".toList, .normal⟩] [1]), httpMethods⟩
        "GET".toList "/a/////".toList [2]).isSome = true
      ↔ ("/a/////".toList ≠ [] ∧ "/a/////".toList.head? = some '/') ∧
          "GET".toList ∈ httpMethods ∧ [2] ≠ [] ∧
          (getPathSegments "/a/////".toList).map Prod.snd = some true :=
  AddRoute_succeeds_iff [⟨"GET".toList, "/ping".toList, [1]⟩] _ rfl
    "GET".toList "/a/////".toList [2]

/-! ## Literal paths and the trailing slash -/

theorem scan_values (b : List Char) :
    ∀ (cur : GoString) (k : nodeKind) (v : Bool),
      (scan b cur k v).1.map pathSegment.value = chunkTexts b cur := by
  induction b with
  | nil => intro cur k v; simp [scan, chunkTexts]
  | cons c rest ih =>
    intro cur k v
    cases rest with
    | nil => by_cases hc : c = '/' <;> simp [scan, chunkTexts, hc]
    | cons c' rest' =>
      by_cases hc : c = '/'
      · subst hc
        rw [scan_cons_slash]
        simp [chunkTexts, ih]
      · rw [scan_cons_ne c _ (by simp) hc, ih]
        simp [chunkTexts, hc]

theorem scan_literal_litSeg (b : List Char) (hlit : ∀ c ∈ b, c ≠ ':' ∧ c ≠ '*')
    (cur : GoString) (v : Bool) :
    scan b cur .normal v = ((chunkTexts b cur).map litSeg, v) := by
  have hk := scan_literal b hlit cur v
  have hv := scan_values b cur .normal v
  refine Prod.ext ?_ hk.2
  rw [← hv, List.map_map]
  show (scan b cur .normal v).1 = _
  conv_lhs => rw [← List.map_id (scan b cur .normal v).1]
  apply List.map_congr_left
  intro s hs
  have := hk.1 s hs
  cases s
  simp_all [litSeg]

/-- The segment texts of a body and of the same body with one more `'/'`. -/
theorem chunkTexts_snoc_slash (b : List Char) :
    b ≠ [] → ∀ cur : GoString, ∃ (T : List GoString) (x : GoString),
      (chunkTexts b cur = T ++ [x] ∧ chunkTexts (b ++ ['/']) cur = T ++ [x, ['/']]) ∨
      (chunkTexts b cur = T ++ [x, ['/']] ∧
        chunkTexts (b ++ ['/']) cur = T ++ [x, [], ['/']]) := by
  induction b with
  | nil => intro h; exact absurd rfl h
  | cons c rest ih =>
    intro _ cur
    cases rest with
    | nil =>
      by_cases hc : c = '/'
      · subst hc
        exact ⟨[], cur, Or.inr (by simp [chunkTexts])⟩
      · exact ⟨[], cur ++ [c], Or.inl (by simp [chunkTexts, hc])⟩
    | cons c' rest' =>
      by_cases hc : c = '/'
      · subst hc
        obtain ⟨T, x, h⟩ := ih (by simp) []
        refine ⟨cur :: T, x, ?_⟩
        rcases h with ⟨h1, h2⟩ | ⟨h1, h2⟩
        · left
          simp only [List.cons_append] at h2 ⊢
          simp [chunkTexts, h1, h2]
        · right
          simp only [List.cons_append] at h2 ⊢
          simp [chunkTexts, h1, h2]
      · obtain ⟨T, x, h⟩ := ih (by simp) (cur ++ [c])
        refine ⟨T, x, ?_⟩
        rcases h with ⟨h1, h2⟩ | ⟨h1, h2⟩
        · left
          simp only [List.cons_append] at h2 ⊢
          simp [chunkTexts, hc, h1, h2]
        · right
          simp only [List.cons_append] at h2 ⊢
          simp [chunkTexts, hc, h1, h2]

theorem insertAt_fresh_cons (ps s : pathSegment) (S : List pathSegment) (h : HandlersChain) :
    insertAt (.mk ps [] []) (s :: S) h
      = .mk ps [(keyOf s, insertAt (.mk s [] []) S h)] [] := by
  simp [insertAt, mapGet, mapSet]

theorem keyOf_litSeg (x : GoString) : keyOf (litSeg x) = x := by
  simp [keyOf, litSeg]

/-- A request that follows the keys of a single literal route for a while
continues below the last common node. -/
theorem descend_shared_keys (h : HandlersChain) (P : List GoString) :
    ∀ (S2 R2 : List GoString) (ps : pathSegment) (params : Params), ∃ ps',
      descend (insertAt (.mk ps [] []) ((P ++ S2).map litSeg) h)
          ((P ++ R2).map litSeg) params
        = descend (insertAt (.mk ps' [] []) (S2.map litSeg) h) (R2.map litSeg) params := by
  induction P with
  | nil => intro S2 R2 ps params; exact ⟨ps, rfl⟩
  | cons x P ih =>
    intro S2 R2 ps params
    obtain ⟨ps', e⟩ := ih S2 R2 (litSeg x) params
    refine ⟨ps', ?_⟩
    rw [← e]
    simp only [List.cons_append, List.map_cons, insertAt_fresh_cons, descend_cons]
    rw [GetValue_cons_found _ (insertAt (.mk (litSeg x) [] []) ((P ++ S2).map litSeg) h)]
    simp [keyOf, mapGet, litSeg]

theorem descend_inner_end (h : HandlersChain) (ps s : pathSegment) (S : List pathSegment)
    (params : Params) :
    descend (insertAt (.mk ps [] []) (s :: S) h) [] params
      = some ({ handlers := [], params := some params }, params) := by
  simp [descend, insertAt]

theorem descend_leaf_more (h : HandlersChain) (ps x : pathSegment) (R : List pathSegment)
    (params : Params) :
    descend (insertAt (.mk ps [] []) [] h) (x :: R) params = some ({}, params) := by
  rw [descend_cons, GetValue_cons_none] <;> simp [insertAt, mapGet]

theorem descend_mismatch (h : HandlersChain) (ps : pathSegment) (s x : GoString)
    (S R : List pathSegment) (params : Params) (hne : x ≠ s) (hw : s ≠ wildcard) :
    descend (insertAt (.mk ps [] []) (litSeg s :: S) h) (litSeg x :: R) params
      = some ({}, params) := by
  rw [descend_cons, insertAt_fresh_cons, GetValue_cons_none]
  · simp [mapGet, keyOf, litSeg, Ne.symm hne]
  · simp [mapGet, keyOf, litSeg, hw]

/-- The lookup of a literal path reports the chain and the `tsr` flag that the
walk from the method's root over the segment texts reports. -/
theorem GetReqValue_literal_descend (t : methodTree) (m q : GoString) (n : node)
    (params buf : Params) (vc : valueContext) (hg : mapGet t.tree m = some n)
    (hlit : ∀ c ∈ q, c ≠ ':' ∧ c ≠ '*')
    (hd : descend n ((chunkTexts q []).map litSeg) params = some (vc, buf)) :
    ∃ vc', GetReqValue t m ('/' :: q) params = some (vc', buf) ∧
      vc'.handlers = vc.handlers ∧ vc'.tsr = vc.tsr := by
  rw [GetReqValue_cons, scan_literal_litSeg q hlit]
  simp only [Bool.true_eq_false, if_false, hg]
  cases hc : chunkTexts q [] with
  | nil =>
    rw [hc] at hd
    simp only [List.map_nil, descend, Option.some.injEq, Prod.mk.injEq] at hd
    obtain ⟨e1, e2⟩ := hd
    subst e1 e2
    exact ⟨{ handlers := n.handlers }, by simp, rfl, rfl⟩
  | cons x xs =>
    rw [hc] at hd
    rw [List.map_cons, descend_cons] at hd
    exact ⟨vc, by simpa using hd, rfl, rfl⟩

/-- C9, as stated, fails: with `/foo` registered alone under GET, the request
`/foo/` returns no handler chain and `tsr = false`; `GetValue` never sets the
`tsr` field. -/
theorem trailing_slash_tsr_false :
    ((AddRoute NewTree "GET".toList "/foo".toList [1]).bind fun t =>
        GetReqValue t "GET".toList "/foo/".toList ⟨[], 8⟩)
      = some ({ handlers := [], params := none, tsr := false }, ⟨[], 8⟩) := by
  rfl

/-- C9 (amended): for every literal path `p` (beginning with `'/'`, length at
least 2) registered alone under a supported method, the lookup of the path
that differs from `p` only by the presence or absence of one trailing `'/'`
returns no handler chain together with `tsr = false`, and leaves the
parameter buffer as it was. -/
theorem trailing_slash_unmatched_without_signal (m : GoString) (hm : m ∈ httpMethods)
    (h : HandlersChain) (hh : h ≠ []) (body : GoString) (hb : body ≠ [])
    (hlit : ∀ c ∈ body, c ≠ ':' ∧ c ≠ '*') :
    ∃ t, AddRoute NewTree m ('/' :: body) h = some t ∧
      ∀ (q : GoString) (params : Params),
        (q = '/' :: body ++ ['/'] ∨ q ++ ['/'] = '/' :: body) →
        ∃ vc, GetReqValue t m q params = some (vc, params) ∧
          vc.handlers = [] ∧ vc.tsr = false := by
  have hslash : (['/'] : GoString) ≠ wildcard := by decide
  have hempty : ([] : GoString) ≠ wildcard := by decide
  refine ⟨⟨mapSet NewTree.tree m
      (insertAt newRootNode ((chunkTexts body []).map litSeg) h),
    NewTree.supportedMethods⟩, ?_, ?_⟩
  · rw [AddRoute_slash, scan_literal_litSeg body hlit, mapGet_NewTree]
    simp [hh, hm, httpMethods_ne_nil m hm]
  · intro q params hq
    have hroot : newRootNode = .mk ⟨['/'], .root⟩ [] [] := rfl
    rcases hq with hq | hq
    · subst hq
      have hlit' : ∀ c ∈ body ++ ['/'], c ≠ ':' ∧ c ≠ '*' := by
        intro c hc
        rcases List.mem_append.mp hc with h1 | h1
        · exact hlit c h1
        · simp only [List.mem_singleton] at h1
          subst h1
          decide
      suffices hd : descend
          (insertAt newRootNode ((chunkTexts body []).map litSeg) h)
          ((chunkTexts (body ++ ['/']) []).map litSeg) params = some ({}, params) by
        obtain ⟨vc', h1, h2, h3⟩ := GetReqValue_literal_descend
          ⟨mapSet NewTree.tree m (insertAt newRootNode ((chunkTexts body []).map litSeg) h),
            NewTree.supportedMethods⟩ m (body ++ ['/']) _
          params params {} (mapGet_mapSet_self _ _ _) hlit' hd
        exact ⟨vc', h1, h2, h3⟩
      obtain ⟨T, x, hT⟩ := chunkTexts_snoc_slash body hb []
      rcases hT with ⟨h1, h2⟩ | ⟨h1, h2⟩
      · rw [h1, h2, hroot]
        obtain ⟨ps', e⟩ := descend_shared_keys h (T ++ [x]) [] [['/']] ⟨['/'], .root⟩ params
        simp only [List.append_assoc, List.singleton_append, List.append_nil] at e
        rw [e]
        exact descend_leaf_more h ps' _ _ params
      · rw [h1, h2, hroot]
        obtain ⟨ps', e⟩ := descend_shared_keys h (T ++ [x]) [['/']] [[], ['/']]
          ⟨['/'], .root⟩ params
        simp only [List.append_assoc, List.singleton_append] at e
        rw [e]
        exact descend_mismatch h ps' ['/'] [] _ _ params (by simp) hslash
    · cases q with
      | nil =>
        simp only [List.nil_append, List.cons.injEq, true_and] at hq
        exact absurd hq.symm hb
      | cons c q' =>
        simp only [List.cons_append, List.cons.injEq] at hq
        obtain ⟨hc, hbody⟩ := hq
        subst hc
        subst hbody
        have hlit' : ∀ c ∈ q', c ≠ ':' ∧ c ≠ '*' :=
          fun c hc => hlit c (List.mem_append_left _ hc)
        suffices hd : ∃ vc, descend
            (insertAt newRootNode ((chunkTexts (q' ++ ['/']) []).map litSeg) h)
            ((chunkTexts q' []).map litSeg) params = some (vc, params) ∧
            vc.handlers = [] ∧ vc.tsr = false by
          obtain ⟨vc, hd1, hd2, hd3⟩ := hd
          obtain ⟨vc', h1, h2, h3⟩ := GetReqValue_literal_descend
            ⟨mapSet NewTree.tree m
              (insertAt newRootNode ((chunkTexts (q' ++ ['/']) []).map litSeg) h),
              NewTree.supportedMethods⟩ m q' _
            params params vc (mapGet_mapSet_self _ _ _) hlit' hd1
          exact ⟨vc', h1, h2.trans hd2, h3.trans hd3⟩
        by_cases hq' : q' = []
        · subst hq'
          exact ⟨_, rfl, rfl, rfl⟩
        · obtain ⟨T, x, hT⟩ := chunkTexts_snoc_slash q' hq' []
          rcases hT with ⟨h1, h2⟩ | ⟨h1, h2⟩
          · rw [h1, h2, hroot]
            obtain ⟨ps', e⟩ := descend_shared_keys h (T ++ [x]) [['/']] []
              ⟨['/'], .root⟩ params
            simp only [List.append_assoc, List.singleton_append, List.append_nil] at e
            rw [e]
            exact ⟨_, descend_inner_end h ps' _ _ params, rfl, rfl⟩
          · rw [h1, h2, hroot]
            obtain ⟨ps', e⟩ := descend_shared_keys h (T ++ [x]) [[], ['/']] [['/']]
              ⟨['/'], .root⟩ params
            simp only [List.append_assoc, List.singleton_append] at e
            rw [e]
            exact ⟨_, descend_mismatch h ps' [] ['/'] _ _ params (by simp) hempty,
              rfl, rfl⟩

/-- Witness for C9: `/foo` registered under GET. -/
theorem trailing_slash_unmatched_without_signal_witness :
    ∃ t, AddRoute NewTree "GET".toList ('/' :: "foo".toList) [1] = some t ∧
      ∀ (q : GoString) (params : Params),
        (q = '/' :: "foo".toList ++ ['/'] ∨ q ++ ['/'] = '/' :: "foo".toList) →
        ∃ vc, GetReqValue t "GET".toList q params = some (vc, params) ∧
          vc.handlers = [] ∧ vc.tsr = false :=
  trailing_slash_unmatched_without_signal "GET".toList (by decide) [1] (by simp)
    "foo".toList (by simp) (by decide)

/-! ## Registration as a sequence of writes -/

theorem mapSet_mapSet {α : Type} (m : List (GoString × α)) (k : GoString) (v v' : α) :
    mapSet (mapSet m k v) k v' = mapSet m k v' := by
  induction m with
  | nil => simp [mapSet]
  | cons e rest ih =>
    obtain ⟨k0, v0⟩ := e
    by_cases h : k0 = k
    · simp [mapSet, h]
    · simp [mapSet, h, ih]

/-- The stepwise `addroute` returns on every non-empty list of segments, with
the trie that `insertAt` describes. -/
theorem addrouteState_eq (segs : List pathSegment) :
    segs ≠ [] → ∀ (r : node) (h : HandlersChain),
      addrouteState r segs h = (insertAt r segs h, true) := by
  induction segs with
  | nil => intro hne; exact absurd rfl hne
  | cons ps rest ih =>
    intro _ r h
    have hassert : ∀ (ok : Bool) (k : GoString), ¬ (ok = true ∧ k = wildcard ∧
        (assert1 ok).isNone = true) := by
      intro ok k hc
      have := hc.2.2
      simp [assert1, hc.1] at this
    have hch : ∀ v : node,
        mapSet (if (mapGet r.children (keyOf ps)).isSome = true then r.children
            else mapSet r.children (keyOf ps)
              ((mapGet r.children (keyOf ps)).getD (.mk ps [] []))) (keyOf ps) v
          = mapSet r.children (keyOf ps) v := by
      intro v
      by_cases hok : (mapGet r.children (keyOf ps)).isSome = true
      · simp [hok]
      · simp [hok, mapSet_mapSet]
    have hkey : (if ps.kind = .param ∨ ps.kind = .catchAll then wildcard else ps.value)
        = keyOf ps := rfl
    rw [addrouteState.eq_def]
    simp only [hkey, hch]
    rw [if_neg (hassert _ _)]
    cases rest with
    | nil => rfl
    | cons ps' rest' =>
      simp only []
      rw [ih (by simp)]
      rfl

/-- The stepwise `AddRoute` and the functional one agree: the call returns
exactly when `AddRoute` yields a table, then with that table; otherwise the
table it leaves behind is the one it was given. -/
theorem AddRouteState_eq (t : methodTree) (m p : GoString) (h : HandlersChain) :
    AddRouteState t m p h
      = match AddRoute t m p h with
        | some t' => (t', true)
        | none => (t, false) := by
  cases p with
  | nil => simp [AddRouteState, AddRoute]
  | cons c body =>
    by_cases hc : c = '/'
    · subst hc
      rw [AddRoute_slash]
      unfold AddRouteState
      rw [getPathSegments_cons]
      by_cases hm : m = []
      · simp [assert1, hm]
      by_cases hh : h = []
      · simp [assert1, hm, hh]
      have hlen : h.length > 0 := List.length_pos.mpr hh
      cases hg : mapGet t.tree m with
      | none => simp [assert1, hm, hh, hlen]
      | some rn =>
        by_cases hv : (scan body [] .normal true).2 = true
        · cases hs : (scan body [] .normal true).1 with
          | nil => simp [assert1, hm, hh, hlen, hv, hs, insertAt]
          | cons ps rest =>
            simp [assert1, hm, hh, hlen, hv, hs, addrouteState_eq]
        · simp [assert1, hm, hh, hlen, hv]
    · rw [AddRoute_not_slash _ _ _ _ _ hc]
      simp [AddRouteState, assert1, hc]

/-! ## Claims (C11 to C20) -/

/-- C11: registration is atomic: whenever a call of `AddRoute` fails (the
stepwise execution panics, which is exactly when the functional `AddRoute`
yields no table), for whatever reason, it has left the whole method table
exactly as it was: no node was created and no chain replaced. -/
theorem AddRoute_failure_leaves_table (t : methodTree) (m p : GoString)
    (h : HandlersChain) :
    ((AddRouteState t m p h).2 = false ↔ AddRoute t m p h = none) ∧
    ((AddRouteState t m p h).2 = false → (AddRouteState t m p h).1 = t) := by
  rw [AddRouteState_eq]
  cases AddRoute t m p h with
  | none => simp
  | some t' => simp

/-- Witness for C11: `/a::b`, whose segmentation is not valid, on the tree that
holds `/ping`. -/
theorem AddRoute_failure_leaves_table_witness :
    (AddRouteState
        ⟨mapSet NewTree.tree "GET".toList
          (insertAt newRootNode [⟨"ping".toList, .normal⟩] [1]), httpMethods⟩
        "GET".toList "/a::b".toList [2]).1.tree
      = mapSet NewTree.tree "GET".toList
          (insertAt newRootNode [⟨"ping".toList, .normal⟩] [1]) :=
  congrArg methodTree.tree
    ((AddRoute_failure_leaves_table
      ⟨mapSet NewTree.tree "GET".toList
        (insertAt newRootNode [⟨"ping".toList, .normal⟩] [1]), httpMethods⟩
      "GET".toList "/a::b".toList [2]).2 rfl)

theorem splitOn_cons_slash (X : List Char) :
    ('/' :: X).splitOn '/' = [] :: X.splitOn '/' := by
  simp [List.splitOn]

theorem splitOn_cons_ne (c : Char) (X : List Char) (hc : c ≠ '/') :
    (c :: X).splitOn '/' = (X.splitOn '/').modifyHead (c :: ·) := by
  simp [List.splitOn, hc]

theorem modifyHead_nil_append (l : List GoString) :
    l.modifyHead (([] : GoString) ++ ·) = l := by
  cases l <;> simp

theorem modifyHead_snoc_append (cur : GoString) (c : Char) (l : List GoString) :
    (l.modifyHead (c :: ·)).modifyHead (cur ++ ·) = l.modifyHead ((cur ++ [c]) ++ ·) := by
  cases l <;> simp

/-- The segment texts are the `'/'`-separated chunks: of the whole body when it
does not end in `'/'`, and of the body without its final `'/'`, followed by the
trailing segment `"/"`, when it does. -/
theorem chunkTexts_splitOn (b : List Char) :
    b ≠ [] → ∀ cur : GoString,
      (b.getLast? ≠ some '/' →
        chunkTexts b cur = (b.splitOn '/').modifyHead (cur ++ ·)) ∧
      (∀ b', b = b' ++ ['/'] →
        chunkTexts b cur = (b'.splitOn '/').modifyHead (cur ++ ·) ++ [['/']]) := by
  induction b with
  | nil => intro h; exact absurd rfl h
  | cons c rest ih =>
    intro _ cur
    cases rest with
    | nil =>
      constructor
      · intro hl
        have hc : c ≠ '/' := fun e => hl (by simp [e])
        rw [splitOn_cons_ne c [] hc]
        simp [chunkTexts, hc]
      · intro b' hb'
        cases b' with
        | nil =>
          simp only [List.nil_append, List.cons.injEq, and_true] at hb'
          subst hb'
          simp [chunkTexts]
        | cons x xs =>
          simp only [List.cons_append, List.cons.injEq] at hb'
          have := congrArg List.length hb'.2
          simp at this
    | cons c' rest' =>
      have ih' := ih (by simp)
      constructor
      · intro hl
        have hl' : (c' :: rest').getLast? ≠ some '/' := by
          simpa [List.getLast?_cons_cons] using hl
        by_cases hc : c = '/'
        · subst hc
          rw [splitOn_cons_slash, chunkTexts, if_pos rfl, (ih' []).1 hl',
            modifyHead_nil_append]
          simp
        · rw [splitOn_cons_ne c _ hc, chunkTexts, if_neg hc, (ih' (cur ++ [c])).1 hl',
            modifyHead_snoc_append]
      · intro b' hb'
        cases b' with
        | nil => simp at hb'
        | cons x xs =>
          simp only [List.cons_append, List.cons.injEq] at hb'
          obtain ⟨hx, hxs⟩ := hb'
          subst hx
          by_cases hc : c = '/'
          · subst hc
            rw [splitOn_cons_slash, chunkTexts, if_pos rfl, (ih' []).2 xs hxs,
              modifyHead_nil_append]
            simp
          · rw [splitOn_cons_ne c _ hc, chunkTexts, if_neg hc,
              (ih' (cur ++ [c])).2 xs hxs, modifyHead_snoc_append]

theorem chunkTexts_length_snoc_slash (b : List Char) (cur : GoString) :
    (chunkTexts (b ++ ['/']) cur).length ≠ (chunkTexts b cur).length := by
  by_cases hb : b = []
  · subst hb
    simp [chunkTexts]
  · obtain ⟨T, x, h⟩ := chunkTexts_snoc_slash b hb cur
    rcases h with ⟨h1, h2⟩ | ⟨h1, h2⟩ <;> rw [h1, h2] <;> simp

/-- C12: `getPathSegments` splits on `'/'`: for every path `'/' :: body` the
first segment is the root segment with text `"/"`; for `body = []` it is the
only one; when the body is non-empty and does not end in `'/'` the texts of the
other segments are the `'/'`-separated chunks of the body; when it ends in
`'/'` they are the chunks of the body without its final `'/'` followed by
exactly one trailing segment (of text `"/"`); and the path with one more `'/'`
at its end never has the same segmentation. -/
theorem getPathSegments_splits_on_slash (body : GoString) :
    ∃ segs valid, getPathSegments ('/' :: body) = some (⟨['/'], .root⟩ :: segs, valid) ∧
      (body = [] → segs = []) ∧
      (body ≠ [] → body.getLast? ≠ some '/' →
        segs.map pathSegment.value = body.splitOn '/') ∧
      (∀ b', body = b' ++ ['/'] →
        segs.map pathSegment.value = b'.splitOn '/' ++ [['/']]) ∧
      getPathSegments ('/' :: body ++ ['/']) ≠ getPathSegments ('/' :: body) := by
  refine ⟨(scan body [] .normal true).1, (scan body [] .normal true).2,
    getPathSegments_cons '/' body, ?_, ?_, ?_, ?_⟩
  · intro hb
    subst hb
    rfl
  · intro hb hl
    rw [scan_values, (chunkTexts_splitOn body hb []).1 hl]
    cases (body.splitOn '/') <;> simp
  · intro b' hb'
    have hb : body ≠ [] := by rw [hb']; simp
    rw [scan_values, (chunkTexts_splitOn body hb []).2 b' hb']
    cases (b'.splitOn '/') <;> simp
  · intro e
    rw [List.cons_append, getPathSegments_cons, getPathSegments_cons] at e
    simp only [Option.some.injEq, Prod.mk.injEq, List.cons.injEq, true_and] at e
    have := congrArg (fun l => (l.map pathSegment.value).length) e.1
    simp only [scan_values] at this
    exact chunkTexts_length_snoc_slash body [] this

/-- Witness for C12: the path `/a/////` of main.go, which ends in `'/'`. -/
theorem getPathSegments_splits_on_slash_witness :
    ∃ segs valid, getPathSegments ('/' :: "a/////".toList)
        = some (⟨['/'], .root⟩ :: segs, valid) ∧
      segs.map pathSegment.value = "a////".toList.splitOn '/' ++ [['/']] := by
  obtain ⟨segs, valid, h1, _, _, h4, _⟩ := getPathSegments_splits_on_slash "a/////".toList
  exact ⟨segs, valid, h1, h4 "a////".toList rfl⟩

/-! ## Validity and kinds of the segments -/

theorem markerCount_append (a b : List Char) :
    markerCount (a ++ b) = markerCount a + markerCount b := by
  simp [markerCount]

theorem markerCount_singleton_marker (c : Char) (h : c = ':' ∨ c = '*') :
    markerCount [c] = 1 := by
  simp [markerCount, List.filter_cons, h]

theorem markerCount_singleton_plain (c : Char) (h : c ≠ ':' ∧ c ≠ '*') :
    markerCount [c] = 0 := by
  simp [markerCount, List.filter_cons, h.1, h.2]

theorem markStep_marker (c : Char) (h : c = ':' ∨ c = '*') (k : nodeKind) (v : Bool) :
    (markStep c (k, v)).1 ≠ .normal ∧
    (markStep c (k, v)).2 = (if k ≠ .normal then false else v) := by
  rcases h with e | e
  · simp [markStep, e]
  · simp [markStep, e]

/-- The `valid` flag of a body: it is true exactly when it was true and no
`'/'`-separated chunk of the body without its last byte (the first chunk
taken together with the part `cur` already read) has more than one marker. -/
theorem scan_valid_iff (b : List Char) :
    b ≠ [] → ∀ (cur : GoString) (k : nodeKind) (v : Bool),
      (k = .normal ↔ markerCount cur = 0) → (v = true → markerCount cur ≤ 1) →
      ((scan b cur k v).2 = true
        ↔ v = true ∧
          ∀ c ∈ (b.dropLast.splitOn '/').modifyHead (cur ++ ·), markerCount c ≤ 1) := by
  induction b with
  | nil => intro h; exact absurd rfl h
  | cons c rest ih =>
    intro _ cur k v hk hv
    cases rest with
    | nil =>
      have hs : (scan [c] cur k v).2 = v := by
        by_cases hc : c = '/' <;> simp [scan, hc]
      rw [hs]
      simp only [List.dropLast_single, List.splitOn_nil, List.modifyHead_cons,
        List.append_nil, List.mem_singleton, forall_eq]
      exact ⟨fun h => ⟨h, hv h⟩, fun h => h.1⟩
    | cons c' rest' =>
      have hdrop : (c :: c' :: rest').dropLast = c :: (c' :: rest').dropLast := rfl
      rw [hdrop]
      by_cases hc : c = '/'
      · subst hc
        rw [scan_cons_slash, splitOn_cons_slash]
        have := ih (by simp) [] .normal v (by simp [markerCount]) (by simp [markerCount])
        simp only [modifyHead_nil_append] at this
        rw [this]
        simp only [List.modifyHead_cons, List.append_nil, List.mem_cons, forall_eq_or_imp]
        exact ⟨fun h => ⟨h.1, hv h.1, h.2⟩, fun h => ⟨h.1, h.2.2⟩⟩
      · rw [scan_cons_ne c _ (by simp) hc, splitOn_cons_ne c _ hc, modifyHead_snoc_append]
        by_cases hmark : c = ':' ∨ c = '*'
        · obtain ⟨hk', hv'⟩ := markStep_marker c hmark k v
          have hcount : markerCount (cur ++ [c]) = markerCount cur + 1 := by
            rw [markerCount_append, markerCount_singleton_marker c hmark]
          have := ih (by simp) (cur ++ [c]) (markStep c (k, v)).1 (markStep c (k, v)).2
            (by rw [hcount]; simp [hk'])
            (by
              rw [hv', hcount]
              by_cases hkn : k = .normal
              · intro hvt
                have := hk.mp hkn
                omega
              · simp [hkn])
          rw [this, hv']
          by_cases hkn : k = .normal
          · simp [hkn]
          · simp only [ne_eq, hkn, not_false_eq_true, if_true, Bool.false_eq_true, false_and,
              false_iff, not_and]
            intro _ hall
            have hne := List.splitOnP_ne_nil (· == '/') (c' :: rest').dropLast
            obtain ⟨x, xs, hx⟩ := List.exists_cons_of_ne_nil hne
            have hx' : (c' :: rest').dropLast.splitOn '/' = x :: xs := hx
            rw [hx'] at hall
            have h2 := hall (cur ++ [c] ++ x) (by simp)
            rw [markerCount_append, hcount] at h2
            have h0 : markerCount cur ≠ 0 := fun e => hkn (hk.mpr e)
            omega
        · have hplain : c ≠ ':' ∧ c ≠ '*' :=
            ⟨fun e => hmark (Or.inl e), fun e => hmark (Or.inr e)⟩
          have hcount : markerCount (cur ++ [c]) = markerCount cur := by
            rw [markerCount_append, markerCount_singleton_plain c hplain]; rfl
          rw [markStep_plain c hplain]
          exact ih (by simp) (cur ++ [c]) k v (by rw [hcount]; exact hk)
            (by rw [hcount]; exact hv)

/-- The `valid` flag of `getPathSegments`: true exactly when no `'/'`-separated
chunk of the path, its first and its last byte left out, has more than one
marker. -/
theorem getPathSegments_valid_iff (body : GoString) :
    (∃ segs, getPathSegments ('/' :: body) = some (segs, true))
      ↔ ∀ c ∈ body.dropLast.splitOn '/', markerCount c ≤ 1 := by
  rw [getPathSegments_cons]
  by_cases hb : body = []
  · subst hb
    simp [scan, markerCount]
  · have := scan_valid_iff body hb [] .normal true (by simp [markerCount])
      (by simp [markerCount])
    simp only [modifyHead_nil_append, true_and] at this
    rw [← this]
    constructor
    · rintro ⟨segs, h⟩
      simp only [Option.some.injEq, Prod.mk.injEq] at h
      exact h.2
    · intro h
      exact ⟨_, by rw [h]⟩

theorem scan_valid_false (b : List Char) :
    ∀ (cur : GoString) (k : nodeKind), (scan b cur k false).2 = false := by
  induction b with
  | nil => intro cur k; rfl
  | cons c rest ih =>
    intro cur k
    cases rest with
    | nil => by_cases hc : c = '/' <;> simp [scan, hc]
    | cons c' rest' =>
      by_cases hc : c = '/'
      · subst hc
        rw [scan_cons_slash]
        exact ih [] .normal
      · rw [scan_cons_ne c _ (by simp) hc]
        have hv : (markStep c (k, false)).2 = false := by
          unfold markStep
          split_ifs <;> rfl
        rw [hv]
        exact ih _ _

/-- In a valid body whose last byte is neither `'/'` nor a marker, every
segment has the kind that the markers of its text announce. -/
theorem scan_kinds (b : List Char) :
    b ≠ [] → ∀ (cur : GoString) (k : nodeKind) (v : Bool), KindOfMarkers cur k →
      (scan b cur k v).2 = true →
      (∀ c, b.getLast? = some c → c ≠ '/' ∧ c ≠ ':' ∧ c ≠ '*') →
      ∀ s ∈ (scan b cur k v).1, KindOfMarkers s.value s.kind := by
  induction b with
  | nil => intro h; exact absurd rfl h
  | cons c rest ih =>
    intro _ cur k v hk hvalid hlast
    have happ : ∀ x : Char, x ≠ ':' → x ≠ '*' → KindOfMarkers (cur ++ [x]) k := by
      intro x h1 h2
      obtain ⟨a1, a2, a3⟩ := hk
      refine ⟨?_, ?_, ?_⟩
      · rw [a1]; simp [Ne.symm h1]
      · rw [a2]; simp [Ne.symm h2]
      · rw [a3]; simp [Ne.symm h1, Ne.symm h2]
    cases rest with
    | nil =>
      obtain ⟨h1, h2, h3⟩ := hlast c rfl
      intro s hs
      simp only [scan, h1, if_false, List.mem_singleton] at hs
      subst hs
      exact happ c h2 h3
    | cons c' rest' =>
      have hlast' : ∀ x, (c' :: rest').getLast? = some x → x ≠ '/' ∧ x ≠ ':' ∧ x ≠ '*' := by
        intro x hx
        exact hlast x (by simpa [List.getLast?_cons_cons] using hx)
      by_cases hc : c = '/'
      · subst hc
        rw [scan_cons_slash] at hvalid ⊢
        intro s hs
        rcases List.mem_cons.mp hs with e | hs'
        · subst e
          exact hk
        · exact ih (by simp) [] .normal v (by simp [KindOfMarkers]) hvalid hlast' s hs'
      · rw [scan_cons_ne c _ (by simp) hc] at hvalid ⊢
        by_cases hmark : c = ':' ∨ c = '*'
        · have hkn : k = .normal := by
            by_contra hkn
            have hv' := (markStep_marker c hmark k v).2
            rw [if_pos hkn] at hv'
            rw [hv', scan_valid_false] at hvalid
            exact absurd hvalid (by simp)
          obtain ⟨_, _, a3⟩ := hk
          obtain ⟨n1, n2⟩ := a3.mp hkn
          have hk' : KindOfMarkers (cur ++ [c]) (markStep c (k, v)).1 := by
            rcases hmark with e | e
            · subst e
              simp [KindOfMarkers, markStep, n2]
            · subst e
              simp [KindOfMarkers, markStep, n1]
          exact ih (by simp) _ _ _ hk' hvalid hlast'
        · have hplain : c ≠ ':' ∧ c ≠ '*' :=
            ⟨fun e => hmark (Or.inl e), fun e => hmark (Or.inr e)⟩
          rw [markStep_plain c hplain] at hvalid ⊢
          exact ih (by simp) _ _ _ (happ c hplain.1 hplain.2) hvalid hlast'

/-- C13, as stated, fails: `getPathSegments` reports `/a:b` valid and gives its
segment `a:b`, which does not begin with `':'`, the kind `param`. -/
theorem kind_of_inner_marker :
    getPathSegments "/a:b".toList
      = some ([⟨['/'], .root⟩, ⟨"a:b".toList, .param⟩], true) := by
  rfl

/-- C13 (amended): for every path beginning with `'/'` that `getPathSegments`
reports valid and whose last byte is neither `'/'` nor a marker, every non-root
segment has kind `param` if and only if its text contains `':'`, kind
`catchAll` if and only if its text contains `'*'`, and kind `normal` if and
only if it contains neither. -/
theorem segment_kind_follows_markers (body : GoString) (segs : List pathSegment)
    (hvalid : getPathSegments ('/' :: body) = some (segs, true))
    (hlast : ∀ c, body.getLast? = some c → c ≠ '/' ∧ c ≠ ':' ∧ c ≠ '*') :
    ∀ s ∈ segs.tail,
      (s.kind = .param ↔ ':' ∈ s.value) ∧ (s.kind = .catchAll ↔ '*' ∈ s.value) ∧
        (s.kind = .normal ↔ ':' ∉ s.value ∧ '*' ∉ s.value) := by
  rw [getPathSegments_cons] at hvalid
  simp only [Option.some.injEq, Prod.mk.injEq] at hvalid
  obtain ⟨hsegs, hv⟩ := hvalid
  subst hsegs
  intro s hs
  simp only [List.tail_cons] at hs
  by_cases hb : body = []
  · subst hb
    simp [scan] at hs
  · exact scan_kinds body hb [] .normal true (by simp [KindOfMarkers]) hv hlast s hs

/-- Witness for C13: the segment `:name` of the route `/user/:name/:provider` of
main.go. -/
theorem segment_kind_follows_markers_witness :
    getPathSegments ('/' :: "user/:name/:provider".toList)
      = some ([⟨['/'], .root⟩, ⟨"user".toList, .normal⟩, ⟨":name".toList, .param⟩,
          ⟨":provider".toList, .param⟩], true) ∧
    ((pathSegment.mk ":name".toList .param).kind = .param
        ↔ ':' ∈ (pathSegment.mk ":name".toList .param).value) ∧
    ((pathSegment.mk ":name".toList .param).kind = .catchAll
        ↔ '*' ∈ (pathSegment.mk ":name".toList .param).value) ∧
    ((pathSegment.mk ":name".toList .param).kind = .normal
        ↔ ':' ∉ (pathSegment.mk ":name".toList .param).value ∧
          '*' ∉ (pathSegment.mk ":name".toList .param).value) :=
  ⟨rfl,
    segment_kind_follows_markers "user/:name/:provider".toList
      [⟨['/'], .root⟩, ⟨"user".toList, .normal⟩, ⟨":name".toList, .param⟩,
        ⟨":provider".toList, .param⟩] rfl (by decide)
      ⟨":name".toList, .param⟩ (List.mem_cons_of_mem _ (List.mem_cons_self _ _))⟩

/-- C14 (code at the failing input): `getPathSegments` reports `/::` valid
although its chunk `::` has two markers, and likewise `/a:b:`; in general the
flag is true exactly when no `'/'`-separated chunk of the path has more than
one marker once the last byte of the path is left out: a marker in the last
byte of the path is never counted. -/
theorem valid_ignores_last_byte :
    getPathSegments "/::".toList
      = some ([⟨['/'], .root⟩, ⟨"::".toList, .param⟩], true) ∧
    markerCount "::".toList = 2 ∧
    getPathSegments "/a:b:".toList
      = some ([⟨['/'], .root⟩, ⟨"a:b:".toList, .param⟩], true) ∧
    (∀ body : GoString,
      (∃ segs, getPathSegments ('/' :: body) = some (segs, true))
        ↔ ∀ c ∈ body.dropLast.splitOn '/', markerCount c ≤ 1) :=
  ⟨rfl, rfl, rfl, getPathSegments_valid_iff⟩

/-! ## Route groups (pkg/gateway/routergroup.go) -/

theorem goCopy_replicate (n : Nat) (src : HandlersChain) (x : HandlerFunc)
    (h : src.length ≤ n) :
    goCopy (List.replicate n x) src = src ++ List.replicate (n - src.length) x := by
  simp [goCopy, List.take_of_length_le h]

/-- The chain `combineHandlers` returns is the group's chain followed by the
given one, whenever their total length is below `abortIndex`; otherwise the
call fails. -/
theorem combineHandlers_eq (r : RouterGroup) (handlers : HandlersChain) :
    r.combineHandlers handlers
      = if r.handlers.length + handlers.length < 63 then some (r.handlers ++ handlers)
        else none := by
  unfold RouterGroup.combineHandlers
  have habort : abortIndex = 63 := by decide
  by_cases h : r.handlers.length + handlers.length < 63
  · have h' : ((r.handlers.length + handlers.length : Nat) : Int) < abortIndex := by
      rw [habort]; omega
    simp only [h', decide_True, assert1, if_true, Option.some_bind, h]
    rw [goCopy_replicate _ _ _ (Nat.le_add_right _ _)]
    simp [goCopy]
  · have h' : ¬ ((r.handlers.length + handlers.length : Nat) : Int) < abortIndex := by
      rw [habort]; omega
    simp only [h', decide_False, assert1, Bool.false_eq_true, if_false, Option.none_bind, h]

theorem Group_eq (joinPaths : GoString → GoString → GoString) (r : RouterGroup)
    (p : GoString) (ms : HandlersChain) :
    r.Group joinPaths p ms
      = if r.handlers.length + ms.length < 63 then
          some ⟨r.handlers ++ ms, joinPaths r.basePath p, false⟩
        else none := by
  unfold RouterGroup.Group
  rw [combineHandlers_eq]
  split_ifs <;> rfl

theorem handle_eq (joinPaths : GoString → GoString → GoString) (r : RouterGroup)
    (method p : GoString) (hs : HandlersChain) :
    r.handle joinPaths method p hs
      = if r.handlers.length + hs.length < 63 then
          some (r, ⟨method, joinPaths r.basePath p, r.handlers ++ hs⟩)
        else none := by
  unfold RouterGroup.handle
  rw [combineHandlers_eq]
  split_ifs <;> rfl

/-- C15, as stated, fails: on a group two levels below a root without
middleware, registering a route with 63 route handlers passes nothing to
`addRoute`; `combineHandlers` fails on its size guard. -/
theorem group_chain_too_long :
    (((⟨[], ['/'], true⟩ : RouterGroup).Group (fun a b => a ++ b) "/a".toList []).bind
      fun g1 => (g1.Group (fun a b => a ++ b) "/b".toList []).bind
      fun g => g.handle (fun a b => a ++ b) "GET".toList "/c".toList
        (List.replicate 63 1)) = none := by
  decide

/-- C15 (amended): handler composition is prefix concatenation at every nesting
level, below the size guard: for the group `g` obtained as
`root.Group(p1, m1...).Group(p2, m2...)`, where the root holds `m0`,
registering a route on `g` with route handlers `h` passes to `addRoute` exactly
the chain `m0 ++ m1 ++ m2 ++ h` when that chain has fewer than 63 handlers, and
fails otherwise; the group's own chain `m0 ++ m1 ++ m2` is left unchanged. -/
theorem group_chain_is_concatenation (joinPaths : GoString → GoString → GoString)
    (root : RouterGroup) (p1 p2 : GoString) (m1 m2 h : HandlersChain)
    (method path : GoString) :
    ((root.Group joinPaths p1 m1).bind fun g1 => (g1.Group joinPaths p2 m2).bind
      fun g => g.handle joinPaths method path h)
      = if (root.handlers ++ m1 ++ m2 ++ h).length < 63 then
          some (⟨root.handlers ++ m1 ++ m2, joinPaths (joinPaths root.basePath p1) p2, false⟩,
            ⟨method, joinPaths (joinPaths (joinPaths root.basePath p1) p2) path,
              root.handlers ++ m1 ++ m2 ++ h⟩)
        else none := by
  have hlen : (root.handlers ++ m1 ++ m2 ++ h).length
      = root.handlers.length + m1.length + m2.length + h.length := by
    simp only [List.length_append]
  rw [Group_eq, hlen]
  by_cases h1 : root.handlers.length + m1.length < 63
  · rw [if_pos h1, Option.some_bind, Group_eq]
    simp only [List.length_append]
    by_cases h2 : root.handlers.length + m1.length + m2.length < 63
    · rw [if_pos h2, Option.some_bind, handle_eq]
      simp only [List.length_append]
    · rw [if_neg h2, Option.none_bind, if_neg (by omega)]
  · rw [if_neg h1, Option.none_bind, if_neg (by omega)]

/-! ## Dispatch: `Next` and `Abort` (context.go) -/

theorem exec_loop (fuel : Nat) (c : Dispatch) :
    exec (fuel + 1) .loop c
      = if c.index < wrap8 c.handlers.length then
          if 0 ≤ c.index then
            match c.handlers[c.index.toNat]? with
            | none => .panic
            | some h =>
              match exec fuel (.body h)
                  { c with trace := c.trace ++ [.enter c.index.toNat] } with
              | .done c1 =>
                exec fuel .loop
                  { c1 with index := wrap8 (c1.index + 1),
                            trace := c1.trace ++ [.leave c.index.toNat] }
              | o => o
          else .panic
        else .done c := by
  rw [exec]

theorem exec_body_nil (fuel : Nat) (c : Dispatch) :
    exec (fuel + 1) (.body []) c = .done c := by
  rw [exec]

theorem exec_body_next (fuel : Nat) (rest : List Act) (c : Dispatch) :
    exec (fuel + 1) (.body (.next :: rest)) c
      = match exec fuel .loop { c with index := wrap8 (c.index + 1) } with
        | .done c1 => exec fuel (.body rest) c1
        | o => o := by
  rw [exec]

theorem exec_body_abort (fuel : Nat) (rest : List Act) (c : Dispatch) :
    exec (fuel + 1) (.body (.abort :: rest)) c
      = exec fuel (.body rest) { c with index := abortIndex } := by
  rw [exec]

/-- More fuel does not change a run that ended. -/
theorem exec_succ (fuel : Nat) :
    ∀ (t : Task) (c : Dispatch), exec fuel t c ≠ .outOfFuel →
      exec (fuel + 1) t c = exec fuel t c := by
  induction fuel with
  | zero => intro t c h; exact absurd (by rw [exec]) h
  | succ f ih =>
    intro t c h
    cases t with
    | loop =>
      rw [exec_loop] at h
      rw [exec_loop (f + 1), exec_loop f]
      by_cases h1 : c.index < wrap8 c.handlers.length
      · by_cases h2 : 0 ≤ c.index
        · simp only [h1, h2, if_true] at h ⊢
          cases hg : c.handlers[c.index.toNat]? with
          | none => rfl
          | some hb =>
            simp only [hg] at h ⊢
            cases hb1 : exec f (.body hb)
                { c with trace := c.trace ++ [.enter c.index.toNat] } with
            | done c1 =>
              simp only [hb1] at h
              rw [ih _ _ (by rw [hb1]; simp), hb1]
              exact ih _ _ h
            | panic => rw [ih _ _ (by rw [hb1]; simp), hb1]
            | outOfFuel => simp [hb1] at h
        · simp [h1, h2]
      · simp [h1]
    | body acts =>
      cases acts with
      | nil => rw [exec_body_nil, exec_body_nil]
      | cons a rest =>
        cases a with
        | next =>
          rw [exec_body_next] at h
          rw [exec_body_next (f + 1), exec_body_next f]
          cases hl : exec f .loop { c with index := wrap8 (c.index + 1) } with
          | done c1 =>
            simp only [hl] at h
            rw [ih _ _ (by rw [hl]; simp), hl]
            exact ih _ _ h
          | panic => rw [ih _ _ (by rw [hl]; simp), hl]
          | outOfFuel => simp [hl] at h
        | abort =>
          rw [exec_body_abort] at h
          rw [exec_body_abort (f + 1), exec_body_abort f]
          exact ih _ _ h

theorem exec_add (fuel k : Nat) (t : Task) (c : Dispatch) (o : Outcome Dispatch)
    (h : exec fuel t c = o) (ho : o ≠ .outOfFuel) : exec (fuel + k) t c = o := by
  induction k with
  | zero => exact h
  | succ k ih =>
    rw [← Nat.add_assoc, exec_succ _ _ _ (by rw [ih]; exact ho), ih]

theorem exec_le (f f' : Nat) (hle : f ≤ f') (t : Task) (c c' : Dispatch)
    (h : exec f t c = .done c') : exec f' t c = .done c' := by
  obtain ⟨k, rfl⟩ := Nat.exists_eq_add_of_le hle
  exact exec_add f k t c _ h (by simp)

/-- A big-step run is a run of `exec` with enough fuel. -/
theorem Runs.exec {t : Task} {c c' : Dispatch} (h : Runs t c c') :
    ∃ fuel, Gateway2.exec fuel t c = .done c' := by
  induction h with
  | loop_exit c h => exact ⟨1, by rw [exec_loop, if_neg h]⟩
  | loop_iter c c1 c2 hb hlt hpos hget _ _ ih1 ih2 =>
    obtain ⟨f1, e1⟩ := ih1
    obtain ⟨f2, e2⟩ := ih2
    refine ⟨max f1 f2 + 1, ?_⟩
    rw [exec_loop, if_pos hlt, if_pos hpos]
    simp only [hget]
    rw [exec_le f1 _ (Nat.le_max_left _ _) _ _ _ e1]
    exact exec_le f2 _ (Nat.le_max_right _ _) _ _ _ e2
  | body_nil c => exact ⟨1, exec_body_nil 0 c⟩
  | body_next c c1 c2 rest _ _ ih1 ih2 =>
    obtain ⟨f1, e1⟩ := ih1
    obtain ⟨f2, e2⟩ := ih2
    refine ⟨max f1 f2 + 1, ?_⟩
    rw [exec_body_next, exec_le f1 _ (Nat.le_max_left _ _) _ _ _ e1]
    exact exec_le f2 _ (Nat.le_max_right _ _) _ _ _ e2
  | body_abort c c2 rest _ ih =>
    obtain ⟨f, e⟩ := ih
    exact ⟨f + 1, by rw [exec_body_abort]; exact e⟩

theorem wrap8_id (x : Int) (h1 : -128 ≤ x) (h2 : x ≤ 127) : wrap8 x = x := by
  unfold wrap8
  omega

theorem getElem?_append_cons_length {α : Type} (pre : List α) (h : α) (rest : List α) :
    (pre ++ h :: rest)[pre.length]? = some h := by
  rw [List.getElem?_append_right (Nat.le_refl _)]
  simp

theorem body_shape_of_once {h : HandlerBody}
    (hh : h.count .next ≤ 1 ∧ Act.abort ∉ h) : h = [] ∨ h = [.next] := by
  obtain ⟨h1, h2⟩ := hh
  cases h with
  | nil => exact Or.inl rfl
  | cons a rest =>
    cases a with
    | abort => exact absurd (by simp) h2
    | next =>
      right
      cases rest with
      | nil => rfl
      | cons b rest' =>
        cases b with
        | abort => exact absurd (by simp) h2
        | next => simp [List.count_cons] at h1

/-- The loop of `Next` from position `pre.length` over handlers that call
`Next()` at most once and never `Abort()`: it ends, having produced the nested
trace, with a cursor at or above the chain length. -/
theorem loop_nested (suf : List HandlerBody) :
    ∀ (pre : List HandlerBody) (c : Dispatch), c.handlers = pre ++ suf →
      (pre ++ suf).length < 63 → (∀ h ∈ suf, h = [] ∨ h = [.next]) →
      c.index = pre.length →
      ∃ c', Runs .loop c c' ∧ c'.trace = c.trace ++ nestedTrace pre.length suf ∧
        c'.handlers = c.handlers ∧ ((pre ++ suf).length : Int) ≤ c'.index ∧
        c'.index ≤ ((pre ++ suf).length : Int) + suf.length := by
  induction suf with
  | nil =>
    intro pre c hc hn _ hi
    refine ⟨c, Runs.loop_exit c ?_, by simp [nestedTrace], rfl, ?_, ?_⟩
    · rw [hc, hi, wrap8_id _ (by omega) (by omega)]
      simp
    · rw [hi]; simp
    · rw [hi]; simp
  | cons h rest ih =>
    intro pre c hc hn hsh hi
    have hlen : (pre ++ h :: rest).length = pre.length + rest.length + 1 := by
      simp; omega
    rw [hlen] at hn
    have hwrap : wrap8 ((pre ++ h :: rest).length : Nat) = (pre.length + rest.length + 1 : Int) := by
      rw [hlen, wrap8_id _ (by omega) (by omega)]
      push_cast
      rfl
    have hlt : c.index < wrap8 c.handlers.length := by
      rw [hc, hwrap, hi]; omega
    have hpos : 0 ≤ c.index := by rw [hi]; omega
    have htoNat : c.index.toNat = pre.length := by rw [hi]; simp
    have hget : c.handlers[c.index.toNat]? = some h := by
      rw [htoNat, hc]; exact getElem?_append_cons_length pre h rest
    have hpre' : (pre ++ [h]) ++ rest = pre ++ h :: rest := by simp
    have hrest : ∀ x ∈ rest, x = [] ∨ x = [.next] := fun x hx => hsh x (by simp [hx])
    rcases hsh h (by simp) with e | e
    · subst e
      obtain ⟨c', hr, ht, hh, hl, hu⟩ := ih (pre ++ [[]])
        { index := wrap8 (c.index + 1), handlers := c.handlers,
          trace := c.trace ++ [.enter c.index.toNat] ++ [.leave c.index.toNat] }
        (by simp [hc]) (by simp; omega) hrest
        (by
          show wrap8 (c.index + 1) = _
          rw [hi, wrap8_id _ (by omega) (by omega)]
          simp)
      refine ⟨c', Runs.loop_iter c _ c' [] hlt hpos hget (Runs.body_nil _) hr, ?_, hh, ?_, ?_⟩
      · rw [ht, htoNat]
        simp [nestedTrace]
      · simp only [List.length_append, List.length_cons, List.length_nil] at hl ⊢
        omega
      · simp only [List.length_append, List.length_cons, List.length_nil] at hu ⊢
        omega
    · subst e
      obtain ⟨c1, hr, ht, hh, hl, hu⟩ := ih (pre ++ [[.next]])
        { index := wrap8 (c.index + 1), handlers := c.handlers,
          trace := c.trace ++ [.enter c.index.toNat] }
        (by simp [hc]) (by simp; omega) hrest
        (by
          show wrap8 (c.index + 1) = _
          rw [hi, wrap8_id _ (by omega) (by omega)]
          simp)
      simp only [List.length_append, List.length_cons, List.length_nil] at hl hu
      have hw1 : wrap8 (c1.index + 1) = c1.index + 1 := wrap8_id _ (by omega) (by omega)
      refine ⟨{ c1 with index := wrap8 (c1.index + 1),
                        trace := c1.trace ++ [.leave c.index.toNat] },
        Runs.loop_iter c c1 _ [.next] hlt hpos hget
          (Runs.body_next _ c1 c1 [] hr (Runs.body_nil _))
          (Runs.loop_exit _ ?_), ?_, hh, ?_, ?_⟩
      · show ¬ wrap8 (c1.index + 1) < wrap8 c1.handlers.length
        rw [hw1, hh, hc, hwrap]
        omega
      · show c1.trace ++ [Event.leave c.index.toNat] = _
        rw [ht, htoNat]
        simp [nestedTrace]
      · show ((pre ++ [.next] :: rest).length : Int) ≤ wrap8 (c1.index + 1)
        rw [hw1]
        simp only [List.length_append, List.length_cons]
        omega
      · show wrap8 (c1.index + 1) ≤ _
        rw [hw1]
        simp only [List.length_append, List.length_cons]
        omega

theorem nestedTrace_entered (hs : List HandlerBody) :
    ∀ i : Nat, (nestedTrace i hs).filterMap Event.entered = List.range' i hs.length := by
  induction hs with
  | nil => intro i; rfl
  | cons h rest ih =>
    intro i
    by_cases hn : Act.next ∈ h
    · simp [nestedTrace, hn, Event.entered, List.filterMap_append, ih, List.range'_succ]
    · simp [nestedTrace, hn, Event.entered, ih, List.range'_succ]

theorem nestedTrace_infix (pre : List HandlerBody) (suf : List HandlerBody) :
    ∀ j : Nat, ∃ A B, nestedTrace j (pre ++ suf)
      = A ++ nestedTrace (j + pre.length) suf ++ B := by
  induction pre with
  | nil => intro j; exact ⟨[], [], by simp⟩
  | cons h pre ih =>
    intro j
    obtain ⟨A, B, e⟩ := ih (j + 1)
    have hj : j + 1 + pre.length = j + (h :: pre).length := by simp; omega
    rw [hj] at e
    by_cases hn : Act.next ∈ h
    · exact ⟨.enter j :: A, B ++ [.leave j], by simp [nestedTrace, hn, e]⟩
    · exact ⟨.enter j :: .leave j :: A, B, by simp [nestedTrace, hn, e]⟩

/-- C16: for every chain of fewer than 63 handlers each of which calls `Next()`
at most once and none of which calls `Abort()`, a single `Next()` on a freshly
reset context terminates with a cursor at or above the chain length and
invokes every handler exactly once, in order of position; a handler that calls
`Next()` resumes only after all later handlers have been invoked and have
returned (its events enclose theirs). -/
theorem dispatch_runs_each_handler_once (hs : List HandlerBody) (hn : hs.length < 63)
    (hh : ∀ h ∈ hs, h.count .next ≤ 1 ∧ Act.abort ∉ h) :
    ∃ fuel c', Next fuel (freshDispatch hs) = .done c' ∧
      c'.trace = nestedTrace 0 hs ∧
      c'.trace.filterMap Event.entered = List.range hs.length ∧
      (∀ pre h rest, hs = pre ++ h :: rest → Act.next ∈ h →
        ∃ A B, c'.trace = A ++ (.enter pre.length :: nestedTrace (pre.length + 1) rest
          ++ [.leave pre.length]) ++ B) ∧
      (hs.length : Int) ≤ c'.index := by
  obtain ⟨c', hr, ht, _, hl, _⟩ := loop_nested hs []
    { index := wrap8 (-1 + 1), handlers := hs, trace := [] } rfl (by simpa using hn)
    (fun h hmem => body_shape_of_once (hh h hmem)) (by simp [wrap8])
  obtain ⟨fuel, he⟩ := hr.exec
  simp only [List.nil_append, List.length_nil] at ht hl
  refine ⟨fuel, c', he, ht, ?_, ?_, hl⟩
  · rw [ht, nestedTrace_entered, List.range_eq_range']
  · intro pre h rest e hnext
    obtain ⟨A, B, e'⟩ := nestedTrace_infix pre (h :: rest) 0
    refine ⟨A, B, ?_⟩
    rw [ht, e, e']
    simp [nestedTrace, hnext]

/-- Witness for C16: a chain of four handlers, of which the first and the third
call `Next()`. -/
theorem dispatch_runs_each_handler_once_witness :
    ∃ fuel c', Next fuel (freshDispatch [[.next], [], [.next], []]) = .done c' ∧
      c'.trace = nestedTrace 0 [[.next], [], [.next], []] ∧
      c'.trace.filterMap Event.entered = List.range 4 ∧
      (∀ pre h rest, [[.next], [], [.next], []] = pre ++ h :: rest → Act.next ∈ h →
        ∃ A B, c'.trace = A ++ (.enter pre.length :: nestedTrace (pre.length + 1) rest
          ++ [.leave pre.length]) ++ B) ∧
      ((4 : Nat) : Int) ≤ c'.index :=
  dispatch_runs_each_handler_once [[.next], [], [.next], []] (by decide) (by decide)

/-- A `Next()` on a cursor at or above `abortIndex` and below 127 only
increments the cursor. -/
theorem Next_above_abort (c : Dispatch) (hn : c.handlers.length < 63) (fuel : Nat)
    (h1 : 63 ≤ c.index) (h2 : c.index < 127) :
    Next (fuel + 1) c = .done { c with index := c.index + 1 } := by
  unfold Next
  rw [exec_loop, wrap8_id _ (by omega) (by omega)]
  have hw : wrap8 (c.handlers.length : Nat) = (c.handlers.length : Int) :=
    wrap8_id _ (by omega) (by omega)
  have : ¬ (c.index + 1 < wrap8 (c.handlers.length : Nat)) := by rw [hw]; omega
  simp only [this, if_false]

theorem nextTimes_above_abort (k : Nat) :
    ∀ (c : Dispatch) (fuel : Nat), c.handlers.length < 63 → 63 ≤ c.index →
      c.index + k ≤ 127 →
      nextTimes k (fuel + 1) c = .done { c with index := c.index + k } := by
  induction k with
  | zero => intro c fuel _ _ _; simp [nextTimes]
  | succ k ih =>
    intro c fuel hn h1 h2
    push_cast at h2
    rw [nextTimes, Next_above_abort c hn fuel h1 (by omega)]
    simp only []
    rw [ih ⟨c.index + 1, c.handlers, c.trace⟩ fuel hn
      (by show 63 ≤ c.index + 1; omega) (by show c.index + 1 + k ≤ 127; omega)]
    simp only [Outcome.done.injEq, Dispatch.mk.injEq, and_true]
    push_cast
    omega

theorem nextTimes_succ_last (k : Nat) :
    ∀ (fuel : Nat) (c : Dispatch),
      nextTimes (k + 1) fuel c
        = match nextTimes k fuel c with
          | .done c1 => Next fuel c1
          | o => o := by
  induction k with
  | zero =>
    intro fuel c
    simp only [nextTimes]
    cases Next fuel c <;> rfl
  | succ k ih =>
    intro fuel c
    rw [nextTimes]
    cases hN : Next fuel c with
    | done c1 =>
      simp only []
      rw [ih fuel c1]
      simp only [nextTimes, hN]
    | panic => simp only [nextTimes, hN]
    | outOfFuel => simp only [nextTimes, hN]

/-- C18, as stated, fails: after `Abort()`, the 65th call of `Next()` wraps the
`int8` cursor from 127 to -128, the loop condition holds again and
`r.handlers[-128]` panics, whatever the fuel. -/
theorem sixty_fifth_next_after_abort_panics :
    nextTimes 64 1 (Abort (freshDispatch [[]])) = .done ⟨127, [[]], []⟩ ∧
    ∀ fuel, nextTimes 65 (fuel + 1) (Abort (freshDispatch [[]])) = .panic := by
  refine ⟨by decide, fun fuel => ?_⟩
  have hstate : nextTimes 64 (fuel + 1) (Abort (freshDispatch [[]]))
      = .done ⟨127, [[]], []⟩ := by
    rw [nextTimes_above_abort 64 (Abort (freshDispatch [[]])) fuel (by decide) (by decide)
      (by decide)]
    rfl
  rw [nextTimes_succ_last, hstate]
  show Next (fuel + 1) ⟨127, [[]], []⟩ = .panic
  unfold Next
  rw [exec_loop]
  rfl

/-- A `Next()` on a cursor of 127 wraps it to -128 and panics on
`r.handlers[r.index]`. -/
theorem Next_at_127 (c : Dispatch) (hn : c.handlers.length < 63) (fuel : Nat)
    (h : c.index = 127) : Next (fuel + 1) c = .panic := by
  unfold Next
  have hw : wrap8 (c.handlers.length : Nat) = (c.handlers.length : Int) :=
    wrap8_id _ (by omega) (by omega)
  have h128 : wrap8 (c.index + 1) = -128 := by rw [h]; decide
  rw [exec_loop]
  simp only [h128, hw]
  rw [if_pos (by omega), if_neg (by omega)]

theorem nextTimes_past_127 (k : Nat) :
    ∀ (c : Dispatch) (fuel : Nat), c.handlers.length < 63 → 63 ≤ c.index →
      c.index ≤ 127 → 127 < c.index + k →
      nextTimes k (fuel + 1) c = .panic := by
  induction k with
  | zero => intro c fuel _ _ h2 h3; simp at h3; omega
  | succ k ih =>
    intro c fuel hn h1 h2 h3
    push_cast at h3
    by_cases h127 : c.index = 127
    · rw [nextTimes, Next_at_127 c hn fuel h127]
    · rw [nextTimes, Next_above_abort c hn fuel h1 (by omega)]
      simp only []
      exact ih ⟨c.index + 1, c.handlers, c.trace⟩ fuel hn
        (by show 63 ≤ c.index + 1; omega) (by show c.index + 1 ≤ 127; omega)
        (by show 127 < c.index + 1 + k; omega)

/-- C18 (amended): for every context whose chain has fewer than 63 handlers and
every `k ≤ 64`, after `Abort()` followed by `k` calls of `Next()` no handler
has been invoked, no call has failed and the cursor, `63 + k`, is still at or
above the chain length; for `k > 64` the 65th call fails. -/
theorem abort_then_next_up_to_64 (c : Dispatch) (hn : c.handlers.length < 63) (k : Nat)
    (fuel : Nat) :
    (k ≤ 64 →
      nextTimes k (fuel + 1) (Abort c)
          = .done { index := 63 + k, handlers := c.handlers, trace := c.trace } ∧
        (c.handlers.length : Int) ≤ 63 + k) ∧
    (64 < k → nextTimes k (fuel + 1) (Abort c) = .panic) := by
  have h63 : abortIndex = 63 := by decide
  constructor
  · intro hk
    refine ⟨?_, by omega⟩
    rw [nextTimes_above_abort k (Abort c) fuel hn (by simp [Abort, h63])
      (by simp only [Abort, h63]; omega)]
    simp [Abort, h63]
  · intro hk
    exact nextTimes_past_127 k (Abort c) fuel hn (by simp [Abort, h63])
      (by simp [Abort, h63]) (by simp only [Abort, h63]; omega)

/-- Witness for C18: 64 calls of `Next()` after `Abort()` on a chain of two
handlers. -/
theorem abort_then_next_up_to_64_witness :
    nextTimes 64 (0 + 1) (Abort (freshDispatch [[.next], []]))
        = .done { index := 63 + (64 : Nat), handlers := [[.next], []], trace := [] } ∧
      (([[.next], []] : List HandlerBody).length : Int) ≤ 63 + (64 : Nat) :=
  (abort_then_next_up_to_64 (freshDispatch [[.next], []]) (by decide) 64 0).1 (by decide)

/-- The rest of a handler body that runs with the cursor at or above
`abortIndex`: its `Next()` calls only increment the cursor, its `Abort()` calls
set it back to `abortIndex`, and no handler is invoked. -/
theorem body_after_abort (s : List Act) :
    ∀ (c : Dispatch), c.handlers.length < 63 → 63 ≤ c.index →
      c.index + s.count .next ≤ 127 →
      ∃ c', Runs (.body s) c c' ∧ c'.trace = c.trace ∧ c'.handlers = c.handlers ∧
        63 ≤ c'.index ∧ c'.index ≤ c.index + s.count .next := by
  induction s with
  | nil => intro c _ h1 _; exact ⟨c, Runs.body_nil c, rfl, rfl, h1, by simp⟩
  | cons a rest ih =>
    intro c hn h1 h2
    have hw : wrap8 (c.handlers.length : Nat) = (c.handlers.length : Int) :=
      wrap8_id _ (by omega) (by omega)
    cases a with
    | next =>
      simp only [List.count_cons_self] at h2 ⊢
      push_cast at h2 ⊢
      have hw1 : wrap8 (c.index + 1) = c.index + 1 := wrap8_id _ (by omega) (by omega)
      obtain ⟨c', hr, ht, hh, hl, hu⟩ := ih ⟨c.index + 1, c.handlers, c.trace⟩ hn
        (by show 63 ≤ c.index + 1; omega)
        (by show c.index + 1 + (rest.count .next : Int) ≤ 127; omega)
      refine ⟨c', Runs.body_next c ⟨c.index + 1, c.handlers, c.trace⟩ c' rest ?_ hr,
        ht, hh, hl, ?_⟩
      · rw [hw1]
        exact Runs.loop_exit _ (by
          show ¬ (c.index + 1 < wrap8 (c.handlers.length : Nat))
          rw [hw]; omega)
      · have : c'.index ≤ c.index + 1 + (rest.count .next : Int) := hu
        omega
    | abort =>
      have hc : List.count Act.next (Act.abort :: rest) = List.count Act.next rest := by
        simp [List.count_cons]
      rw [hc] at h2 ⊢
      have h63 : abortIndex = 63 := by decide
      obtain ⟨c', hr, ht, hh, hl, hu⟩ := ih ⟨abortIndex, c.handlers, c.trace⟩ hn
        (by show 63 ≤ abortIndex; omega)
        (by show abortIndex + (rest.count .next : Int) ≤ 127; omega)
      refine ⟨c', Runs.body_abort c c' rest hr, ht, hh, hl, ?_⟩
      have : c'.index ≤ abortIndex + (rest.count .next : Int) := hu
      omega

/-- The loop of `Next` from position `pre.length` when the handlers `A` before
the aborting one are empty or start with their only `Next()`: it ends after
the aborting handler has returned, with the cursor above `abortIndex`. -/
theorem loop_until_abort (A : List HandlerBody) :
    ∀ (pre : List HandlerBody) (post : List Act) (B : List HandlerBody) (c : Dispatch),
      c.handlers = pre ++ A ++ (.abort :: post) :: B → c.handlers.length < 63 →
      (∀ h ∈ A, h = [] ∨ ∃ p, h = .next :: p ∧ Act.next ∉ p) →
      post.count .next ≤ 1 → c.index = pre.length →
      ∃ c', Runs .loop c c' ∧
        c'.trace = c.trace ++ abortedTrace pre.length (A ++ (.abort :: post) :: B) ∧
        c'.handlers = c.handlers ∧ 64 ≤ c'.index ∧ c'.index ≤ 65 + (A.length : Int) := by
  induction A with
  | nil =>
    intro pre post B c hc hn _ hpost hi
    simp only [List.append_nil] at hc
    have hlen : c.handlers.length = pre.length + B.length + 1 := by
      rw [hc]; simp; omega
    have hw : wrap8 (c.handlers.length : Nat) = (c.handlers.length : Int) :=
      wrap8_id _ (by omega) (by omega)
    have hlt : c.index < wrap8 c.handlers.length := by rw [hw, hi, hlen]; omega
    have hpos : 0 ≤ c.index := by rw [hi]; omega
    have htoNat : c.index.toNat = pre.length := by rw [hi]; simp
    have hget : c.handlers[c.index.toNat]? = some (.abort :: post) := by
      rw [htoNat, hc]; exact getElem?_append_cons_length pre _ B
    have h63 : abortIndex = 63 := by decide
    obtain ⟨c1, hr, ht, hh, hl, hu⟩ := body_after_abort post
      ⟨abortIndex, c.handlers, c.trace ++ [.enter c.index.toNat]⟩ hn
      (by show 63 ≤ abortIndex; omega)
      (by show abortIndex + (post.count .next : Int) ≤ 127; omega)
    have hu' : c1.index ≤ abortIndex + (post.count .next : Int) := hu
    have hw1 : wrap8 (c1.index + 1) = c1.index + 1 := wrap8_id _ (by omega) (by omega)
    refine ⟨{ c1 with index := wrap8 (c1.index + 1),
                      trace := c1.trace ++ [.leave c.index.toNat] },
      Runs.loop_iter c c1 _ (.abort :: post) hlt hpos hget
        (Runs.body_abort _ c1 post hr) (Runs.loop_exit _ ?_), ?_, hh, ?_, ?_⟩
    · show ¬ wrap8 (c1.index + 1) < wrap8 (c1.handlers.length : Nat)
      rw [hw1, hh]
      show ¬ c1.index + 1 < wrap8 (c.handlers.length : Nat)
      rw [hw]; omega
    · show c1.trace ++ [Event.leave c.index.toNat] = _
      rw [ht, htoNat]
      simp [abortedTrace]
    · show 64 ≤ wrap8 (c1.index + 1)
      rw [hw1]; omega
    · show wrap8 (c1.index + 1) ≤ _
      rw [hw1]; simp; omega
  | cons h A ih =>
    intro pre post B c hc hn hsh hpost hi
    have hlen : c.handlers.length = pre.length + A.length + B.length + 2 := by
      rw [hc]; simp; omega
    have hw : wrap8 (c.handlers.length : Nat) = (c.handlers.length : Int) :=
      wrap8_id _ (by omega) (by omega)
    have hlt : c.index < wrap8 c.handlers.length := by rw [hw, hi, hlen]; omega
    have hpos : 0 ≤ c.index := by rw [hi]; omega
    have htoNat : c.index.toNat = pre.length := by rw [hi]; simp
    have hget : c.handlers[c.index.toNat]? = some h := by
      rw [htoNat, hc]
      simp only [List.cons_append, List.append_assoc]
      exact getElem?_append_cons_length pre h _
    have hc' : c.handlers = (pre ++ [h]) ++ A ++ (.abort :: post) :: B := by
      rw [hc]; simp
    have hA : ∀ x ∈ A, x = [] ∨ ∃ p, x = .next :: p ∧ Act.next ∉ p :=
      fun x hx => hsh x (by simp [hx])
    have hidx : wrap8 (c.index + 1) = ((pre ++ [h]).length : Int) := by
      rw [hi, wrap8_id _ (by omega) (by omega)]
      simp
    rcases hsh h (by simp) with e | ⟨p, e, hp⟩
    · subst e
      obtain ⟨c', hr, ht, hh, hl, hu⟩ := ih (pre ++ [[]]) post B
        { index := wrap8 (c.index + 1), handlers := c.handlers,
          trace := c.trace ++ [.enter c.index.toNat] ++ [.leave c.index.toNat] }
        hc' hn hA hpost hidx
      refine ⟨c', Runs.loop_iter c _ c' [] hlt hpos hget (Runs.body_nil _) hr, ?_, hh, hl, ?_⟩
      · rw [ht, htoNat]
        simp [abortedTrace]
      · simp only [List.length_cons]
        push_cast
        omega
    · subst e
      obtain ⟨c1, hr, ht, hh, hl, hu⟩ := ih (pre ++ [.next :: p]) post B
        { index := wrap8 (c.index + 1), handlers := c.handlers,
          trace := c.trace ++ [.enter c.index.toNat] }
        hc' hn hA hpost hidx
      have hcount : List.count Act.next p = 0 := List.count_eq_zero_of_not_mem hp
      obtain ⟨c2, hr2, ht2, hh2, hl2, hu2⟩ := body_after_abort p c1
        (by rw [hh]; exact hn) (by omega) (by rw [hcount]; simp; omega)
      rw [hcount] at hu2
      have hw1 : wrap8 (c2.index + 1) = c2.index + 1 :=
        wrap8_id _ (by omega) (by simp at hu2; omega)
      refine ⟨{ c2 with index := wrap8 (c2.index + 1),
                        trace := c2.trace ++ [.leave c.index.toNat] },
        Runs.loop_iter c c2 _ (.next :: p) hlt hpos hget
          (Runs.body_next _ c1 c2 p hr hr2) (Runs.loop_exit _ ?_), ?_, ?_, ?_, ?_⟩
      · show ¬ wrap8 (c2.index + 1) < wrap8 (c2.handlers.length : Nat)
        rw [hw1, hh2, hh]
        show ¬ c2.index + 1 < wrap8 (c.handlers.length : Nat)
        rw [hw]; omega
      · show c2.trace ++ [Event.leave c.index.toNat] = _
        rw [ht2, ht, htoNat]
        simp [abortedTrace]
      · show c2.handlers = c.handlers
        rw [hh2, hh]
      · show 64 ≤ wrap8 (c2.index + 1)
        rw [hw1]; omega
      · show wrap8 (c2.index + 1) ≤ _
        rw [hw1]
        simp only [List.length_cons]
        push_cast
        simp at hu2
        omega

theorem abortedTrace_events (A : List HandlerBody) (post : List Act) (B : List HandlerBody)
    (hsh : ∀ h ∈ A, h = [] ∨ ∃ p, h = .next :: p ∧ Act.next ∉ p) :
    ∀ i : Nat,
      (abortedTrace i (A ++ (.abort :: post) :: B)).filterMap Event.entered
          = List.range' i (A.length + 1) ∧
      Event.leave (i + A.length) ∈ abortedTrace i (A ++ (.abort :: post) :: B) := by
  induction A with
  | nil => intro i; simp [abortedTrace, Event.entered]
  | cons h A ih =>
    intro i
    obtain ⟨e1, e2⟩ := ih (fun x hx => hsh x (by simp [hx])) (i + 1)
    have hi : i + 1 + A.length = i + (h :: A).length := by simp; omega
    rw [hi] at e2
    rcases hsh h (by simp) with e | ⟨p, e, _⟩
    · subst e
      refine ⟨?_, ?_⟩
      · simp only [List.cons_append, abortedTrace, List.filterMap_cons, Event.entered,
          List.append_eq]
        rw [e1]
        simp [List.range'_succ]
      · simp only [List.cons_append, abortedTrace, List.mem_cons]
        exact Or.inr (Or.inr e2)
    · subst e
      refine ⟨?_, ?_⟩
      · simp only [List.cons_append, abortedTrace, List.filterMap_cons, Event.entered,
          List.filterMap_append, List.append_eq]
        rw [e1]
        simp [List.range'_succ, Event.entered]
      · simp only [List.cons_append, abortedTrace, List.mem_cons, List.mem_append]
        exact Or.inr (Or.inl e2)

theorem mem_entered (tr : List Event) (j : Nat) :
    Event.enter j ∈ tr ↔ j ∈ tr.filterMap Event.entered := by
  rw [List.mem_filterMap]
  constructor
  · intro h; exact ⟨_, h, rfl⟩
  · rintro ⟨e, he, hj⟩
    cases e with
    | enter i =>
      simp only [Event.entered, Option.some.injEq] at hj
      subst hj
      exact he
    | leave i => simp [Event.entered] at hj

/-- C17, as stated, fails: in the chain whose first handler calls `Next()` and
then `Abort()`, that handler is the first (and only one) to call `Abort()`,
yet the handler at position 1 has been invoked, by the `Next()` before the
`Abort()`; and a single handler that calls `Abort()` and then `Next()` 65
times does not run to completion: its last `Next()` panics. -/
theorem abort_after_next_runs_later_handler :
    Next 4 (freshDispatch [[.next, .abort], []])
      = .done ⟨64, [[.next, .abort], []],
          [.enter 0, .enter 1, .leave 1, .leave 0]⟩ ∧
    Next 70 (freshDispatch [.abort :: List.replicate 65 .next]) = .panic := by
  constructor <;> decide

/-- C17 (amended): for every chain of fewer than 63 handlers dispatched by
`Next()` from a freshly reset context, in which the handlers before position
`k` call `Next()` at most once and call `Abort()`, if at all, only after their
`Next()`, and the handler at position `k` calls `Abort()` before any `Next()`
and `Next()` at most once: the dispatch terminates, the handlers `0..k` are
each invoked exactly once, in order, the handler `k` returns, and no handler at
a position greater than `k` is invoked. -/
theorem abort_stops_pending_handlers (A B : List HandlerBody) (post : List Act)
    (hn : (A ++ (.abort :: post) :: B).length < 63)
    (hA : ∀ h ∈ A, h.count .next ≤ 1 ∧
      ∀ pre rest, h = pre ++ Act.abort :: rest → Act.next ∈ pre)
    (hpost : post.count .next ≤ 1) :
    ∃ fuel c', Next fuel (freshDispatch (A ++ (.abort :: post) :: B)) = .done c' ∧
      c'.trace = abortedTrace 0 (A ++ (.abort :: post) :: B) ∧
      c'.trace.filterMap Event.entered = List.range (A.length + 1) ∧
      Event.leave A.length ∈ c'.trace ∧
      ∀ j, A.length < j → Event.enter j ∉ c'.trace := by
  have hsh : ∀ h ∈ A, h = [] ∨ ∃ p, h = .next :: p ∧ Act.next ∉ p := by
    intro h hmem
    obtain ⟨h1, h2⟩ := hA h hmem
    cases h with
    | nil => exact Or.inl rfl
    | cons a t =>
      cases a with
      | abort => exact absurd (h2 [] t rfl) (by simp)
      | next =>
        refine Or.inr ⟨t, rfl, ?_⟩
        intro hmem'
        have := List.count_pos_iff.mpr hmem'
        simp only [List.count_cons_self] at h1
        omega
  obtain ⟨c', hr, ht, _, _, _⟩ := loop_until_abort A [] post B
    { index := wrap8 (-1 + 1), handlers := A ++ (.abort :: post) :: B, trace := [] }
    (by simp) hn hsh hpost (by simp [wrap8])
  obtain ⟨fuel, he⟩ := hr.exec
  simp only [List.nil_append, List.length_nil] at ht
  obtain ⟨e1, e2⟩ := abortedTrace_events A post B hsh 0
  have hent : c'.trace.filterMap Event.entered = List.range (A.length + 1) := by
    rw [ht, e1, List.range_eq_range']
  refine ⟨fuel, c', he, ht, hent, ?_, ?_⟩
  · rw [ht]; simpa using e2
  · intro j hj hmem
    rw [mem_entered, hent, List.mem_range] at hmem
    omega

/-- Witness for C17: the second of three handlers aborts, the first one has
called `Next()`. -/
theorem abort_stops_pending_handlers_witness :
    ∃ fuel c', Next fuel (freshDispatch ([[.next]] ++ (.abort :: [.next]) :: [[.next]]))
        = .done c' ∧
      c'.trace = abortedTrace 0 ([[.next]] ++ (.abort :: [.next]) :: [[.next]]) ∧
      c'.trace.filterMap Event.entered = List.range (([[.next]] : List HandlerBody).length + 1) ∧
      Event.leave ([[.next]] : List HandlerBody).length ∈ c'.trace ∧
      ∀ j, ([[.next]] : List HandlerBody).length < j → Event.enter j ∉ c'.trace :=
  abort_stops_pending_handlers [[.next]] [[.next]] [.next] (by decide)
    (by
      intro h hmem
      simp only [List.mem_singleton] at hmem
      subst hmem
      refine ⟨by decide, ?_⟩
      intro pre rest e
      cases pre with
      | nil => simp at e
      | cons a pre' =>
        simp only [List.cons_append, List.cons.injEq] at e
        rw [← e.1]
        simp)
    (by decide)

/-- The `params` of the context returned by `GetValue` is nil or the buffer as the
call leaves it. -/
theorem GetValue_params (segs : List pathSegment) :
    ∀ (r : node) (ps : Params) (vc : valueContext) (buf : Params),
      GetValue r segs ps = some (vc, buf) → vc.params = none ∨ vc.params = some buf := by
  induction segs with
  | nil => intro r ps vc buf h; simp [GetValue] at h
  | cons seg rest ih =>
    intro r ps vc buf h
    rw [GetValue.eq_def] at h
    simp only at h
    split at h
    · simp at h
    · simp only [Option.some.injEq, Prod.mk.injEq] at h
      left; rw [← h.1]
    · rename_i nd ps' _
      cases rest with
      | nil =>
        simp only [Option.some.injEq, Prod.mk.injEq] at h
        right; rw [← h.1, ← h.2]
      | cons s rest' => exact ih nd ps' vc buf h

/-- The same for `GetReqValue`. -/
theorem GetReqValue_params (t : methodTree) (m p : GoString) (ps : Params)
    (vc : valueContext) (buf : Params) (h : GetReqValue t m p ps = some (vc, buf)) :
    vc.params = none ∨ vc.params = some buf := by
  unfold GetReqValue at h
  cases hg : getPathSegments p with
  | none => simp [hg] at h
  | some sv =>
    obtain ⟨segs, valid⟩ := sv
    simp only [hg, Option.some_bind] at h
    cases hm : mapGet t.tree m with
    | none =>
      simp only [hm] at h
      split_ifs at h with h1
      all_goals
        simp only [Option.some.injEq, Prod.mk.injEq] at h
        left; rw [← h.1]
    | some n =>
      simp only [hm] at h
      split_ifs at h with h1 h2
      · simp only [Option.some.injEq, Prod.mk.injEq] at h; left; rw [← h.1]
      · simp only [Option.some.injEq, Prod.mk.injEq] at h; left; rw [← h.1]
      · exact GetValue_params _ _ _ _ _ h

/-- C19: `Context.reset` clears the per-request state whatever the context held
before: `Params` and the shared buffer have length 0, `handlers` is nil, the
cursor is -1, `Errors` has length 0, and `fullPath`, `Keys`, `Accepted` and the
query and form caches are empty.  Hence serving a request with a context from
the pool, whatever its last use left in it, exposes no parameter when the
lookup of the request binds none (it leaves an empty buffer empty). -/
theorem reset_clears_request_state (c : Context) :
    (c.reset.Params.elems.length = 0 ∧ c.reset.params.elems.length = 0 ∧
      c.reset.handlers = none ∧ c.reset.index = -1 ∧ c.reset.Errors.length = 0 ∧
      c.reset.fullPath = [] ∧ c.reset.Keys = none ∧ c.reset.Accepted = none ∧
      c.reset.queryCache = none ∧ c.reset.formCache = none ∧ c.reset.sameSite = 0) ∧
    ∀ (tree : methodTree) (allNoRoute : Option HandlersChain) (m p : GoString)
      (vc : valueContext),
      GetReqValue tree m p ⟨[], c.params.cap⟩ = some (vc, ⟨[], c.params.cap⟩) →
      ∃ c', ServeHTTP tree allNoRoute c m p = some c' ∧
        c'.Params.elems = [] ∧ c'.params.elems = [] := by
  refine ⟨by simp [Context.reset], ?_⟩
  intro tree allNoRoute m p vc h
  have hp : c.reset.params = ⟨[], c.params.cap⟩ := by simp [Context.reset]
  have hP : c.reset.Params.elems = [] := by simp [Context.reset]
  simp only [ServeHTTP, handleHTTPRequest, hp, h, Option.map_some']
  rcases GetReqValue_params _ _ _ _ _ _ h with hv | hv
  · simp only [hv]
    split_ifs
    · exact ⟨_, rfl, hP, rfl⟩
    · exact ⟨_, rfl, hP, rfl⟩
  · simp only [hv]
    split_ifs
    · exact ⟨_, rfl, rfl, rfl⟩
    · exact ⟨_, rfl, rfl, rfl⟩

/-- Witness for C19: the context that served `/user/alice/github` on the route
`/user/:name/:provider` holds two parameters; serving `/ping` with it next
exposes none. -/
theorem reset_clears_request_state_witness :
    ∃ t c1,
      addRoutes NewTree [⟨"GET".toList, "/user/:name/:provider".toList, [7]⟩,
        ⟨"GET".toList, "/ping".toList, [3]⟩] = some t ∧
      ServeHTTP t none (allocateContext 8) "GET".toList "/user/alice/github".toList
        = some c1 ∧
      c1.Params.elems.length = 2 ∧
      ∃ c2, ServeHTTP t none c1 "GET".toList "/ping".toList = some c2 ∧
        c2.Params.elems = [] ∧ c2.params.elems = [] :=
  ⟨_, _, rfl, rfl, rfl,
    (reset_clears_request_state _).2 _ none "GET".toList "/ping".toList
      { handlers := [3], params := some ⟨[], 8⟩ } rfl⟩

/-- C20 (code at the failing input): `Context.Error(err)` panics for every
`err`: for nil by its own check, and for every other error, such as
`errors.New("boom")`, inside `errors.As`, whose target type `*Error` has no
`Error` method; no entry is ever appended to `Errors`. -/
theorem Error_panics_on_every_err (r : Context) (err : GoError) :
    r.Error (.plain "boom".toList) = none ∧
    "Error".toList ∉ errorMethods ∧
    errorsAs err = none ∧
    r.Error err = none := by
  have hm : ¬ "Error".toList ∈ errorMethods := by decide
  have ha : ∀ e : GoError, errorsAs e = none := by
    intro e
    unfold errorsAs
    rw [if_neg hm]
  have hE : ∀ e : GoError, r.Error e = none := by
    intro e
    unfold Context.Error
    split_ifs
    · rfl
    · rw [ha]; rfl
  exact ⟨hE _, hm, ha err, hE err⟩

/-! ## Redirects, the response writer and the not-found chain -/

/-- C24: `redirectRequest` chooses the status from the request method alone: it
passes 301 to `http.Redirect` exactly when the method is `GET` and 307 exactly
when it is any other string (for `POST`: 307); the target is the URL of the
request. -/
theorem redirect_status_by_method (method rURL : GoString) :
    ((redirectRequest method rURL).2 = 301 ↔ method = "GET".toList) ∧
    ((redirectRequest method rURL).2 = 307 ↔ method ≠ "GET".toList) ∧
    (redirectRequest "POST".toList rURL).2 = 307 ∧
    (redirectRequest method rURL).1 = rURL := by
  have key : ∀ m : GoString,
      (redirectRequest m rURL).2 = if m = MethodGet then 301 else 307 := by
    intro m
    unfold redirectRequest
    by_cases h : m = MethodGet <;>
      simp [h, StatusMovedPermanently, StatusTemporaryRedirect]
  have hG : "GET".toList = MethodGet := rfl
  rw [hG]
  refine ⟨?_, ?_, ?_, rfl⟩
  · rw [key]
    by_cases h : method = MethodGet <;> simp [h]
  · rw [key]
    by_cases h : method = MethodGet <;> simp [h]
  · rw [key]
    decide

/-- C27: `combineHandlers` returns a chain exactly when the group's chain and the
given one have fewer than 63 handlers together, and fails otherwise; every chain
it returns is shorter than `abortIndex = 63`, the cursor that `Abort()` sets,
and `abortIndex` is a value of `int8`. -/
theorem combined_chain_below_abortIndex (r : RouterGroup) (handlers : HandlersChain) :
    ((r.combineHandlers handlers).isSome = true
      ↔ r.handlers.length + handlers.length < 63) ∧
    (match r.combineHandlers handlers with
      | some chain =>
        chain.length = r.handlers.length + handlers.length ∧
        (chain.length : Int) < abortIndex ∧
        ∀ c : Dispatch, (chain.length : Int) ≤ (Abort c).index
      | none => 63 ≤ r.handlers.length + handlers.length) ∧
    abortIndex = 63 ∧ wrap8 abortIndex = abortIndex := by
  have h63 : abortIndex = 63 := by decide
  rw [combineHandlers_eq]
  refine ⟨?_, ?_, h63, by decide⟩
  · split_ifs with h <;> simp [h]
  · split_ifs with h
    · simp only [List.length_append, true_and, h63]
      refine ⟨by omega, fun c => ?_⟩
      simp only [Abort, h63]
      omega
    · simp only []
      omega

/-- The writer after a sequence of `Write` calls: `size` and `status` are as
they were. -/
theorem foldl_Write (bs : List (List Char)) :
    ∀ w : responseWriter,
      (bs.foldl responseWriter.Write w).size = w.size ∧
      (bs.foldl responseWriter.Write w).status = w.status ∧
      (bs.foldl responseWriter.Write w).ResponseWriter.body
        = w.ResponseWriter.body ++ bs.flatten := by
  induction bs with
  | nil => intro w; simp
  | cons b rest ih =>
    intro w
    simp only [List.foldl_cons, List.flatten_cons]
    obtain ⟨h1, h2, h3⟩ := ih (w.Write b)
    refine ⟨h1, h2, ?_⟩
    rw [h3]
    simp only [responseWriter.Write, httpWriter.Write, httpWriter.WriteHeader]
    cases w.ResponseWriter.sent <;> simp

/-- C25 (code at the failing input): `Written()` is false on a writer that has
just been reset; after the byte `a` is written through its `Write` method,
`Written()` is still false and `Size()` is still -1; and so it is after every
sequence of `Write` calls, whose bytes all reach the embedded writer: `Write` is
the promoted method and never touches `size`. -/
theorem Write_leaves_size_unwritten (w : responseWriter) (writer : httpWriter) :
    (w.reset writer).Written = false ∧
    ((w.reset writer).Write ['a']).Written = false ∧
    ((w.reset writer).Write ['a']).Size = -1 ∧
    ∀ bs : List (List Char),
      (bs.foldl responseWriter.Write (w.reset writer)).Written = false ∧
      (bs.foldl responseWriter.Write (w.reset writer)).Size = -1 ∧
      (bs.foldl responseWriter.Write (w.reset writer)).ResponseWriter.body
        = writer.body ++ bs.flatten := by
  refine ⟨rfl, rfl, rfl, fun bs => ?_⟩
  obtain ⟨h1, _, h3⟩ := foldl_Write bs (w.reset writer)
  refine ⟨?_, ?_, h3⟩
  · simp only [responseWriter.Written, h1]; rfl
  · simp only [responseWriter.Size, h1]; rfl

/-- The writer after the calls of a chain: `status` is as it was, only
`WriteHeaderNow` moves `size` (from -1 to 0), and the body has grown by the
bytes given to `Write`. -/
theorem foldl_call (calls : List WriterCall) :
    ∀ w : responseWriter,
      (calls.foldl responseWriter.call w).status = w.status ∧
      (calls.foldl responseWriter.call w).size
        = (if WriterCall.WriteHeaderNow ∈ calls ∧ w.size = -1 then 0 else w.size) ∧
      (calls.foldl responseWriter.call w).ResponseWriter.body
        = w.ResponseWriter.body ++ writtenBytes calls := by
  induction calls with
  | nil => intro w; simp [writtenBytes]
  | cons c rest ih =>
    intro w
    simp only [List.foldl_cons]
    obtain ⟨h1, h2, h3⟩ := ih (w.call c)
    rw [h1, h2, h3]
    cases c with
    | Write b =>
      refine ⟨rfl, ?_, ?_⟩
      · simp [responseWriter.call, responseWriter.Write]
      · simp only [responseWriter.call, responseWriter.Write, httpWriter.Write,
          httpWriter.WriteHeader, writtenBytes]
        cases w.ResponseWriter.sent <;> simp
    | WriteHeader code =>
      refine ⟨rfl, ?_, ?_⟩
      · simp [responseWriter.call, responseWriter.WriteHeader]
      · simp only [responseWriter.call, responseWriter.WriteHeader,
          httpWriter.WriteHeader, writtenBytes]
        cases w.ResponseWriter.sent <;> simp
    | WriteHeaderNow =>
      by_cases hs : w.size = -1
      · have hw : w.Written = false := by
          simp [responseWriter.Written, hs, noWritten]
        refine ⟨?_, ?_, ?_⟩
        · simp [responseWriter.call, responseWriter.WriteHeaderNow, hw]
        · simp [responseWriter.call, responseWriter.WriteHeaderNow, hw, hs]
        · simp only [responseWriter.call, responseWriter.WriteHeaderNow, hw,
            httpWriter.WriteHeader, writtenBytes]
          cases w.ResponseWriter.sent <;> simp
      · have hw : w.Written = true := by
          simp [responseWriter.Written, hs, noWritten]
        refine ⟨?_, ?_, ?_⟩
        · simp [responseWriter.call, responseWriter.WriteHeaderNow, hw]
        · simp [responseWriter.call, responseWriter.WriteHeaderNow, hw, hs]
        · simp [responseWriter.call, responseWriter.WriteHeaderNow, hw, writtenBytes]

/-- C21 (code at the failing input): when the only handler of the not-found
chain writes the body `custom` through `gctx.Writer`, `serveError` appends the
default body to it; when the handler sets the status 500 through
`gctx.Writer`, the response goes out with status 500 and the default body.  In
general the default body is written exactly when no handler called
`WriteHeaderNow`, whatever was written or set: neither `Write` nor
`WriteHeader` of the writer moves `size` or `status`. -/
theorem serveError_writes_default_after_output (w : responseWriter) (writer : httpWriter) :
    (serveError (w.reset writer) 404 default404Body
        [.Write "custom".toList]).ResponseWriter.body
      = writer.body ++ "custom".toList ++ default404Body ∧
    (serveError (w.reset {}) 404 default404Body [.WriteHeader 500]).ResponseWriter
      = { header := [("Content-Type".toList, mimePlain)], sent := some 500,
          body := default404Body } ∧
    ∀ (code : Int) (msg : List Char) (calls : List WriterCall),
      (serveError (w.reset writer) code msg calls).ResponseWriter.body
        = writer.body ++ writtenBytes calls
            ++ if WriterCall.WriteHeaderNow ∈ calls then [] else msg := by
  have gen : ∀ (code : Int) (msg : List Char) (calls : List WriterCall),
      (serveError (w.reset writer) code msg calls).ResponseWriter.body
        = writer.body ++ writtenBytes calls
            ++ if WriterCall.WriteHeaderNow ∈ calls then [] else msg := by
    intro code msg calls
    obtain ⟨h1, h2, h3⟩ := foldl_call calls { w.reset writer with status := code }
    have h2' : (calls.foldl responseWriter.call { w.reset writer with status := code }).size
        = if WriterCall.WriteHeaderNow ∈ calls then 0 else -1 := by
      rw [h2]
      simp [responseWriter.reset, noWritten]
    have h3' : (calls.foldl responseWriter.call
          { w.reset writer with status := code }).ResponseWriter.body
        = writer.body ++ writtenBytes calls := h3
    unfold serveError
    by_cases hm : WriterCall.WriteHeaderNow ∈ calls
    · have hw : (calls.foldl responseWriter.call
          { w.reset writer with status := code }).Written = true := by
        simp [responseWriter.Written, h2', hm, noWritten]
      simp only [hw, if_true, hm, List.append_nil]
      exact h3'
    · have hw : (calls.foldl responseWriter.call
          { w.reset writer with status := code }).Written = false := by
        simp [responseWriter.Written, h2', hm, noWritten]
      have hst : (calls.foldl responseWriter.call
          { w.reset writer with status := code }).Status = code := h1
      simp only [hw, hst, if_true, hm, if_false, Bool.false_eq_true]
      simp only [responseWriter.Write, httpWriter.Write, httpWriter.WriteHeader]
      cases hsent : (calls.foldl responseWriter.call
          { w.reset writer with status := code }).ResponseWriter.sent <;>
        simp [h3']
  refine ⟨?_, rfl, gen⟩
  rw [gen]
  simp [writtenBytes]

/-- One `Use` call: it appends the middleware to the root group and then rebuilds
the two chains, each under the size guard of `combineHandlers`. -/
theorem Use_eq (g : Gateway) (mw : HandlersChain) :
    g.Use mw
      = if (g.RouterGroup.handlers ++ mw).length + g.noRoute.length < 63 then
          if (g.RouterGroup.handlers ++ mw).length + g.noMethod.length < 63 then
            ({ g with
                RouterGroup := { g.RouterGroup with handlers := g.RouterGroup.handlers ++ mw },
                allNoRoute := some (g.RouterGroup.handlers ++ mw ++ g.noRoute),
                allNoMethod := some (g.RouterGroup.handlers ++ mw ++ g.noMethod) }, true)
          else
            ({ g with
                RouterGroup := { g.RouterGroup with handlers := g.RouterGroup.handlers ++ mw },
                allNoRoute := some (g.RouterGroup.handlers ++ mw ++ g.noRoute) }, false)
        else
          ({ g with
              RouterGroup := { g.RouterGroup with handlers := g.RouterGroup.handlers ++ mw } },
            false) := by
  unfold Gateway.Use
  simp only [combineHandlers_eq, RouterGroup.Use]
  split_ifs <;> rfl

/-- A non-empty sequence of `Use` calls: below the size guard every call returns
and the chains are the accumulated middleware followed by `noRoute` and by
`noMethod`; otherwise one of the calls panics. -/
theorem useAll_spec (calls : List HandlersChain) :
    ∀ g : Gateway, calls ≠ [] →
      (g.RouterGroup.handlers.length + calls.flatten.length
          + max g.noRoute.length g.noMethod.length < 63 →
        useAll g calls
          = ({ g with
              RouterGroup :=
                { g.RouterGroup with handlers := g.RouterGroup.handlers ++ calls.flatten },
              allNoRoute := some (g.RouterGroup.handlers ++ calls.flatten ++ g.noRoute),
              allNoMethod := some (g.RouterGroup.handlers ++ calls.flatten ++ g.noMethod) },
            true)) ∧
      (63 ≤ g.RouterGroup.handlers.length + calls.flatten.length
          + max g.noRoute.length g.noMethod.length →
        (useAll g calls).2 = false) := by
  induction calls with
  | nil => intro g h; exact absurd rfl h
  | cons mw rest ih =>
    intro g _
    have hlen : (mw :: rest).flatten.length = mw.length + rest.flatten.length := by
      simp
    by_cases h1 : (g.RouterGroup.handlers ++ mw).length + g.noRoute.length < 63
    · by_cases h2 : (g.RouterGroup.handlers ++ mw).length + g.noMethod.length < 63
      · have hU := Use_eq g mw
        rw [if_pos h1, if_pos h2] at hU
        cases rest with
        | nil =>
          constructor
          · intro _
            simp only [useAll, hU, List.flatten_cons, List.flatten_nil, List.append_nil,
              if_true]
          · intro h63
            simp only [List.length_append, List.flatten_cons, List.flatten_nil,
              List.append_nil] at h1 h2 h63
            omega
        | cons mw2 rest2 =>
          obtain ⟨ih1, ih2⟩ := ih
            { g with
                RouterGroup := { g.RouterGroup with handlers := g.RouterGroup.handlers ++ mw },
                allNoRoute := some (g.RouterGroup.handlers ++ mw ++ g.noRoute),
                allNoMethod := some (g.RouterGroup.handlers ++ mw ++ g.noMethod) }
            (by simp)
          constructor
          · intro hlt
            rw [useAll, hU]
            simp only [if_true]
            rw [ih1 (by
              simp only [List.length_append] at hlt ⊢
              rw [hlen] at hlt
              omega)]
            simp only [List.flatten_cons, List.append_assoc]
          · intro h63
            rw [useAll, hU]
            simp only [if_true]
            exact ih2 (by
              simp only [List.length_append] at h63 ⊢
              rw [hlen] at h63
              omega)
      · have hU := Use_eq g mw
        rw [if_pos h1, if_neg h2] at hU
        constructor
        · intro hlt
          simp only [List.length_append] at h2 hlt
          rw [hlen] at hlt
          omega
        · intro _
          rw [useAll, hU]
          rfl
    · have hU := Use_eq g mw
      rw [if_neg h1] at hU
      constructor
      · intro hlt
        simp only [List.length_append] at h1 hlt
        rw [hlen] at hlt
        omega
      · intro _
        rw [useAll, hU]
        rfl

/-- C22, as stated, fails: on a gateway created by `New()`, `Use` with one
middleware followed by `Use` with 62 more panics in `rebuild404Handlers`
(the size guard of `combineHandlers`), after the root group was extended: the
group then holds 63 handlers and `allNoRoute` is still the chain of one. -/
theorem use_beyond_size_guard :
    (useAll New [[1], List.replicate 62 2]).2 = false ∧
    (useAll New [[1], List.replicate 62 2]).1.RouterGroup.handlers
      = 1 :: List.replicate 62 2 ∧
    (useAll New [[1], List.replicate 62 2]).1.allNoRoute = some [1] := by
  refine ⟨?_, ?_, ?_⟩ <;> rfl

/-- C22 (amended): for every non-empty sequence of `Use` calls on a gateway
created by `New()` (with any `noRoute` and `noMethod`; both are nil in `New()`):
when the accumulated middleware followed by `noRoute`, and followed by
`noMethod`, has fewer than 63 handlers, every call returns and afterwards
`allNoRoute` is the root group's accumulated handlers followed by `noRoute` and
`allNoMethod` is them followed by `noMethod`; otherwise one of the calls
panics. -/
theorem use_rebuilds_not_found_chain (nr nm : HandlersChain) (calls : List HandlersChain)
    (mw : HandlersChain) :
    if (calls ++ [mw]).flatten.length + max nr.length nm.length < 63 then
      ∃ g, useAll { New with noRoute := nr, noMethod := nm } (calls ++ [mw]) = (g, true) ∧
        g.RouterGroup.handlers = (calls ++ [mw]).flatten ∧
        g.noRoute = nr ∧ g.noMethod = nm ∧
        g.allNoRoute = some (g.RouterGroup.handlers ++ g.noRoute) ∧
        g.allNoMethod = some (g.RouterGroup.handlers ++ g.noMethod)
    else (useAll { New with noRoute := nr, noMethod := nm } (calls ++ [mw])).2 = false := by
  obtain ⟨h1, h2⟩ := useAll_spec (calls ++ [mw]) { New with noRoute := nr, noMethod := nm }
    (by simp)
  split_ifs with h
  · refine ⟨_, h1 (by simpa [New] using h), ?_, rfl, rfl, ?_, ?_⟩ <;> simp [New]
  · exact h2 (by
      have : (New.RouterGroup.handlers).length = 0 := rfl
      simp only [this]
      omega)

/-! ## Re-registration and the wildcard slot -/

/-- C28: wildcard children share one reserved slot whatever name is declared:
on a fresh tree, under any supported method, `/a/:x` with chain `h1` and then
`/a/:y/z` with chain `h2` both register; the node created for `:x` is reused
(it keeps its text `:x` and its chain `h1` and receives the child `z`), and the
request `/a/v/z`, for every plain text `v` other than the reserved key, returns
`h2` with the segment bound under the first-registered name:
`Params = [{x: v}]`. -/
theorem wildcard_slot_reused (m : GoString) (hm : m ∈ httpMethods)
    (h1 h2 : HandlersChain) (hh1 : h1 ≠ []) (hh2 : h2 ≠ []) (cap : Nat) (hcap : 1 ≤ cap)
    (v : GoString) (hv : PlainText v) (hw : v ≠ wildcard) :
    ∃ t1 t2, AddRoute NewTree m "/a/:x".toList h1 = some t1 ∧
      AddRoute t1 m "/a/:y/z".toList h2 = some t2 ∧
      mapGet t2.tree m
        = some (.mk ⟨['/'], .root⟩ [("a".toList,
            .mk ⟨"a".toList, .normal⟩
              [(wildcard, .mk ⟨":x".toList, .param⟩
                [("z".toList, .mk ⟨"z".toList, .normal⟩ [] h2)] h1)] [])] []) ∧
      GetReqValue t2 m ('/' :: joinBody ["a".toList, v, "z".toList]) ⟨[], cap⟩
        = some ({ handlers := h2, params := some ⟨[⟨"x".toList, v⟩], cap⟩ },
            ⟨[⟨"x".toList, v⟩], cap⟩) := by
  have hx : scan "a/:x".toList [] .normal true
      = ([⟨"a".toList, .normal⟩, ⟨":x".toList, .param⟩], true) := by rfl
  have hy : scan "a/:y/z".toList [] .normal true
      = ([⟨"a".toList, .normal⟩, ⟨":y".toList, .param⟩, ⟨"z".toList, .normal⟩], true) := by
    rfl
  have e1 : "/a/:x".toList = '/' :: "a/:x".toList := rfl
  have e2 : "/a/:y/z".toList = '/' :: "a/:y/z".toList := rfl
  have hmne : m ≠ [] := httpMethods_ne_nil m hm
  have hn2 : insertAt
        (insertAt newRootNode [⟨"a".toList, .normal⟩, ⟨":x".toList, .param⟩] h1)
        [⟨"a".toList, .normal⟩, ⟨":y".toList, .param⟩, ⟨"z".toList, .normal⟩] h2
      = .mk ⟨['/'], .root⟩ [("a".toList,
          .mk ⟨"a".toList, .normal⟩
            [(wildcard, .mk ⟨":x".toList, .param⟩
              [("z".toList, .mk ⟨"z".toList, .normal⟩ [] h2)] h1)] [])] [] := by rfl
  have ht1 : AddRoute NewTree m "/a/:x".toList h1
      = some ⟨mapSet NewTree.tree m
          (insertAt newRootNode [⟨"a".toList, .normal⟩, ⟨":x".toList, .param⟩] h1),
          NewTree.supportedMethods⟩ := by
    rw [e1, AddRoute_slash, hx, if_pos ⟨hmne, hh1, rfl⟩, mapGet_NewTree, if_pos hm]
    rfl
  have ht2 : AddRoute ⟨mapSet NewTree.tree m
          (insertAt newRootNode [⟨"a".toList, .normal⟩, ⟨":x".toList, .param⟩] h1),
          NewTree.supportedMethods⟩
        m "/a/:y/z".toList h2
      = some ⟨mapSet NewTree.tree m
          (.mk ⟨['/'], .root⟩ [("a".toList,
            .mk ⟨"a".toList, .normal⟩
              [(wildcard, .mk ⟨":x".toList, .param⟩
                [("z".toList, .mk ⟨"z".toList, .normal⟩ [] h2)] h1)] [])] []),
          NewTree.supportedMethods⟩ := by
    rw [e2, AddRoute_slash, hy, if_pos ⟨hmne, hh2, rfl⟩]
    simp only [mapGet_mapSet_self, Option.map_some', mapSet_mapSet, hn2]
  refine ⟨_, _, ht1, ht2, mapGet_mapSet_self _ _ _, ?_⟩
  have hreq : scan (joinBody ["a".toList, v, "z".toList]) [] .normal true
      = ([⟨"a".toList, .normal⟩, ⟨v, .normal⟩, ⟨"z".toList, .normal⟩], true) := by
    have hn : ∀ c ∈ ["a".toList, v, "z".toList], NiceChunk c := by
      intro c hc
      simp only [List.mem_cons, List.mem_singleton, List.not_mem_nil, or_false] at hc
      rcases hc with e | e | e
      · subst e; exact PlainText.nice (by simp only [PlainText]; decide)
      · subst e; exact hv.nice
      · subst e; exact PlainText.nice (by simp only [PlainText]; decide)
    rw [scan_joinBody_nice _ (by simp) hn]
    simp only [List.map_cons, List.map_nil, hv.niceKind]
    rfl
  rw [GetReqValue_cons, hreq]
  simp only [Bool.true_eq_false, if_false, mapGet_mapSet_self]
  rw [if_neg (by simp)]
  rw [GetValue_cons_found _ (.mk ⟨"a".toList, .normal⟩
        [(wildcard, .mk ⟨":x".toList, .param⟩
          [("z".toList, .mk ⟨"z".toList, .normal⟩ [] h2)] h1)] []) _ _ _
      (by simp [mapGet]), descend_cons,
    GetValue_cons_wild _ (.mk ⟨":x".toList, .param⟩
        [("z".toList, .mk ⟨"z".toList, .normal⟩ [] h2)] h1) _ _ _ ':' "x".toList
      (by simp [mapGet, Ne.symm hw]) (by simp [mapGet]) (by simpa using hcap) (by rfl),
    descend_cons,
    GetValue_cons_found _ (.mk ⟨"z".toList, .normal⟩ [] h2) _ _ _ (by simp [mapGet])]
  simp [descend]

/-- Witness for C28: method GET, chains `[1]` and `[2]`, the request `/a/v/z`. -/
theorem wildcard_slot_reused_witness :
    ∃ t1 t2, AddRoute NewTree "GET".toList "/a/:x".toList [1] = some t1 ∧
      AddRoute t1 "GET".toList "/a/:y/z".toList [2] = some t2 ∧
      mapGet t2.tree "GET".toList
        = some (.mk ⟨['/'], .root⟩ [("a".toList,
            .mk ⟨"a".toList, .normal⟩
              [(wildcard, .mk ⟨":x".toList, .param⟩
                [("z".toList, .mk ⟨"z".toList, .normal⟩ [] [2])] [1])] [])] []) ∧
      GetReqValue t2 "GET".toList ('/' :: joinBody ["a".toList, "v".toList, "z".toList])
          ⟨[], 8⟩
        = some ({ handlers := [2], params := some ⟨[⟨"x".toList, "v".toList⟩], 8⟩ },
            ⟨[⟨"x".toList, "v".toList⟩], 8⟩) :=
  wildcard_slot_reused "GET".toList (by decide) [1] [2] (by simp) (by simp) 8 (by decide)
    "v".toList (by simp only [PlainText]; decide) (by decide)

/-- Inserting at the same segments twice is inserting the second chain. -/
theorem insertAt_insertAt (segs : List pathSegment) :
    ∀ (r : node) (h1 h2 : HandlersChain),
      insertAt (insertAt r segs h1) segs h2 = insertAt r segs h2 := by
  induction segs with
  | nil => intro r h1 h2; simp [insertAt]
  | cons ps rest ih =>
    intro r h1 h2
    rw [insertAt, insertAt]
    simp only [pathSegment_mk, children_mk, handlers_mk, mapGet_mapSet_self,
      Option.getD_some, ih, mapSet_mapSet]
    rw [insertAt]

/-- The nodes of the trie after an insertion, and their texts and kinds, do not
depend on the chain that was inserted. -/
theorem nodeAt_insertAt_chain (segs : List pathSegment) :
    ∀ (r : node) (h1 h2 : HandlersChain) (ks : List GoString),
      (nodeAt (insertAt r segs h1) ks).map node.pathSegment
        = (nodeAt (insertAt r segs h2) ks).map node.pathSegment := by
  induction segs with
  | nil =>
    intro r h1 h2 ks
    cases ks with
    | nil => simp [insertAt, nodeAt]
    | cons k ks => simp [insertAt, nodeAt]
  | cons ps rest ih =>
    intro r h1 h2 ks
    cases ks with
    | nil => simp [insertAt, nodeAt]
    | cons k ks =>
      rw [insertAt, insertAt]
      simp only [nodeAt, children_mk]
      by_cases hk : k = keyOf ps
      · subst hk
        simp only [mapGet_mapSet_self]
        exact ih _ h1 h2 ks
      · simp only [mapGet_mapSet_ne _ _ _ _ hk]

/-- C26: last registration wins: for every path that begins with `'/'` and has no
marker, every supported method and non-empty chains `h1` and `h2`, on a fresh
tree both `AddRoute(m, p, h1)` and the following `AddRoute(m, p, h2)` succeed,
the lookup of `p` under `m` returns `h2` (and leaves the buffer as it was), the
table is the one a single registration of `h2` gives, and the same nodes, with
the same texts and kinds, are reached along the same keys as after the first
call alone. -/
theorem reregistration_overwrites (m : GoString) (hm : m ∈ httpMethods) (body : GoString)
    (hlit : ∀ c ∈ body, c ≠ ':' ∧ c ≠ '*') (h1 h2 : HandlersChain) (hh1 : h1 ≠ [])
    (hh2 : h2 ≠ []) (params : Params) :
    ∃ t1 t2, AddRoute NewTree m ('/' :: body) h1 = some t1 ∧
      AddRoute t1 m ('/' :: body) h2 = some t2 ∧
      (∃ vc, GetReqValue t2 m ('/' :: body) params = some (vc, params) ∧
        vc.handlers = h2) ∧
      AddRoute NewTree m ('/' :: body) h2 = some t2 ∧
      ∀ (m' : GoString) (ks : List GoString),
        (treeNodeAt t2 m' ks).map node.pathSegment
          = (treeNodeAt t1 m' ks).map node.pathSegment := by
  have hmne : m ≠ [] := httpMethods_ne_nil m hm
  obtain ⟨hkinds, hvalid⟩ := scan_literal body hlit [] true
  have ht : ∀ h : HandlersChain, h ≠ [] →
      AddRoute NewTree m ('/' :: body) h
        = some ⟨mapSet NewTree.tree m (insertAt newRootNode (scan body [] .normal true).1 h),
            NewTree.supportedMethods⟩ := by
    intro h hh
    rw [AddRoute_slash, if_pos ⟨hmne, hh, hvalid⟩, mapGet_NewTree, if_pos hm]
    rfl
  have ht2 : AddRoute
        ⟨mapSet NewTree.tree m (insertAt newRootNode (scan body [] .normal true).1 h1),
          NewTree.supportedMethods⟩ m ('/' :: body) h2
      = some ⟨mapSet NewTree.tree m (insertAt newRootNode (scan body [] .normal true).1 h2),
          NewTree.supportedMethods⟩ := by
    rw [AddRoute_slash, if_pos ⟨hmne, hh2, hvalid⟩]
    simp only [mapGet_mapSet_self, Option.map_some', mapSet_mapSet, insertAt_insertAt]
  refine ⟨_, _, ht h1 hh1, ht2, ?_, ht h2 hh2, ?_⟩
  · rw [GetReqValue_cons]
    simp only [hvalid, Bool.true_eq_false, if_false, mapGet_mapSet_self]
    by_cases hs : (scan body [] .normal true).1 = []
    · refine ⟨{ handlers := h2 }, ?_, rfl⟩
      rw [if_pos hs, hs]
      simp [insertAt]
    · have hkv : (scan body [] .normal true).1.map keyOf
          = (scan body [] .normal true).1.map pathSegment.value :=
        List.map_congr_left fun s hs => keyOf_normal s (hkinds s hs)
      have hH := handlersAt_insertAt_self (scan body [] .normal true).1 newRootNode h2
      rw [hkv] at hH
      have hx := GetValue_exact _ hs
        (insertAt newRootNode (scan body [] .normal true).1 h2) params
        (by rw [hH]; exact hh2)
      rw [hH] at hx
      exact ⟨{ handlers := h2, params := some params }, by rw [if_neg hs, hx], rfl⟩
  · intro m' ks
    simp only [treeNodeAt]
    by_cases hmm : m' = m
    · subst hmm
      simp only [mapGet_mapSet_self, Option.some_bind]
      exact nodeAt_insertAt_chain _ _ _ _ _
    · simp only [mapGet_mapSet_ne _ _ _ _ hmm]

/-- Witness for C26: the route `/ping/pong/pang` of main.go under GET, registered
with `[1]` and then with `[2]`. -/
theorem reregistration_overwrites_witness :
    ∃ t1 t2, AddRoute NewTree "GET".toList ('/' :: "ping/pong/pang".toList) [1] = some t1 ∧
      AddRoute t1 "GET".toList ('/' :: "ping/pong/pang".toList) [2] = some t2 ∧
      (∃ vc, GetReqValue t2 "GET".toList ('/' :: "ping/pong/pang".toList) ⟨[], 8⟩
          = some (vc, ⟨[], 8⟩) ∧ vc.handlers = [2]) ∧
      AddRoute NewTree "GET".toList ('/' :: "ping/pong/pang".toList) [2] = some t2 ∧
      ∀ (m' : GoString) (ks : List GoString),
        (treeNodeAt t2 m' ks).map node.pathSegment
          = (treeNodeAt t1 m' ks).map node.pathSegment :=
  reregistration_overwrites "GET".toList (by decide) "ping/pong/pang".toList (by decide)
    [1] [2] (by simp) (by simp) ⟨[], 8⟩

/-! ## Totality of the lookup -/

/-- C23 (code at the failing inputs): `GetReqValue` fails on the empty request
path, for every table, method and buffer (`[]byte(path)[0]` in
`getPathSegments`); and on the gateway created by `New()`, whose `maxParams` is
the constant 8, the route `/:a/:b/:c/:d/:e/:f/:g/:h/:i` registers, and the
lookup of `/1/2/3/4/5/6/7/8/9` with the buffer of an allocated context fails
when the ninth parameter is bound (the buffer is extended beyond its capacity),
while the lookup of `/1/2/3/4/5/6/7/8` returns, unmatched, with the buffer
full. -/
theorem lookup_fails_on_empty_path_and_ninth_param :
    (∀ (t : methodTree) (m : GoString) (params : Params),
      GetReqValue t m [] params = none) ∧
    New.maxParams = 8 ∧
    (allocateContext New.maxParams).params = ⟨[], 8⟩ ∧
    (AddRoute New.tree "GET".toList "/:a/:b/:c/:d/:e/:f/:g/:h/:i".toList [1]).isSome
      = true ∧
    ((AddRoute New.tree "GET".toList "/:a/:b/:c/:d/:e/:f/:g/:h/:i".toList [1]).bind
        fun t => GetReqValue t "GET".toList "/1/2/3/4/5/6/7/8/9".toList
          (allocateContext New.maxParams).params) = none ∧
    (((AddRoute New.tree "GET".toList "/:a/:b/:c/:d/:e/:f/:g/:h/:i".toList [1]).bind
        fun t => GetReqValue t "GET".toList "/1/2/3/4/5/6/7/8".toList
          (allocateContext New.maxParams).params).map
      fun res => (res.1.handlers, res.2.elems.length)) = some ([], 8) := by
  refine ⟨fun t m params => rfl, rfl, rfl, ?_, ?_, ?_⟩ <;> rfl

/-! ## The values of bound parameters -/

theorem descend_nil (nd : node) (params : Params) :
    descend nd [] params
      = some ({ handlers := nd.handlers, params := some params }, params) := rfl

/-- The lookup fails when it has to bind a parameter in a full buffer. -/
theorem GetValue_cons_full (r nd : node) (seg : pathSegment) (rest : List pathSegment)
    (params : Params) (hg : mapGet r.children seg.value = none)
    (hw : mapGet r.children wildcard = some nd)
    (hcap : ¬ params.elems.length + 1 ≤ params.cap) :
    GetValue r (seg :: rest) params = none := by
  rw [GetValue.eq_def]
  simp [hg, hw, hcap]

/-- The lookup fails when the wildcard child has an empty text. -/
theorem GetValue_cons_empty_key (r nd : node) (seg : pathSegment) (rest : List pathSegment)
    (params : Params) (hg : mapGet r.children seg.value = none)
    (hw : mapGet r.children wildcard = some nd) (hv : nd.pathSegment.value = []) :
    GetValue r (seg :: rest) params = none := by
  rw [GetValue.eq_def]
  simp only [hg, hw, hv]
  split_ifs <;> rfl

/-- The parameters that `GetValue` binds are appended to the buffer, and the
value of each is the text of one of the request segments. -/
theorem GetValue_binds (segs : List pathSegment) :
    ∀ (r : node) (params : Params) (vc : valueContext) (buf : Params),
      GetValue r segs params = some (vc, buf) →
      ∃ new, buf.elems = params.elems ++ new ∧ buf.cap = params.cap ∧
        ∀ p ∈ new, ∃ s ∈ segs, p.Value = s.value := by
  induction segs with
  | nil => intro r params vc buf h; simp [GetValue] at h
  | cons seg rest ih =>
    intro r params vc buf h
    have hdesc : ∀ (nd : node) (ps' : Params) (new0 : List Param),
        ps'.elems = params.elems ++ new0 → ps'.cap = params.cap →
        (∀ p ∈ new0, p.Value = seg.value) →
        descend nd rest ps' = some (vc, buf) →
        ∃ new, buf.elems = params.elems ++ new ∧ buf.cap = params.cap ∧
          ∀ p ∈ new, ∃ s ∈ seg :: rest, p.Value = s.value := by
      intro nd ps' new0 he hc hn hd
      cases rest with
      | nil =>
        rw [descend_nil] at hd
        simp only [Option.some.injEq, Prod.mk.injEq] at hd
        rw [← hd.2]
        exact ⟨new0, he, hc, fun p hp => ⟨seg, by simp, hn p hp⟩⟩
      | cons s rest' =>
        rw [descend_cons] at hd
        obtain ⟨new1, h1, h2, h3⟩ := ih nd ps' vc buf hd
        refine ⟨new0 ++ new1, by rw [h1, he, List.append_assoc], by rw [h2, hc], ?_⟩
        intro p hp
        rcases List.mem_append.mp hp with hp | hp
        · exact ⟨seg, by simp, hn p hp⟩
        · obtain ⟨s', hs', e⟩ := h3 p hp
          exact ⟨s', List.mem_cons_of_mem _ hs', e⟩
    cases hg : mapGet r.children seg.value with
    | some nd =>
      rw [GetValue_cons_found _ nd _ _ _ hg] at h
      exact hdesc nd params [] (by simp) rfl (by simp) h
    | none =>
      cases hw : mapGet r.children wildcard with
      | none =>
        rw [GetValue_cons_none _ _ _ _ hg hw] at h
        simp only [Option.some.injEq, Prod.mk.injEq] at h
        rw [← h.2]
        exact ⟨[], by simp, rfl, by simp⟩
      | some nd =>
        by_cases hcap : params.elems.length + 1 ≤ params.cap
        · cases hv : nd.pathSegment.value with
          | nil =>
            rw [GetValue_cons_empty_key _ nd _ _ _ hg hw hv] at h
            exact absurd h (by simp)
          | cons c key =>
            rw [GetValue_cons_wild _ nd _ _ _ c key hg hw hcap hv] at h
            exact hdesc nd
              { params with elems := params.elems ++ [{ Key := key, Value := seg.value }] }
              [{ Key := key, Value := seg.value }] rfl rfl (by simp) h
        · rw [GetValue_cons_full _ nd _ _ _ hg hw hcap] at h
          exact absurd h (by simp)

/-- The texts of the segments contain no `'/'`, except the trailing segment `"/"`
of a body that ends in `'/'`. -/
theorem chunkTexts_no_slash (b : List Char) :
    ∀ cur : GoString, '/' ∉ cur → ∀ x ∈ chunkTexts b cur,
      '/' ∉ x ∨ (x = ['/'] ∧ b.getLast? = some '/') := by
  induction b with
  | nil => intro cur _ x hx; simp [chunkTexts] at hx
  | cons c rest ih =>
    intro cur hcur x hx
    cases rest with
    | nil =>
      by_cases hc : c = '/'
      · subst hc
        simp only [chunkTexts, if_true, List.mem_cons, List.mem_singleton,
          List.not_mem_nil, or_false] at hx
        rcases hx with e | e
        · left; rw [e]; exact hcur
        · right; exact ⟨e, rfl⟩
      · simp only [chunkTexts, if_neg hc, List.mem_singleton] at hx
        left
        rw [hx]
        simp only [List.mem_append, List.mem_singleton, not_or]
        exact ⟨hcur, Ne.symm hc⟩
    | cons c' rest' =>
      have hl : (c :: c' :: rest').getLast? = (c' :: rest').getLast? := by
        simp [List.getLast?_cons_cons]
      rw [hl]
      by_cases hc : c = '/'
      · subst hc
        simp only [chunkTexts, if_true, List.mem_cons] at hx
        rcases hx with e | hx
        · left; rw [e]; exact hcur
        · exact ih [] (by simp) x hx
      · simp only [chunkTexts, if_neg hc] at hx
        exact ih (cur ++ [c]) (by
          simp only [List.mem_append, List.mem_singleton, not_or]
          exact ⟨hcur, Ne.symm hc⟩) x hx

/-- C29, as stated, fails: with `/a/:x` registered alone under GET, the request
`/a/` is matched and the parameter `x` is bound to the trailing segment `"/"`,
a value that contains `'/'` and is not a `'/'`-delimited chunk of the path. -/
theorem param_bound_to_trailing_slash :
    ((AddRoute NewTree "GET".toList "/a/:x".toList [1]).bind fun t =>
        GetReqValue t "GET".toList "/a/".toList ⟨[], 8⟩)
      = some ({ handlers := [1], params := some ⟨[⟨"x".toList, ['/']⟩], 8⟩ },
          ⟨[⟨"x".toList, ['/']⟩], 8⟩) := by
  rfl

/-- C29 (amended): for every route table, method, request path and buffer, the
parameters that `GetReqValue` binds are appended to the buffer, and the value of
each is the text of one segment of the request path: when the path does not end
in `'/'`, one of its `'/'`-delimited chunks, which contains no `'/'`; when it
does, such a chunk or the trailing segment `"/"`. -/
theorem bound_values_are_segments (t : methodTree) (m : GoString) (c0 : Char)
    (body : GoString) (params : Params) (vc : valueContext) (buf : Params)
    (h : GetReqValue t m (c0 :: body) params = some (vc, buf)) :
    ∃ new, buf.elems = params.elems ++ new ∧
      (vc.params = none ∨ vc.params = some buf) ∧
      ∀ p ∈ new,
        (body.getLast? ≠ some '/' → p.Value ∈ body.splitOn '/' ∧ '/' ∉ p.Value) ∧
        (∀ b', body = b' ++ ['/'] →
          (p.Value ∈ b'.splitOn '/' ∧ '/' ∉ p.Value) ∨ p.Value = ['/']) := by
  have hpar := GetReqValue_params t m (c0 :: body) params vc buf h
  have hnone : some (({}, params) : valueContext × Params) = some (vc, buf) →
      ∃ new, buf.elems = params.elems ++ new ∧
        (vc.params = none ∨ vc.params = some buf) ∧
        ∀ p ∈ new,
          (body.getLast? ≠ some '/' → p.Value ∈ body.splitOn '/' ∧ '/' ∉ p.Value) ∧
          (∀ b', body = b' ++ ['/'] →
            (p.Value ∈ b'.splitOn '/' ∧ '/' ∉ p.Value) ∨ p.Value = ['/']) := by
    intro e
    simp only [Option.some.injEq, Prod.mk.injEq] at e
    exact ⟨[], by rw [← e.2]; simp, hpar, by simp⟩
  rw [GetReqValue_cons] at h
  by_cases hv : (scan body [] .normal true).2 = false
  · rw [if_pos hv] at h
    exact hnone h
  · rw [if_neg hv] at h
    cases hg : mapGet t.tree m with
    | none => rw [hg] at h; exact hnone h
    | some n =>
      rw [hg] at h
      simp only at h
      by_cases hs : (scan body [] .normal true).1 = []
      · rw [if_pos hs] at h
        simp only [Option.some.injEq, Prod.mk.injEq] at h
        exact ⟨[], by rw [← h.2]; simp, hpar, by simp⟩
      · rw [if_neg hs] at h
        have hb : body ≠ [] := by
          intro e
          apply hs
          rw [e]
          rfl
        obtain ⟨new, h1, _, h3⟩ := GetValue_binds _ n params vc buf h
        refine ⟨new, h1, hpar, ?_⟩
        intro p hp
        obtain ⟨s, hs', e⟩ := h3 p hp
        have hmem : p.Value ∈ chunkTexts body [] := by
          rw [← scan_values body [] .normal true, e]
          exact List.mem_map_of_mem _ hs'
        have hslash := chunkTexts_no_slash body [] (by simp) _ hmem
        obtain ⟨hA, hB⟩ := chunkTexts_splitOn body hb []
        constructor
        · intro hl
          rw [hA hl, modifyHead_nil_append] at hmem
          refine ⟨hmem, ?_⟩
          rcases hslash with h0 | ⟨_, h0⟩
          · exact h0
          · exact absurd h0 hl
        · intro b' hb'
          rw [hB b' hb', modifyHead_nil_append] at hmem
          rcases hslash with h0 | ⟨h0, _⟩
          · left
            refine ⟨?_, h0⟩
            rcases List.mem_append.mp hmem with hm | hm
            · exact hm
            · simp only [List.mem_singleton] at hm
              rw [hm] at h0
              exact absurd (by simp) h0
          · right; exact h0

/-- Witness for C29: the request `/user/alice/github` on the route
`/user/:name/:provider` of main.go; the value `alice` is a chunk of the path. -/
theorem bound_values_are_segments_witness :
    ∃ new, (⟨[⟨"name".toList, "alice".toList⟩, ⟨"provider".toList, "github".toList⟩], 8⟩ :
        Params).elems = [] ++ new ∧
      ∀ p ∈ new,
        "user/alice/github".toList.getLast? ≠ some '/' →
        p.Value ∈ "user/alice/github".toList.splitOn '/' ∧ '/' ∉ p.Value :=
  let ⟨new, h1, _, h3⟩ := bound_values_are_segments
    ⟨mapSet NewTree.tree "GET".toList
      (insertAt newRootNode [⟨"user".toList, .normal⟩, ⟨":name".toList, .param⟩,
        ⟨":provider".toList, .param⟩] [7]), httpMethods⟩
    "GET".toList '/' "user/alice/github".toList ⟨[], 8⟩
    { handlers := [7],
      params := some ⟨[⟨"name".toList, "alice".toList⟩,
        ⟨"provider".toList, "github".toList⟩], 8⟩ }
    ⟨[⟨"name".toList, "alice".toList⟩, ⟨"provider".toList, "github".toList⟩], 8⟩ rfl
  ⟨new, h1, fun p hp => (h3 p hp).1⟩

/-! ## Completeness of the lookup -/

/-- A segment whose kind is not `normal` has a non-empty text. -/
theorem scan_kind_nonempty (b : List Char) :
    ∀ (cur : GoString) (k : nodeKind) (v : Bool), (k ≠ .normal → cur ≠ []) →
      ∀ s ∈ (scan b cur k v).1, s.kind ≠ .normal → s.value ≠ [] := by
  induction b with
  | nil => intro cur k v _ s hs; simp [scan] at hs
  | cons c rest ih =>
    intro cur k v hk s hs
    cases rest with
    | nil =>
      by_cases hc : c = '/'
      · subst hc
        simp only [scan, if_true, List.mem_cons, List.mem_singleton, List.not_mem_nil,
          or_false] at hs
        rcases hs with e | e
        · subst e; exact hk
        · subst e; intro _; simp
      · simp only [scan, if_neg hc, List.mem_singleton] at hs
        subst hs
        intro _
        simp
    | cons c' rest' =>
      by_cases hc : c = '/'
      · subst hc
        rw [scan_cons_slash] at hs
        simp only [List.mem_cons] at hs
        rcases hs with e | hs
        · subst e; exact hk
        · exact ih [] .normal v (fun h => absurd rfl h) s hs
      · rw [scan_cons_ne c (c' :: rest') (by simp) hc] at hs
        exact ih (cur ++ [c]) _ _ (fun _ => by simp) s hs

/-- A segment that is registered under the reserved key has a non-empty text. -/
theorem scan_wild_nonempty (b : List Char) :
    ∀ s ∈ (scan b [] .normal true).1, keyOf s = wildcard → s.value ≠ [] := by
  intro s hs hkey
  by_cases hn : s.kind = .normal
  · rw [keyOf_normal s hn] at hkey
    rw [hkey]
    decide
  · exact scan_kind_nonempty b [] .normal true (fun h => absurd rfl h) s hs hn

theorem nodeAt_fresh (ps : pathSegment) (h : HandlersChain) (ks : List GoString) (nd : node)
    (hn : nodeAt (.mk ps [] h) ks = some nd) : ks = [] ∧ nd = .mk ps [] h := by
  cases ks with
  | nil => simp only [nodeAt, Option.some.injEq] at hn; exact ⟨rfl, hn.symm⟩
  | cons k ks => simp [nodeAt, mapGet] at hn

/-- A node of the trie after an insertion was there before, with the same text
and kind, or holds one of the inserted segments and is stored under its key. -/
theorem nodeAt_insertAt_seg (segs : List pathSegment) :
    ∀ (r : node) (h : HandlersChain) (ks : List GoString) (nd : node),
      nodeAt (insertAt r segs h) ks = some nd →
      (∃ nd0, nodeAt r ks = some nd0 ∧ nd0.pathSegment = nd.pathSegment) ∨
      (∃ s ∈ segs, nd.pathSegment = s ∧ ks.getLast? = some (keyOf s)) := by
  induction segs with
  | nil =>
    intro r h ks nd hn
    left
    cases ks with
    | nil =>
      simp only [insertAt, nodeAt, Option.some.injEq] at hn
      exact ⟨r, rfl, by rw [← hn]; rfl⟩
    | cons k ks =>
      simp only [insertAt, nodeAt, children_mk] at hn
      exact ⟨nd, by simpa [nodeAt] using hn, rfl⟩
  | cons ps rest ih =>
    intro r h ks nd hn
    cases ks with
    | nil =>
      left
      simp only [insertAt, nodeAt, Option.some.injEq] at hn
      exact ⟨r, rfl, by rw [← hn]; rfl⟩
    | cons k ks =>
      rw [insertAt] at hn
      simp only [nodeAt, children_mk] at hn
      by_cases hk : k = keyOf ps
      · subst hk
        simp only [mapGet_mapSet_self] at hn
        rcases ih _ h ks nd hn with ⟨nd0, h0, e0⟩ | ⟨s, hs, e, hl⟩
        · cases hg : mapGet r.children (keyOf ps) with
          | some n0 =>
            left
            rw [hg] at h0
            simp only [Option.getD_some] at h0
            exact ⟨nd0, by simp only [nodeAt, hg]; exact h0, e0⟩
          | none =>
            right
            rw [hg] at h0
            simp only [Option.getD_none] at h0
            obtain ⟨e1, e2⟩ := nodeAt_fresh _ _ _ _ h0
            subst e1
            refine ⟨ps, by simp, ?_, rfl⟩
            rw [← e0, e2]
            rfl
        · right
          refine ⟨s, List.mem_cons_of_mem _ hs, e, ?_⟩
          cases ks with
          | nil => simp at hl
          | cons k' ks' => rw [List.getLast?_cons_cons]; exact hl
      · left
        rw [mapGet_mapSet_ne _ _ _ _ hk] at hn
        exact ⟨nd, by simpa [nodeAt] using hn, rfl⟩

/-- Insertion of segments whose wildcard-keyed members have a text keeps the
invariant. -/
theorem WildKeyed_insertAt (segs : List pathSegment) (r : node) (h : HandlersChain)
    (hr : WildKeyed r) (hs : ∀ s ∈ segs, keyOf s = wildcard → s.value ≠ []) :
    WildKeyed (insertAt r segs h) := by
  intro ks nd hn
  rcases nodeAt_insertAt_seg segs r h _ nd hn with ⟨nd0, h0, e0⟩ | ⟨s, hmem, e, hl⟩
  · rw [← e0]
    exact hr ks nd0 h0
  · rw [e]
    apply hs s hmem
    rw [List.getLast?_append] at hl
    simp only [List.getLast?_singleton, Option.or, Option.some.injEq] at hl
    exact hl.symm

theorem WildKeyed_child (r n : node) (k : GoString) (hr : WildKeyed r)
    (hg : mapGet r.children k = some n) : WildKeyed n := by
  intro ks nd hn
  apply hr (k :: ks) nd
  simp only [List.cons_append, nodeAt, hg]
  exact hn

/-- Every root of a table built by registrations on a table with the invariant
has the invariant. -/
theorem WildKeyed_addRoutes (rs : List Route) :
    ∀ (t t' : methodTree), addRoutes t rs = some t' →
      (∀ m n, mapGet t.tree m = some n → WildKeyed n) →
      ∀ m n, mapGet t'.tree m = some n → WildKeyed n := by
  induction rs with
  | nil =>
    intro t t' h ht
    simp only [addRoutes, Option.some.injEq] at h
    subst h
    exact ht
  | cons r rs ih =>
    intro t t' h ht
    simp only [addRoutes] at h
    cases h1 : AddRoute t r.method r.path r.handlers with
    | none => simp [h1] at h
    | some t1 =>
      simp only [h1, Option.some_bind] at h
      apply ih t1 t' h
      intro m n hmn
      cases hp : r.path with
      | nil => rw [hp] at h1; simp [AddRoute] at h1
      | cons c body =>
        rw [hp] at h1
        by_cases hc : c = '/'
        · subst hc
          rw [AddRoute_slash] at h1
          split_ifs at h1 with hcond
          cases hg : mapGet t.tree r.method with
          | none => simp [hg] at h1
          | some rn =>
            simp only [hg, Option.map_some', Option.some.injEq] at h1
            subst h1
            by_cases hm : m = r.method
            · subst hm
              simp only [mapGet_mapSet_self, Option.some.injEq] at hmn
              subst hmn
              exact WildKeyed_insertAt _ rn _ (ht _ rn hg) (scan_wild_nonempty body)
            · simp only [mapGet_mapSet_ne _ _ _ _ hm] at hmn
              exact ht m n hmn
        · rw [AddRoute_not_slash _ _ _ _ _ hc] at h1
          exact absurd h1 (by simp)

theorem WildKeyed_NewTree (m : GoString) (n : node) (h : mapGet NewTree.tree m = some n) :
    WildKeyed n := by
  rw [mapGet_NewTree] at h
  split_ifs at h
  simp only [Option.some.injEq] at h
  subst h
  intro ks nd hn
  obtain ⟨e, _⟩ := nodeAt_fresh _ _ _ _ hn
  simp at e

theorem handlersAt_cons_ne_nil (r : node) (k : GoString) (ks : List GoString)
    (h : handlersAt r (k :: ks) ≠ []) :
    ∃ n, mapGet r.children k = some n ∧ handlersAt r (k :: ks) = handlersAt n ks := by
  cases hg : mapGet r.children k with
  | none => simp [handlersAt, hg] at h
  | some n => exact ⟨n, rfl, by simp [handlersAt, hg]⟩

theorem PatSeg.key_lit (text : GoString) (h : PlainText text) :
    (PatSeg.lit text).key = text := by
  simp only [PatSeg.key, PatSeg.pattern]
  exact keyOf_segOf_plain h

theorem PatSeg.key_par (name value : GoString) : (PatSeg.par name value).key = wildcard := by
  simp only [PatSeg.key, PatSeg.pattern]
  exact keyOf_segOf_param name

theorem PatSeg.PatOk.pattern_is_nice {s : PatSeg} (h : s.PatOk) : NiceChunk s.pattern := by
  cases s with
  | lit t => exact PlainText.nice h
  | par n v =>
    obtain ⟨hne, hc⟩ := h
    refine ⟨by simp [PatSeg.pattern], ?_, ?_, ?_, ?_⟩
    · intro hm
      rcases List.mem_cons.mp hm with e | hm'
      · exact absurd e (by decide)
      · exact (hc _ hm').1 rfl
    · intro x hx
      exact (hc x (by simpa [PatSeg.pattern] using hx)).2
    · intro e
      simp [PatSeg.pattern] at e
      exact hne e
    · intro e
      simp [PatSeg.pattern] at e

/-- The lookup follows the keys of a pattern that the segments of the request
match one by one, down to the node that holds the chain, as long as no child
stored under the text of the request segment stands beside the wildcard child
at a parameter position. -/
theorem GetValue_follow (segs : List PatSeg) :
    ∀ (r : node) (params : Params) (req : List pathSegment),
      req.map pathSegment.value = segs.map PatSeg.request →
      segs ≠ [] → (∀ s ∈ segs, s.PatOk) → WildKeyed r →
      handlersAt r (segs.map PatSeg.key) ≠ [] →
      (∀ pre name value post, segs = pre ++ PatSeg.par name value :: post →
        nodeAt r (pre.map PatSeg.key ++ [value]) = none) →
      params.elems.length + (segs.filterMap PatSeg.binding).length ≤ params.cap →
      ∃ vc buf, GetValue r req params = some (vc, buf) ∧
        vc.handlers = handlersAt r (segs.map PatSeg.key) := by
  induction segs with
  | nil => intro r params req _ h; exact absurd rfl h
  | cons s rest ih =>
    intro r params req hmatch _ hok hr hh hsh hcap
    cases req with
    | nil => simp at hmatch
    | cons q0 qrest =>
      simp only [List.map_cons, List.cons.injEq] at hmatch
      obtain ⟨hq0, hqrest⟩ := hmatch
      simp only [List.map_cons] at hh ⊢
      obtain ⟨n, hg, hn⟩ := handlersAt_cons_ne_nil r s.key _ hh
      rw [hn] at hh ⊢
      have hcont : ∀ params' : Params,
          params'.elems.length + (rest.filterMap PatSeg.binding).length ≤ params'.cap →
          ∃ vc buf, descend n qrest params' = some (vc, buf) ∧
            vc.handlers = handlersAt n (rest.map PatSeg.key) := by
        intro params' hc'
        cases rest with
        | nil =>
          have : qrest = [] := by simpa using hqrest
          subst this
          exact ⟨_, _, rfl, rfl⟩
        | cons s' rest' =>
          cases qrest with
          | nil => simp at hqrest
          | cons q1 qrest' =>
            rw [descend_cons]
            exact ih n params' (q1 :: qrest') hqrest (by simp)
              (fun x hx => hok x (List.mem_cons_of_mem _ hx))
              (WildKeyed_child r n _ hr hg) hh
              (by
                intro pre name value post e
                have h0 := hsh (s :: pre) name value post (by rw [e]; rfl)
                simp only [List.map_cons, List.cons_append, nodeAt, hg] at h0
                exact h0)
              hc'
      cases s with
      | lit text =>
        have hp : PlainText text := hok (.lit text) (by simp)
        rw [PatSeg.key_lit text hp] at hg
        have hv : q0.value = text := hq0
        rw [GetValue_cons_found r n _ _ _ (by rw [hv]; exact hg)]
        exact hcont params (by simpa [PatSeg.binding] using hcap)
      | par name value =>
        rw [PatSeg.key_par] at hg
        have hv : q0.value = value := hq0
        have hnone : mapGet r.children value = none := by
          have h0 := hsh [] name value rest rfl
          simp only [List.map_nil, List.nil_append, nodeAt] at h0
          cases hv' : mapGet r.children value with
          | none => rfl
          | some x => simp [hv'] at h0
        have hval : n.pathSegment.value ≠ [] :=
          hr [] n (by simp only [List.nil_append, nodeAt, hg])
        obtain ⟨c, key, hck⟩ := List.exists_cons_of_ne_nil hval
        have hlen : (List.filterMap PatSeg.binding (PatSeg.par name value :: rest)).length
            = (rest.filterMap PatSeg.binding).length + 1 := by
          simp [PatSeg.binding]
        rw [hlen] at hcap
        rw [GetValue_cons_wild r n _ _ _ c key (by rw [hv]; exact hnone) hg (by omega) hck]
        exact hcont _ (by simp only [List.length_append, List.length_singleton]; omega)

/-- C30, as stated, fails: with `/a/b` and `/:x/c` registered under GET, the
request `/a/c` matches the pattern `/:x/c` segment by segment, but the lookup
follows the literal child `a` and, finding no child `c` there, returns no
handler chain; it does not go back to the wildcard child.  And with
`/user/:name` registered alone, the request `/user/a:b:c`, which matches it
segment by segment, returns no chain either: `GetReqValue` gives up on a path
that `getPathSegments` reports as not valid. -/
theorem literal_child_shadows_param :
    ((addRoutes NewTree [⟨"GET".toList, "/a/b".toList, [1]⟩,
        ⟨"GET".toList, "/:x/c".toList, [2]⟩]).bind fun t =>
      GetReqValue t "GET".toList "/a/c".toList ⟨[], 8⟩)
      = some ({ handlers := [], params := none }, ⟨[], 8⟩) ∧
    ((AddRoute NewTree "GET".toList "/user/:name".toList [1]).bind fun t =>
      GetReqValue t "GET".toList "/user/a:b:c".toList ⟨[], 8⟩)
      = some ({ handlers := [], params := none }, ⟨[], 8⟩) := by
  constructor <;> rfl

/-- C30 (amended): on every table built by successful registrations on a fresh
tree and for every request path that `getPathSegments` reports valid, if the
segments of the request, as `getPathSegments` splits it, match a registered
pattern of literal and `:param` segments of its method one by one (as many
segments, the text of a literal segment equal, any text at a parameter
segment), the buffer has room for the parameters of the pattern, and at no
parameter segment of the pattern the node reached along the pattern has a child
stored under the text of the request segment (the lookup prefers such a child
and never goes back to the wildcard child), then `GetReqValue` returns a
non-nil handler chain. -/
theorem lookup_complete_without_shadowing (rs : List Route) (t : methodTree)
    (hreg : addRoutes NewTree rs = some t) (m : GoString) (segs : List PatSeg)
    (hne : segs ≠ []) (hok : ∀ s ∈ segs, s.PatOk) (h : HandlersChain)
    (hmem : (⟨m, '/' :: joinBody (segs.map PatSeg.pattern), h⟩ : Route) ∈ rs)
    (q : GoString) (root : pathSegment) (req : List pathSegment)
    (hq : getPathSegments q = some (root :: req, true))
    (hmatch : req.map pathSegment.value = segs.map PatSeg.request)
    (hshadow : ∀ pre name value post, segs = pre ++ PatSeg.par name value :: post →
      treeNodeAt t m (pre.map PatSeg.key ++ [value]) = none)
    (params : Params)
    (hcap : params.elems.length + (segs.filterMap PatSeg.binding).length ≤ params.cap) :
    ∃ vc buf, GetReqValue t m q params = some (vc, buf) ∧ vc.handlers ≠ [] := by
  have hpat := scan_joinBody_nice (segs.map PatSeg.pattern) (by simpa using hne)
    (by
      intro c hc
      obtain ⟨s, hs, e⟩ := List.mem_map.mp hc
      exact e ▸ (hok s hs).pattern_is_nice) true
  rw [List.map_map] at hpat
  have hkeys : routeKeys ('/' :: joinBody (segs.map PatSeg.pattern))
      = segs.map PatSeg.key := by
    rw [routeKeys_slash, hpat]
    simp only [List.map_map]
    rfl
  have hH := treeHandlersAt_addRoutes rs NewTree t hreg m (segs.map PatSeg.key)
  have hsome : (rs.reverse.find?
      (fun r => r.method = m ∧ routeKeys r.path = segs.map PatSeg.key)).isSome = true := by
    rw [List.find?_isSome]
    exact ⟨_, List.mem_reverse.mpr hmem, by simp [hkeys]⟩
  obtain ⟨r', hr'⟩ := Option.isSome_iff_exists.mp hsome
  rw [hr'] at hH
  simp only at hH
  have hr'h : r'.handlers ≠ [] :=
    (addRoutes_wellformed rs NewTree t hreg r'
      (List.mem_reverse.mp (List.mem_of_find?_eq_some hr'))).2
  cases q with
  | nil => simp [getPathSegments] at hq
  | cons c0 body =>
    rw [getPathSegments_cons] at hq
    simp only [Option.some.injEq, Prod.mk.injEq, List.cons.injEq] at hq
    obtain ⟨⟨_, hreq⟩, hvalid⟩ := hq
    have hreqne : req ≠ [] := by
      intro e
      rw [e] at hmatch
      simp at hmatch
      exact hne hmatch
    cases hg : mapGet t.tree m with
    | none =>
      simp only [treeHandlersAt, hg] at hH
      exact absurd hH.symm hr'h
    | some n =>
      simp only [treeHandlersAt, hg] at hH
      have hfollow := GetValue_follow segs n params req hmatch hne hok
        (WildKeyed_addRoutes rs NewTree t hreg WildKeyed_NewTree m n hg)
        (by rw [hH]; exact hr'h)
        (by
          intro pre name value post e
          have h0 := hshadow pre name value post e
          simpa [treeNodeAt, hg] using h0)
        hcap
      obtain ⟨vc, buf, hgv, hvc⟩ := hfollow
      refine ⟨vc, buf, ?_, by rw [hvc, hH]; exact hr'h⟩
      rw [GetReqValue_cons, hvalid, hreq]
      simp only [Bool.true_eq_false, if_false, hg]
      rw [if_neg hreqne]
      exact hgv

/-- Witness for C30: `/user/me` and `/user/:name` under GET and the request
`/user/a:b`, whose segments `user` and `a:b` match `/user/:name`; the node of
`user` has no child `a:b`. -/
theorem lookup_complete_without_shadowing_witness :
    ∃ t, addRoutes NewTree [⟨"GET".toList, "/user/me".toList, [1]⟩,
        ⟨"GET".toList, "/user/:name".toList, [2]⟩] = some t ∧
      ∃ vc buf, GetReqValue t "GET".toList "/user/a:b".toList ⟨[], 8⟩ = some (vc, buf) ∧
        vc.handlers ≠ [] :=
  ⟨_, rfl, lookup_complete_without_shadowing
    [⟨"GET".toList, "/user/me".toList, [1]⟩, ⟨"GET".toList, "/user/:name".toList, [2]⟩]
    _ rfl "GET".toList [PatSeg.lit "user".toList, PatSeg.par "name".toList "a:b".toList]
    (by simp)
    (by
      intro s hs
      simp only [List.mem_cons, List.mem_singleton, List.not_mem_nil, or_false] at hs
      rcases hs with e | e <;> subst e <;> simp only [PatSeg.PatOk, PlainText] <;> decide)
    [2] (by simp [joinBody, PatSeg.pattern])
    "/user/a:b".toList ⟨['/'], .root⟩ [⟨"user".toList, .normal⟩, ⟨"a:b".toList, .param⟩]
    rfl rfl
    (by
      intro pre name value post e
      rcases pre with _ | ⟨x, _ | ⟨y, pre⟩⟩
      · simp at e
      · simp only [List.cons_append, List.nil_append, List.cons.injEq, PatSeg.par.injEq] at e
        obtain ⟨e1, ⟨_, e2⟩, _⟩ := e
        subst e1 e2
        rfl
      · simp at e)
    ⟨[], 8⟩ (by decide)⟩

/-- With room in the buffer for one parameter per remaining segment, `GetValue`
returns on a trie whose wildcard children have a text. -/
theorem GetValue_total (segs : List pathSegment) :
    ∀ (r : node) (params : Params), segs ≠ [] → WildKeyed r →
      params.elems.length + segs.length ≤ params.cap →
      ∃ res, GetValue r segs params = some res := by
  induction segs with
  | nil => intro r params h; exact absurd rfl h
  | cons seg rest ih =>
    intro r params _ hr hcap
    simp only [List.length_cons] at hcap
    have hcont : ∀ (nd : node) (k : GoString) (params' : Params),
        mapGet r.children k = some nd →
        params'.elems.length + rest.length ≤ params'.cap →
        ∃ res, descend nd rest params' = some res := by
      intro nd k params' hg hc
      cases rest with
      | nil => exact ⟨_, rfl⟩
      | cons s rest' =>
        rw [descend_cons]
        exact ih nd params' (by simp) (WildKeyed_child r nd k hr hg) hc
    cases hg : mapGet r.children seg.value with
    | some nd =>
      rw [GetValue_cons_found _ nd _ _ _ hg]
      exact hcont nd _ params hg (by omega)
    | none =>
      cases hw : mapGet r.children wildcard with
      | none => exact ⟨_, GetValue_cons_none _ _ _ _ hg hw⟩
      | some nd =>
        have hval : nd.pathSegment.value ≠ [] :=
          hr [] nd (by simp only [List.nil_append, nodeAt, hw])
        obtain ⟨c, key, hck⟩ := List.exists_cons_of_ne_nil hval
        rw [GetValue_cons_wild _ nd _ _ _ c key hg hw (by omega) hck]
        exact hcont nd _ _ hw (by
          simp only [List.length_append, List.length_singleton]
          omega)

/-- What the code does guarantee about the totality of the lookup: on every table
built by successful registrations on a fresh tree, `GetReqValue` returns for every method and every
non-empty path, provided the buffer has room for one parameter per segment
that follows the root segment. -/
theorem GetReqValue_total (rs : List Route) (t : methodTree)
    (hreg : addRoutes NewTree rs = some t) (m : GoString) (c0 : Char) (body : GoString)
    (params : Params)
    (hcap : params.elems.length + (scan body [] .normal true).1.length ≤ params.cap) :
    ∃ res, GetReqValue t m (c0 :: body) params = some res := by
  rw [GetReqValue_cons]
  by_cases hv : (scan body [] .normal true).2 = false
  · rw [if_pos hv]; exact ⟨_, rfl⟩
  · rw [if_neg hv]
    cases hg : mapGet t.tree m with
    | none => exact ⟨_, rfl⟩
    | some n =>
      simp only []
      by_cases hs : (scan body [] .normal true).1 = []
      · rw [if_pos hs]; exact ⟨_, rfl⟩
      · rw [if_neg hs]
        exact GetValue_total _ n params hs
          (WildKeyed_addRoutes rs NewTree t hreg WildKeyed_NewTree m n hg) hcap

/-! ## A trailing slash after a parameter -/

/-- Segmentation of a body of nice chunks followed by a final `'/'`: one segment
per chunk and a trailing segment `"/"` that has the kind of the last chunk. -/
theorem scan_joinBody_nice_slash (pre : List GoString) :
    ∀ (last : GoString), (∀ c ∈ pre ++ [last], NiceChunk c) → ∀ v : Bool,
    scan (joinBody (pre ++ [last]) ++ ['/']) [] .normal v
      = ((pre ++ [last]).map (fun c => (⟨c, niceKind c⟩ : pathSegment))
          ++ [⟨['/'], niceKind last⟩], v) := by
  induction pre with
  | nil =>
    intro last hn v
    have hl := hn last (by simp)
    simp only [List.nil_append, joinBody]
    rw [scan_chunk_slash_end last hl.2.1, (markScan_nice last hl v).1]
    simp
  | cons c pre' ih =>
    intro last hn v
    have hc := hn c (by simp)
    obtain ⟨c', cs, e⟩ : ∃ c' cs, pre' ++ [last] = c' :: cs :=
      List.exists_cons_of_ne_nil (by simp)
    have hJ : joinBody (c :: pre' ++ [last]) ++ ['/']
        = c ++ '/' :: (joinBody (pre' ++ [last]) ++ ['/']) := by
      rw [List.cons_append, e, joinBody]
      simp
    obtain ⟨x, xs, hx⟩ : ∃ x xs, joinBody (pre' ++ [last]) ++ ['/'] = x :: xs :=
      List.exists_cons_of_ne_nil (by simp)
    rw [hJ, hx, scan_chunk_slash c x xs hc.2.1, (markScan_nice c hc v).1, ← hx,
      ih last (fun d hd => hn d (by simp [List.mem_append] at hd ⊢; tauto))]
    simp

/-- The lookup of a request that follows a pattern registered alone continues,
after the segments of the pattern, below the node of its last segment with the
parameters of the pattern bound. -/
theorem descend_insertAt_fresh_append (h : HandlersChain) (E R : List pathSegment)
    (segs : List PatSeg) :
    ∀ (ps : pathSegment) (params : Params), (∀ s ∈ segs, s.Ok) →
      params.elems.length + (segs.filterMap PatSeg.binding).length ≤ params.cap →
      ∃ ps', descend (insertAt (.mk ps [] []) ((segs.map fun s => segOf s.pattern) ++ E) h)
          ((segs.map fun s => segOf s.request) ++ R) params
        = descend (insertAt (.mk ps' [] []) E h) R
            { params with elems := params.elems ++ segs.filterMap PatSeg.binding } := by
  induction segs with
  | nil => intro ps params _ _; exact ⟨ps, by simp⟩
  | cons s rest ih =>
    intro ps params hok hcap
    have hs := hok s (by simp)
    have hrest : ∀ x ∈ rest, x.Ok := fun x hx => hok x (by simp [hx])
    have htree : insertAt (.mk ps [] []) (((s :: rest).map fun s => segOf s.pattern) ++ E) h
        = .mk ps [(keyOf (segOf s.pattern),
            insertAt (.mk (segOf s.pattern) [] [])
              ((rest.map fun s => segOf s.pattern) ++ E) h)] [] := by
      simp [insertAt, mapGet, mapSet]
    rw [htree, List.map_cons, List.cons_append, descend_cons]
    cases s with
    | lit t =>
      have hk : keyOf (segOf (PatSeg.lit t).pattern) = t := keyOf_segOf_plain hs
      have hcap' : params.elems.length + (rest.filterMap PatSeg.binding).length
          ≤ params.cap := by simpa [PatSeg.binding] using hcap
      rw [GetValue_cons_found _
        (insertAt (.mk (segOf (PatSeg.lit t).pattern) [] [])
          ((rest.map fun s => segOf s.pattern) ++ E) h) _ _ _
        (by simp only [children_mk, hk, mapGet]; simp [segOf, PatSeg.request])]
      obtain ⟨ps', e⟩ := ih (segOf (PatSeg.lit t).pattern) params hrest hcap'
      exact ⟨ps', by rw [e]; simp [PatSeg.binding]⟩
    | par n v =>
      have hk : keyOf (segOf (PatSeg.par n v).pattern) = wildcard := keyOf_segOf_param n
      have hv : v ≠ wildcard := hs.2.2
      have hcap1 : params.elems.length + 1 ≤ params.cap := by
        simp [PatSeg.binding] at hcap; omega
      have hcap' : (params.elems ++ [({ Key := n, Value := v } : Param)]).length
          + (rest.filterMap PatSeg.binding).length ≤ params.cap := by
        simp [PatSeg.binding] at hcap ⊢; omega
      rw [GetValue_cons_wild _
        (insertAt (.mk (segOf (PatSeg.par n v).pattern) [] [])
          ((rest.map fun s => segOf s.pattern) ++ E) h) _ _ _ ':' n
        (by simp only [children_mk, hk, mapGet]
            simp [segOf, PatSeg.request, Ne.symm hv])
        (by simp only [children_mk, hk, mapGet]; simp) hcap1
        (by simp [insertAt_pathSegment, segOf, PatSeg.pattern])]
      have hv' : (segOf (PatSeg.par n v).request).value = v := rfl
      rw [hv']
      obtain ⟨ps', e⟩ := ih (segOf (PatSeg.par n v).pattern)
        { params with elems := params.elems ++ [{ Key := n, Value := v }] } hrest hcap'
      exact ⟨ps', by rw [e]; simp [PatSeg.binding]⟩

/-- Below a node whose only child is the trailing segment `"/"` stored with the
kind `param`, every last request segment other than the reserved key is bound
to a parameter with the empty name, and the chain of the child is returned. -/
theorem descend_trailing_param (h : HandlersChain) (ps : pathSegment) (x : GoString)
    (k : nodeKind) (hx : x ≠ wildcard) (params : Params)
    (hcap : params.elems.length + 1 ≤ params.cap) :
    descend (insertAt (.mk ps [] []) [⟨['/'], .param⟩] h) [⟨x, k⟩] params
      = some ({ handlers := h,
                params := some { params with
                  elems := params.elems ++ [{ Key := [], Value := x }] } },
              { params with elems := params.elems ++ [{ Key := [], Value := x }] }) := by
  have htree : insertAt (.mk ps [] []) [⟨['/'], .param⟩] h
      = .mk ps [(wildcard, .mk ⟨['/'], .param⟩ [] h)] [] := by rfl
  rw [htree, descend_cons,
    GetValue_cons_wild _ (.mk ⟨['/'], .param⟩ [] h) _ _ _ '/' []
      (by simp [mapGet, Ne.symm hx]) (by simp [mapGet]) hcap rfl]
  rfl

theorem GetValue_eq_descend (n : node) (L : List pathSegment) (params : Params)
    (hL : L ≠ []) : GetValue n L params = descend n L params := by
  cases L with
  | nil => exact absurd rfl hL
  | cons a l => rfl

/-- C31 (code at the failing input): a pattern of literal and `:name` segments
that ends in a `:name` segment, registered alone with a trailing `'/'` on a
fresh tree, stores the trailing segment `"/"` with the kind `param` under the
reserved key.  The matched lookup of the request with the trailing `'/'` then
binds, after the parameters of the pattern, one more entry with the empty name
and the value `"/"`; and the request with a further segment `x` in place of the
trailing `'/'` is matched too, with `x` bound to the empty name. -/
theorem trailing_slash_acts_as_param (pre : List PatSeg) (name value : GoString)
    (hok : ∀ s ∈ pre ++ [PatSeg.par name value], s.Ok)
    (m : GoString) (hm : m ∈ httpMethods) (h : HandlersChain) (hh : h ≠ []) (cap : Nat)
    (hcap : ((pre ++ [PatSeg.par name value]).filterMap PatSeg.binding).length + 1 ≤ cap) :
    ∃ t, AddRoute NewTree m
        ('/' :: (joinBody ((pre ++ [PatSeg.par name value]).map PatSeg.pattern) ++ ['/']))
        h = some t ∧
      GetReqValue t m
          ('/' :: (joinBody ((pre ++ [PatSeg.par name value]).map PatSeg.request) ++ ['/']))
          ⟨[], cap⟩
        = some ({ handlers := h,
                  params := some ⟨(pre ++ [PatSeg.par name value]).filterMap PatSeg.binding
                    ++ [⟨[], ['/']⟩], cap⟩ },
            ⟨(pre ++ [PatSeg.par name value]).filterMap PatSeg.binding
              ++ [⟨[], ['/']⟩], cap⟩) ∧
      ∀ x : GoString, PlainText x → x ≠ wildcard →
        GetReqValue t m
            ('/' :: joinBody ((pre ++ [PatSeg.par name value]).map PatSeg.request ++ [x]))
            ⟨[], cap⟩
          = some ({ handlers := h,
                    params := some ⟨(pre ++ [PatSeg.par name value]).filterMap PatSeg.binding
                      ++ [⟨[], x⟩], cap⟩ },
              ⟨(pre ++ [PatSeg.par name value]).filterMap PatSeg.binding
                ++ [⟨[], x⟩], cap⟩) := by
  have hpn : ∀ c ∈ pre.map PatSeg.pattern ++ [':' :: name], NiceChunk c := by
    intro c hc
    have hc' : c ∈ (pre ++ [PatSeg.par name value]).map PatSeg.pattern := by
      simpa [PatSeg.pattern] using hc
    obtain ⟨s, hs, e⟩ := List.mem_map.mp hc'
    exact e ▸ (hok s hs).pattern_nice
  have hrn : ∀ c ∈ pre.map PatSeg.request ++ [value], NiceChunk c := by
    intro c hc
    have hc' : c ∈ (pre ++ [PatSeg.par name value]).map PatSeg.request := by
      simpa [PatSeg.request] using hc
    obtain ⟨s, hs, e⟩ := List.mem_map.mp hc'
    exact e ▸ (hok s hs).request_nice
  have hval : PlainText value := (hok (.par name value) (by simp)).2.1
  have hpat : scan (joinBody ((pre ++ [PatSeg.par name value]).map PatSeg.pattern) ++ ['/'])
        [] .normal true
      = (((pre ++ [PatSeg.par name value]).map fun s => segOf s.pattern)
          ++ [⟨['/'], .param⟩], true) := by
    have e : (pre ++ [PatSeg.par name value]).map PatSeg.pattern
        = pre.map PatSeg.pattern ++ [':' :: name] := by simp [PatSeg.pattern]
    rw [e, scan_joinBody_nice_slash _ _ hpn, ← e]
    simp [List.map_map, segOf, Function.comp, niceKind]
  have hreq1 : scan (joinBody ((pre ++ [PatSeg.par name value]).map PatSeg.request) ++ ['/'])
        [] .normal true
      = (((pre ++ [PatSeg.par name value]).map fun s => segOf s.request)
          ++ [⟨['/'], .normal⟩], true) := by
    have e : (pre ++ [PatSeg.par name value]).map PatSeg.request
        = pre.map PatSeg.request ++ [value] := by simp [PatSeg.request]
    rw [e, scan_joinBody_nice_slash _ _ hrn, ← e]
    simp [List.map_map, segOf, Function.comp, hval.niceKind]
  have hroot : newRootNode = .mk ⟨['/'], .root⟩ [] [] := rfl
  have hlook : ∀ (x : GoString) (k : nodeKind), x ≠ wildcard →
      GetValue (insertAt newRootNode
          (((pre ++ [PatSeg.par name value]).map fun s => segOf s.pattern)
            ++ [⟨['/'], .param⟩]) h)
        (((pre ++ [PatSeg.par name value]).map fun s => segOf s.request) ++ [⟨x, k⟩])
        ⟨[], cap⟩
      = some ({ handlers := h,
                params := some ⟨(pre ++ [PatSeg.par name value]).filterMap PatSeg.binding
                  ++ [⟨[], x⟩], cap⟩ },
          ⟨(pre ++ [PatSeg.par name value]).filterMap PatSeg.binding ++ [⟨[], x⟩], cap⟩) := by
    intro x k hx
    rw [GetValue_eq_descend _ _ _ (by simp), hroot]
    obtain ⟨ps', e⟩ := descend_insertAt_fresh_append h [⟨['/'], .param⟩] [⟨x, k⟩]
      (pre ++ [PatSeg.par name value]) ⟨['/'], .root⟩ ⟨[], cap⟩ hok
      (by simp only [List.length_nil, Nat.zero_add]; omega)
    rw [e, descend_trailing_param h ps' x k hx _
      (by simp only [List.nil_append]; exact hcap)]
    simp
  refine ⟨⟨mapSet NewTree.tree m (insertAt newRootNode
      (((pre ++ [PatSeg.par name value]).map fun s => segOf s.pattern)
        ++ [⟨['/'], .param⟩]) h), NewTree.supportedMethods⟩, ?_, ?_, ?_⟩
  · rw [AddRoute_slash, hpat, if_pos ⟨httpMethods_ne_nil m hm, hh, rfl⟩, mapGet_NewTree,
      if_pos hm]
    rfl
  · rw [GetReqValue_cons, hreq1]
    simp only [Bool.true_eq_false, if_false, mapGet_mapSet_self]
    rw [if_neg (by simp)]
    exact hlook ['/'] .normal (by decide)
  · intro x hx hxw
    have hn : ∀ c ∈ (pre ++ [PatSeg.par name value]).map PatSeg.request ++ [x],
        NiceChunk c := by
      intro c hc
      rcases List.mem_append.mp hc with hc | hc
      · obtain ⟨s, hs, e⟩ := List.mem_map.mp hc
        exact e ▸ (hok s hs).request_nice
      · simp only [List.mem_singleton] at hc
        exact hc ▸ hx.nice
    have hreq2 := scan_joinBody_nice
      ((pre ++ [PatSeg.par name value]).map PatSeg.request ++ [x]) (by simp) hn true
    rw [GetReqValue_cons, hreq2]
    simp only [Bool.true_eq_false, if_false, mapGet_mapSet_self]
    rw [if_neg (by simp)]
    have e : ((pre ++ [PatSeg.par name value]).map PatSeg.request ++ [x]).map
          (fun c => (⟨c, niceKind c⟩ : pathSegment))
        = ((pre ++ [PatSeg.par name value]).map fun s => segOf s.request)
            ++ [⟨x, .normal⟩] := by
      simp [List.map_map, segOf, Function.comp, hx.niceKind]
    rw [e]
    exact hlook x .normal hxw

/-- Witness for C31: the pattern `/user/:name/` under GET; the request
`/user/alice/` binds `name = alice` and a second entry with the empty name and
the value `"/"`, and the request `/user/alice/bob` is matched with `bob` bound to
the empty name. -/
theorem trailing_slash_acts_as_param_witness :
    ∃ t, AddRoute NewTree "GET".toList "/user/:name/".toList [1] = some t ∧
      GetReqValue t "GET".toList "/user/alice/".toList ⟨[], 8⟩
        = some ({ handlers := [1],
                  params := some ⟨[⟨"name".toList, "alice".toList⟩, ⟨[], ['/']⟩], 8⟩ },
            ⟨[⟨"name".toList, "alice".toList⟩, ⟨[], ['/']⟩], 8⟩) ∧
      GetReqValue t "GET".toList "/user/alice/bob".toList ⟨[], 8⟩
        = some ({ handlers := [1],
                  params := some ⟨[⟨"name".toList, "alice".toList⟩, ⟨[], "bob".toList⟩], 8⟩ },
            ⟨[⟨"name".toList, "alice".toList⟩, ⟨[], "bob".toList⟩], 8⟩) :=
  let ⟨t, h1, h2, h3⟩ := trailing_slash_acts_as_param [PatSeg.lit "user".toList]
    "name".toList "alice".toList
    (by
      intro s hs
      simp only [List.cons_append, List.nil_append, List.mem_cons, List.mem_singleton,
        List.not_mem_nil, or_false] at hs
      rcases hs with e | e <;> subst e <;> simp only [PatSeg.Ok, PlainText] <;> decide)
    "GET".toList (by decide) [1] (by simp) 8 (by decide)
  ⟨t, h1, h2, h3 "bob".toList (by simp only [PlainText]; decide) (by decide)⟩

end Gateway2
